import Mathlib

/-!
Verification of the TrendRadar aggregation/matching/diffing engine (src/main.py).

Python strings are modelled as `List Char`.  Python `dict`s (which preserve
insertion order) are modelled as association lists with an update-in-place /
append-at-end assignment operation.  Pure cores of the file-reading functions
take the file content (or the parsed file list) as an explicit argument.
-/

set_option maxHeartbeats 1000000

namespace TrendRadar

abbrev Str := List Char

/-! ## Python string primitives -/

/-- Characters stripped by Python `str.strip()` (the ASCII whitespace subset;
unicode whitespace does not occur in the data handled here). -/
def isSpaceChar (c : Char) : Bool :=
  c = ' ' || c = '\t' || c = '\n' || c = '\r' || c = '\x0b' || c = '\x0c'

/-- Python `s.lstrip()`. -/
def lstrip (s : Str) : Str := s.dropWhile isSpaceChar

/-- Python `s.rstrip()`. -/
def rstrip (s : Str) : Str := (s.reverse.dropWhile isSpaceChar).reverse

/-- Python `s.strip()`. -/
def pyStrip (s : Str) : Str := rstrip (lstrip s)

/-- `sep` occurs in `s` starting at index `i`. -/
def OccursAt (sep s : Str) (i : Nat) : Prop := sep <+: s.drop i

instance (sep s : Str) (i : Nat) : Decidable (OccursAt sep s i) := by
  unfold OccursAt; infer_instance

/-- Python `sep in s` (substring containment). -/
def containsStr (s sep : Str) : Bool :=
  match s with
  | [] => sep.isEmpty
  | _ :: rest => sep.isPrefixOf s || containsStr rest sep

/-- Worker for `splitOnStr`: left-to-right scan for non-overlapping occurrences
of `sep`, accumulating the current piece in reverse.  The fuel argument makes
the recursion structural; with fuel ≥ `s.length` (and a non-empty `sep`) the
fuel never runs out. -/
def splitGo (sep : Str) : Nat → Str → Str → List Str
  | 0, s, acc => [acc.reverse ++ s]
  | _ + 1, [], acc => [acc.reverse]
  | fuel + 1, c :: rest, acc =>
    if sep.isPrefixOf (c :: rest) ∧ sep ≠ [] then
      acc.reverse :: splitGo sep fuel ((c :: rest).drop sep.length) []
    else
      splitGo sep fuel rest (c :: acc)

/-- Python `s.split(sep)` for a non-empty separator (Python raises on an empty
separator; the `[s]` fallback below is never exercised). -/
def splitOnStr (sep s : Str) : List Str :=
  if sep = [] then [s] else splitGo sep s.length s []

/-- Python `s.split(sep, 1)`: the piece before the first occurrence of `sep`
and the remainder after it (the remainder equals `sep`-joined later pieces). -/
def pySplitFirst (sep s : Str) : Str × Str :=
  let parts := splitOnStr sep s
  (parts.headD [], List.intercalate sep parts.tail)

/-- Index of the rightmost occurrence of `sep` in `s`, if any. -/
def rfindStr (sep s : Str) : Option Nat :=
  ((List.range (s.length + 1)).filter (fun i => sep.isPrefixOf (s.drop i))).getLast?

/-- Python `s.rsplit(sep, 1)` when `sep in s`: split at the rightmost
occurrence.  (Both call sites in main.py guard with `sep in s`.) -/
def pyRsplitOnce (sep s : Str) : Str × Str :=
  match rfindStr sep s with
  | some i => (s.take i, s.drop (i + sep.length))
  | none => (s, [])

/-- Python `s.isdigit()` (ASCII digits; only ever applied to ASCII data here). -/
def isdigitStr (s : Str) : Bool := !s.isEmpty && s.all (·.isDigit)

/-- Python `int(s)` on a digit string. -/
def strToNat (s : Str) : Nat := s.foldl (fun a c => a * 10 + (c.toNat - 48)) 0

/-- Fueled worker for `natStr`; with fuel > `n` the fuel never runs out. -/
def natStrAux : Nat → Nat → Str
  | 0, _ => []
  | fuel + 1, n =>
    if n < 10 then [Char.ofNat (48 + n)]
    else natStrAux fuel (n / 10) ++ [Char.ofNat (48 + n % 10)]

/-- Python `str(n)` for a natural number (decimal digits, no sign). -/
def natStr (n : Nat) : Str := natStrAux (n + 1) n

/-- Python `s.lower()` (ASCII case folding; main.py lowercases titles and
keywords only to compare them, so the exact case table is immaterial to the
properties proved below). -/
def pyLower (s : Str) : Str := s.map Char.toLower

/-! ## Python dict primitives (insertion-ordered association lists) -/

/-- Python `d.get(k)`. -/
def dGet (m : List (Str × α)) (k : Str) : Option α :=
  (m.find? (fun p => p.1 == k)).map (·.2)

/-- Python `k in d`. -/
def dMem (m : List (Str × α)) (k : Str) : Bool := m.any (fun p => p.1 == k)

/-- Python `d[k] = v`: update in place if the key is present (keeping its
position), otherwise append at the end. -/
def dSet (m : List (Str × α)) (k : Str) (v : α) : List (Str × α) :=
  if dMem m k then m.map (fun p => if p.1 == k then (k, v) else p) else m ++ [(k, v)]

/-! ### Dict lemmas -/

theorem dGet_cons (p : Str × α) (m : List (Str × α)) (k : Str) :
    dGet (p :: m) k = if p.1 = k then some p.2 else dGet m k := by
  by_cases h : p.1 = k <;> simp [dGet, List.find?_cons, h]

theorem dGet_append (m₁ m₂ : List (Str × α)) (k : Str) :
    dGet (m₁ ++ m₂) k = (dGet m₁ k).or (dGet m₂ k) := by
  simp only [dGet, List.find?_append]
  cases List.find? (fun p => p.1 == k) m₁ <;> simp

theorem dMem_cons (p : Str × α) (m : List (Str × α)) (k : Str) :
    dMem (p :: m) k = (p.1 == k || dMem m k) := by
  rfl

theorem dMem_iff_dGet (m : List (Str × α)) (k : Str) :
    dMem m k = true ↔ (dGet m k).isSome := by
  induction m with
  | nil => simp [dMem, dGet]
  | cons p m ih => by_cases h : p.1 = k <;> simp [dMem_cons, dGet_cons, h, ih]

theorem dMem_eq_false_iff (m : List (Str × α)) (k : Str) :
    dMem m k = false ↔ k ∉ m.map Prod.fst := by
  simp only [dMem, List.any_eq_false, List.mem_map, beq_iff_eq]
  constructor
  · rintro h ⟨p, hp, rfl⟩
    exact h p hp rfl
  · intro h p hp e
    exact h ⟨p, hp, e⟩

theorem dSet_of_not_mem (m : List (Str × α)) (k : Str) (v : α) (h : dMem m k = false) :
    dSet m k v = m ++ [(k, v)] := by
  simp [dSet, h]

theorem dGet_updateMap (m : List (Str × α)) (k : Str) (v : α) (k' : Str) :
    dGet (m.map (fun p => if p.1 == k then (k, v) else p)) k'
      = if k' = k then (if dMem m k then some v else none) else dGet m k' := by
  induction m with
  | nil => by_cases h : k' = k <;> simp [dGet, dMem, h]
  | cons p m ih =>
    rw [List.map_cons, dGet_cons, ih, dGet_cons, dMem_cons]
    by_cases hpk : p.1 = k
    · by_cases hk : k' = k
      · subst hk
        simp [hpk]
      · have hk2 : ¬k = k' := fun e => hk (Eq.symm e)
        have hpk' : ¬p.1 = k' := by
          rw [hpk]; exact hk2
        simp [hpk, hk, hk2, hpk']
    · by_cases hk : k' = k
      · subst hk
        simp [hpk]
      · by_cases hpk' : p.1 = k' <;> simp [hpk, hk, hpk']

theorem dGet_dSet_self (m : List (Str × α)) (k : Str) (v : α) :
    dGet (dSet m k v) k = some v := by
  by_cases h : dMem m k
  · simp only [dSet, h, if_true, dGet_updateMap, if_pos rfl]
  · rw [dSet_of_not_mem m k v (by simpa using h), dGet_append]
    have : dGet m k = none := by
      cases hz : dGet m k
      · rfl
      · exact absurd ((dMem_iff_dGet m k).mpr (by simp [hz])) (by simpa using h)
    simp [this, dGet_cons]

theorem dGet_dSet_ne (m : List (Str × α)) (k : Str) (v : α) (k' : Str) (h : k' ≠ k) :
    dGet (dSet m k v) k' = dGet m k' := by
  by_cases hm : dMem m k
  · simp only [dSet, hm, if_true, dGet_updateMap, if_neg h]
  · rw [dSet_of_not_mem m k v (by simpa using hm), dGet_append]
    cases hz : dGet m k' <;> simp [hz, dGet_cons, dGet, Ne.symm h]

theorem keys_dSet (m : List (Str × α)) (k : Str) (v : α) :
    (dSet m k v).map Prod.fst =
      if dMem m k then m.map Prod.fst else m.map Prod.fst ++ [k] := by
  by_cases h : dMem m k
  · simp only [dSet, h, if_true, List.map_map]
    refine List.map_congr_left (fun p _ => ?_)
    by_cases hp : p.1 = k <;> simp [hp]
  · simp [dSet, h]

theorem nodupKeys_eq {m : List (Str × α)} (h : (m.map Prod.fst).Nodup)
    {k : Str} {v₁ v₂ : α} (h₁ : (k, v₁) ∈ m) (h₂ : (k, v₂) ∈ m) : v₁ = v₂ := by
  induction m with
  | nil => cases h₁
  | cons p m ih =>
    simp only [List.map_cons, List.nodup_cons, List.mem_map] at h
    rcases List.mem_cons.mp h₁ with e₁ | e₁ <;> rcases List.mem_cons.mp h₂ with e₂ | e₂
    · rw [← e₁] at e₂
      exact congrArg Prod.snd e₂.symm
    · exact absurd ⟨(k, v₂), e₂, by rw [← e₁]⟩ h.1
    · exact absurd ⟨(k, v₁), e₁, by rw [← e₂]⟩ h.1
    · exact ih h.2 e₁ e₂

/-- One step of a dict-insertion fold: insert the emitted key/value pair, if
any. -/
def dInsertStep {γ β : Type} (emit : γ → Option (Str × β))
    (a : List (Str × β)) (p : γ) : List (Str × β) :=
  match emit p with
  | some q => dSet a q.1 q.2
  | none => a

/-- A fold of dict insertions whose emitted keys are fresh and pairwise
distinct is the corresponding `filterMap` appended to the accumulator. -/
theorem foldl_dSet_filterMap {γ β : Type} (emit : γ → Option (Str × β))
    (l : List γ) (acc : List (Str × β))
    (h : ((acc ++ l.filterMap emit).map Prod.fst).Nodup) :
    l.foldl (dInsertStep emit) acc = acc ++ l.filterMap emit := by
  induction l generalizing acc with
  | nil => simp
  | cons p l ih =>
    cases he : emit p with
    | none =>
      have hcons : List.filterMap emit (p :: l) = List.filterMap emit l := by
        simp [List.filterMap_cons, he]
      rw [hcons] at h
      have := ih acc h
      simpa [List.foldl_cons, dInsertStep, he, hcons] using this
    | some q =>
      have hcons : List.filterMap emit (p :: l) = q :: List.filterMap emit l := by
        simp [List.filterMap_cons, he]
      rw [hcons] at h
      have hfresh : dMem acc q.1 = false := by
        rw [dMem_eq_false_iff]
        intro hk
        rw [List.map_append, List.nodup_append] at h
        exact h.2.2 hk (by exact List.mem_map_of_mem Prod.fst (List.mem_cons_self q _))
      have hacc : ((acc ++ [q]) ++ (List.filterMap emit l)).map Prod.fst |>.Nodup := by
        rw [List.append_assoc, List.singleton_append]
        exact h
      have hstep : dInsertStep emit acc p = acc ++ [q] := by
        simp [dInsertStep, he, dSet_of_not_mem acc q.1 q.2 hfresh]
      rw [List.foldl_cons, hstep, ih (acc ++ [q]) hacc, hcons, List.append_assoc,
        List.singleton_append]

/-- Keys produced by a fold of dict insertions are the accumulator's keys or
emitted keys. -/
theorem mem_keys_foldl_dSet {γ β : Type} (emit : γ → Option (Str × β))
    (l : List γ) (acc : List (Str × β)) (k : Str)
    (hk : k ∈ ((l.foldl (dInsertStep emit) acc).map Prod.fst)) :
    k ∈ acc.map Prod.fst ∨ ∃ p ∈ l, ∃ b, emit p = some (k, b) := by
  induction l generalizing acc with
  | nil => exact Or.inl hk
  | cons p l ih =>
    simp only [List.foldl_cons] at hk
    cases he : emit p with
    | none =>
      rw [show dInsertStep emit acc p = acc by simp [dInsertStep, he]] at hk
      rcases ih acc hk with h | ⟨p', hp', hb⟩
      · exact Or.inl h
      · exact Or.inr ⟨p', List.mem_cons_of_mem _ hp', hb⟩
    | some q =>
      rw [show dInsertStep emit acc p = dSet acc q.1 q.2 by simp [dInsertStep, he]] at hk
      rcases ih (dSet acc q.1 q.2) hk with h | ⟨p', hp', hb⟩
      · rw [keys_dSet] at h
        by_cases hm : dMem acc q.1
        · rw [if_pos hm] at h
          exact Or.inl h
        · rw [if_neg hm] at h
          rcases List.mem_append.mp h with h' | h'
          · exact Or.inl h'
          · refine Or.inr ⟨p, List.mem_cons_self p l, q.2, ?_⟩
            rw [he, List.mem_singleton.mp h']
      · exact Or.inr ⟨p', List.mem_cons_of_mem _ hp', hb⟩

/-! ## Stable sorting

Python `list.sort` is stable; both call sites in main.py are modelled by a
Boolean insertion sort (any two stable sorts for the same key agree). -/

def pyOrderedInsert (le : α → α → Bool) (a : α) : List α → List α
  | [] => [a]
  | b :: l => if le a b then a :: b :: l else b :: pyOrderedInsert le a l

def pyInsertionSort (le : α → α → Bool) : List α → List α
  | [] => []
  | b :: l => pyOrderedInsert le b (pyInsertionSort le l)

/-! ## Data model -/

/-- One title's per-snapshot record (`{"ranks": ..., "url": ..., "mobileUrl": ...}`). -/
structure TitleData where
  ranks : List Nat
  url : Str
  mobileUrl : Str
deriving DecidableEq

/-- One source's title dict, in discovery order. -/
abbrev SourceTitles := List (Str × TitleData)

/-- A parsed snapshot file: display-alias-keyed map of source title dicts. -/
abbrev ParsedFile := List (Str × SourceTitles)

def nlStr : Str := ['\n']
def sepNN : Str := ['\n', '\n']
def rankSepStr : Str := ". ".data
def urlTagStr : Str := " [URL:".data
def mobileTagStr : Str := " [MOBILE:".data
def failMarker : Str := "==== 以下ID请求失败 ====".data

/-! ## TextCodec: save_titles_to_file (encode, main.py 304-350) -/

/-- One title line as written by `save_titles_to_file` (main.py 333-340):
`"<rank>. <title>[ [URL:<url>]][ [MOBILE:<mobileUrl>]]"`. -/
def titleLine (rank : Nat) (title url mobileUrl : Str) : Str :=
  let l1 := natStr rank ++ rankSepStr ++ title
  let l2 := if url ≠ [] then l1 ++ urlTagStr ++ url ++ [']'] else l1
  if mobileUrl ≠ [] then l2 ++ mobileTagStr ++ mobileUrl ++ [']'] else l2

/-- The rank used for sorting and for the line prefix:
`ranks[0] if ranks else 1` (main.py 328). -/
def firstRank (d : TitleData) : Nat := d.ranks.headD 1

/-- `sorted_titles.sort(key=lambda x: x[0])` (main.py 331).  Python `list.sort`
is stable; a stable sort is modelled by insertion sort (any two stable sorts
for the same key agree). -/
def sortedTitleEntries (titles : SourceTitles) : SourceTitles :=
  pyInsertionSort (fun a b => firstRank a.2 ≤ firstRank b.2) titles

/-- The block written for one source (main.py 312-342): alias line, one line
per title in rank order, and the blank separator line. -/
def encodeSection (aliasName : Str) (titles : SourceTitles) : Str :=
  aliasName ++ nlStr
    ++ ((sortedTitleEntries titles).map
        (fun p => titleLine (firstRank p.2) p.1 p.2.url p.2.mobileUrl ++ nlStr)).flatten
    ++ nlStr

/-- The failure section (main.py 344-348). -/
def failSection (failedIds : List Str) (idToAlias : List (Str × Str)) : Str :=
  if failedIds = [] then []
  else failMarker ++ nlStr
    ++ (failedIds.map
        (fun i => ((dGet idToAlias i).getD i) ++ " (ID: ".data ++ i ++ [')'] ++ nlStr)).flatten

/-- The full file content written by `save_titles_to_file` (main.py 304-350),
with the file path plumbing stripped away. -/
def saveTitlesContent (results : List (Str × SourceTitles))
    (idToAlias : List (Str × Str)) (failedIds : List Str) : Str :=
  (results.map (fun p => encodeSection ((dGet idToAlias p.1).getD p.1) p.2)).flatten
    ++ failSection failedIds idToAlias

/-! ## TextCodec: _parse_file_titles (decode, main.py 240-302) -/

/-- Parse one title line (main.py 262-297): peel the rank prefix, then the
trailing MOBILE tag, then the trailing URL tag. -/
def parseTitleLine (line : Str) : Str × TitleData :=
  let tp0 := pyStrip line
  let pr0 :=
    if containsStr tp0 rankSepStr && isdigitStr ((splitOnStr rankSepStr tp0).headD []) then
      let pr := pySplitFirst rankSepStr tp0
      (some (strToNat pr.1), pr.2)
    else ((none : Option Nat), tp0)
  let pr1 :=
    if containsStr pr0.2 mobileTagStr then
      let pr := pyRsplitOnce mobileTagStr pr0.2
      if [']'].isSuffixOf pr.2 then (pr.1, pr.2.dropLast) else (pr.1, ([] : Str))
    else (pr0.2, ([] : Str))
  let pr2 :=
    if containsStr pr1.1 urlTagStr then
      let pr := pyRsplitOnce urlTagStr pr1.1
      if [']'].isSuffixOf pr.2 then (pr.1, pr.2.dropLast) else (pr.1, ([] : Str))
    else (pr1.1, ([] : Str))
  (pyStrip pr2.1, ⟨[(pr0.1.getD 1)], pr2.2, pr1.2⟩)

/-- Parse one blank-line-delimited section of a snapshot file
(main.py 249-258): `none` when the section is skipped. -/
def parseSec (s : Str) : Option (Str × SourceTitles) :=
  if pyStrip s = [] ∨ containsStr s failMarker then none
  else
    let lines := splitOnStr nlStr (pyStrip s)
    if lines.length < 2 then none
    else
      let sourceName := pyStrip (lines.headD [])
      let body := lines.tail.filter (fun l => pyStrip l ≠ [])
      some (sourceName,
        body.foldl (fun acc l => let p := parseTitleLine l; dSet acc p.1 p.2) [])

/-- `_parse_file_titles` on the file content (main.py 240-302). -/
def parseFileTitles (content : Str) : ParsedFile :=
  (splitOnStr sepNN content).foldl
    (fun acc s =>
      match parseSec s with
      | none => acc
      | some nt => dSet acc nt.1 nt.2) []

/-! ## SnapshotAggregator: _process_source_data (main.py 503-578) -/

/-- One title's aggregated record in `title_info`. -/
structure TitleInfo where
  first_time : Str
  last_time : Str
  count : Nat
  ranks : List Nat
  url : Str
  mobileUrl : Str
deriving DecidableEq

/-- The three dicts threaded through `read_all_today_titles`. -/
structure AggState where
  allResults : List (Str × SourceTitles)
  titleInfo : List (Str × List (Str × TitleInfo))
  idToAlias : List (Str × Str)
deriving DecidableEq

/-- `source_name.lower().replace(" ", "-")` (main.py 533). -/
def reversedId (name : Str) : Str :=
  (pyLower name).map (fun c => if c = ' ' then '-' else c)

/-- Rank merge (main.py 561-564): append each incoming rank not already present. -/
def mergeRanks (existing incoming : List Nat) : List Nat :=
  incoming.foldl (fun a r => if r ∈ a then a else a ++ [r]) existing

def emptyTitleData : TitleData := ⟨[], [], []⟩

def emptyTitleInfo : TitleInfo := ⟨[], [], 0, [], [], []⟩

instance : Inhabited TitleData := ⟨emptyTitleData⟩

instance : Inhabited TitleInfo := ⟨emptyTitleInfo⟩

/-- The `title_info` record created the first time a title is seen
(main.py 524-531 and 547-554). -/
def freshInfo (timeInfo : Str) (d : TitleData) : TitleInfo :=
  ⟨timeInfo, timeInfo, 1, d.ranks, d.url, d.mobileUrl⟩

/-- The body of `_process_source_data`'s merge loop for one `(title, data)`
pair of an already-present source (main.py 536-578). -/
def mergeTitleStep (sourceName timeInfo : Str) (st : AggState)
    (p : Str × TitleData) : AggState :=
  let cur := (dGet st.allResults sourceName).getD []
  let curInfo := (dGet st.titleInfo sourceName).getD []
  if dMem cur p.1 then
    let ex := (dGet cur p.1).getD emptyTitleData
    let merged := mergeRanks ex.ranks p.2.ranks
    let newRec : TitleData :=
      ⟨merged, if ex.url ≠ [] then ex.url else p.2.url,
        if ex.mobileUrl ≠ [] then ex.mobileUrl else p.2.mobileUrl⟩
    let exInfo := (dGet curInfo p.1).getD emptyTitleInfo
    let newInfo : TitleInfo :=
      { exInfo with
        last_time := timeInfo
        ranks := merged
        count := exInfo.count + 1
        url := if exInfo.url = [] then p.2.url else exInfo.url
        mobileUrl := if exInfo.mobileUrl = [] then p.2.mobileUrl else exInfo.mobileUrl }
    { st with
      allResults := dSet st.allResults sourceName (dSet cur p.1 newRec)
      titleInfo := dSet st.titleInfo sourceName (dSet curInfo p.1 newInfo) }
  else
    { st with
      allResults := dSet st.allResults sourceName (dSet cur p.1 p.2)
      titleInfo := dSet st.titleInfo sourceName
        (dSet curInfo p.1 (freshInfo timeInfo p.2)) }

/-- `_process_source_data` (main.py 503-578). -/
def processSourceData (sourceName : Str) (titleData : SourceTitles) (timeInfo : Str)
    (st : AggState) : AggState :=
  if dMem st.allResults sourceName then
    titleData.foldl (mergeTitleStep sourceName timeInfo) st
  else
    let infoMap := titleData.foldl
      (fun m p => dSet m p.1 (freshInfo timeInfo p.2))
      ((dGet st.titleInfo sourceName).getD [])
    { allResults := dSet st.allResults sourceName titleData
      titleInfo := dSet st.titleInfo sourceName infoMap
      idToAlias := dSet st.idToAlias (reversedId sourceName) sourceName }

/-- One decoded section handed to `_process_source_data`. -/
structure SourceCall where
  sourceName : Str
  titleData : SourceTitles
  timeInfo : Str

/-- Folding a chronological sequence of decoded sections through
`_process_source_data`, from the empty state (main.py 419-489). -/
def foldSourceData (calls : List SourceCall) : AggState :=
  calls.foldl (fun st c => processSourceData c.sourceName c.titleData c.timeInfo st)
    ⟨[], [], []⟩

/-- Reverse alias lookup: the first id whose alias equals `name`
(main.py 230-234 and 495-499). -/
def firstIdFor (idToAlias : List (Str × Str)) (name : Str) : Option Str :=
  (idToAlias.find? (fun q => q.2 == name)).map (·.1)

/-- The alias-to-id conversion closing `read_all_today_titles` (main.py 491-501):
sources whose alias matches no live id are dropped. -/
def toIdKeyed (st : AggState) :
    List (Str × SourceTitles) × List (Str × List (Str × TitleInfo)) :=
  st.allResults.foldl (fun acc p =>
    match firstIdFor st.idToAlias p.1 with
    | some i => (dSet acc.1 i p.2, dSet acc.2 i ((dGet st.titleInfo p.1).getD []))
    | none => acc) ([], [])

/-! ## NewTitleDetector: detect_latest_new_titles (main.py 191-238) -/

/-- Adding a source's title keys into a Python `set` modelled as a
duplicate-free list (main.py 216-217). -/
def setAddAll (cur : List Str) (titles : SourceTitles) : List Str :=
  titles.foldl (fun s q => if q.1 ∈ s then s else s ++ [q.1]) cur

/-- Folding one parsed file into the per-source historical sets
(main.py 213-217). -/
def addHistorical (acc : List (Str × List Str)) (f : ParsedFile) :
    List (Str × List Str) :=
  f.foldl (fun acc p => dSet acc p.1 (setAddAll ((dGet acc p.1).getD []) p.2)) acc

/-- The per-source historical title sets accumulated from a list of parsed
files (main.py 209-217); `detect_latest_new_titles` applies this to every
file except the last. -/
def historicalTitles (fs : List ParsedFile) : List (Str × List Str) :=
  fs.foldl addHistorical []

/-- The loop body of `detect_latest_new_titles` (main.py 221-236) for one
source of the latest file: the source's titles absent from its historical
set, keyed by the first (truthy) live id whose alias matches the source name;
`none` when there are no new titles or no id resolves. -/
def detectEmit (historical : List (Str × List Str)) (idToAlias : List (Str × Str))
    (p : Str × SourceTitles) : Option (Str × SourceTitles) :=
  let histSet := (dGet historical p.1).getD []
  let newT := p.2.filter (fun q => q.1 ∉ histSet)
  if newT ≠ [] then
    match firstIdFor idToAlias p.1 with
    | some i => if i ≠ [] then some (i, newT) else none
    | none => none
  else none

/-- `detect_latest_new_titles` from the point where the day's files have been
listed chronologically and parsed with `_parse_file_titles`. -/
def detectLatestNewTitles (files : List ParsedFile) (idToAlias : List (Str × Str)) :
    ParsedFile :=
  if files.length < 2 then
    match files with
    | [f] => f
    | _ => []
  else
    let latest := files.getLastD []
    let historical := historicalTitles files.dropLast
    latest.foldl (dInsertStep (detectEmit historical idToAlias)) []

/-! ## Configuration: load_frequency_words (main.py 352-402) -/

/-- One keyword rule group. -/
structure WordGroup where
  required : List Str
  normal : List Str
  group_key : Str
deriving DecidableEq

/-- `load_frequency_words` on the configuration file content (main.py 352-402). -/
def loadFrequencyWords (content : Str) : List WordGroup × List Str :=
  let gs := ((splitOnStr sepNN content).map pyStrip).filter (· ≠ [])
  gs.foldl (fun acc g =>
    let ws := ((splitOnStr nlStr g).map pyStrip).filter (· ≠ [])
    let req := (ws.filter (fun w => w.headD ' ' = '+')).map List.tail
    let fil := (ws.filter (fun w => w.headD ' ' = '!')).map List.tail
    let nor := ws.filter (fun w => w.headD ' ' ≠ '+' ∧ w.headD ' ' ≠ '!')
    let acc2 := (acc.1, acc.2 ++ fil)
    if req ≠ [] ∨ nor ≠ [] then
      (acc2.1 ++ [⟨req, nor, List.intercalate [' '] (if nor ≠ [] then nor else req)⟩], acc2.2)
    else acc2) ([], [])

/-! ## WordGroupMatcher (main.py 584-618) -/

/-- The filter-word veto (main.py 592). -/
def filterHit (title : Str) (filterWords : List Str) : Bool :=
  filterWords.any (fun w => containsStr (pyLower title) (pyLower w))

/-- One group's match test, the loop body of `_matches_word_groups`
(main.py 596-616). -/
def groupMatches (title : Str) (g : WordGroup) : Bool :=
  (if g.required ≠ [] then g.required.all (fun w => containsStr (pyLower title) (pyLower w))
   else true)
  && (if g.normal ≠ [] then g.normal.any (fun w => containsStr (pyLower title) (pyLower w))
      else true)

/-- `_matches_word_groups` (main.py 584-618). -/
def matchesWordGroups (title : Str) (groups : List WordGroup)
    (filterWords : List Str) : Bool :=
  if filterHit title filterWords then false
  else groups.any (groupMatches title)

/-! ## FrequencyEngine: count_word_frequency (main.py 620-764) -/

/-- One annotated title entry appended to a group's per-source list
(main.py 723-737). -/
structure StatEntry where
  title : Str
  source_alias : Str
  first_time : Str
  last_time : Str
  time_display : Str
  count : Nat
  ranks : List Nat
  rank_threshold : Nat
  url : Str
  mobileUrl : Str
  is_new : Bool
deriving DecidableEq

/-- One element of the returned `stats` list (main.py 750-761).
`percentage` is modelled exactly as `count/total*100` over ℚ; Python rounds
the binary float to 2 decimals, which no claim depends on. -/
structure FreqStat where
  word : Str
  count : Nat
  titles : List StatEntry
  percentage : ℚ
deriving DecidableEq

/-- `_format_time_display` (main.py 808-816). -/
def formatTimeDisplay (ft lt : Str) : Str :=
  if ft = [] then []
  else if ft = lt ∨ lt = [] then ft
  else ['['] ++ ft ++ " ~ ".data ++ lt ++ [']']

/-- The mutable state of `count_word_frequency`'s main loop. -/
structure CWFState where
  wordStats : List (Str × (Nat × List (Str × List StatEntry)))
  totalTitles : Nat
  processedTitles : List (Str × List (Str × Bool))

/-- Processing of one `(title, title_data)` pair of one source
(main.py 650-742). -/
def cwfTitleStep (groups : List WordGroup) (filterWords : List Str)
    (idToAlias : List (Str × Str)) (titleInfo : List (Str × List (Str × TitleInfo)))
    (rankThreshold : Nat) (newTitles : List (Str × SourceTitles)) (sourceId : Str)
    (st : CWFState) (p : Str × TitleData) : CWFState :=
  if dMem ((dGet st.processedTitles sourceId).getD []) p.1 then st
  else if !matchesWordGroups p.1 groups filterWords then st
  else
    match groups.find? (groupMatches p.1) with
    | none => st
    | some g =>
      let info? := match dGet titleInfo sourceId with
        | some m => dGet m p.1
        | none => none
      let fields := match info? with
        | some info =>
          (info.first_time, info.last_time, info.count,
            if info.ranks ≠ [] then info.ranks else p.2.ranks, info.url, info.mobileUrl)
        | none => (([] : Str), ([] : Str), 1, p.2.ranks, p.2.url, p.2.mobileUrl)
      let ranks := if fields.2.2.2.1 = [] then [99] else fields.2.2.2.1
      let entry : StatEntry :=
        ⟨p.1, (dGet idToAlias sourceId).getD sourceId, fields.1, fields.2.1,
          formatTimeDisplay fields.1 fields.2.1, fields.2.2.1, ranks, rankThreshold,
          fields.2.2.2.2.1, fields.2.2.2.2.2,
          match dGet newTitles sourceId with
          | some m => dMem m p.1
          | none => false⟩
      let gstat := (dGet st.wordStats g.group_key).getD (0, [])
      let tl := (dGet gstat.2 sourceId).getD []
      { st with
        wordStats :=
          dSet st.wordStats g.group_key (gstat.1 + 1, dSet gstat.2 sourceId (tl ++ [entry]))
        processedTitles :=
          dSet st.processedTitles sourceId
            (dSet ((dGet st.processedTitles sourceId).getD []) p.1 true) }

/-- Processing of one source of `results` (main.py 644-742). -/
def cwfSourceStep (groups : List WordGroup) (filterWords : List Str)
    (idToAlias : List (Str × Str)) (titleInfo : List (Str × List (Str × TitleInfo)))
    (rankThreshold : Nat) (newTitles : List (Str × SourceTitles))
    (st : CWFState) (q : Str × SourceTitles) : CWFState :=
  q.2.foldl
    (cwfTitleStep groups filterWords idToAlias titleInfo rankThreshold newTitles q.1)
    { st with totalTitles := st.totalTitles + q.2.length }

/-- The pre-sort stats list built from `word_stats` in insertion order
(main.py 744-761). -/
def cwfPreStats (ws : List (Str × (Nat × List (Str × List StatEntry)))) (total : Nat) :
    List FreqStat :=
  ws.map (fun p =>
    ⟨p.1, p.2.1, (p.2.2.map (·.2)).flatten,
      if total > 0 then (p.2.1 : ℚ) * 100 / total else 0⟩)

/-- The state of `count_word_frequency`'s loop after all sources
(main.py 631-742). -/
def cwfFinalState (results : List (Str × SourceTitles)) (groups : List WordGroup)
    (filterWords : List Str) (idToAlias : List (Str × Str))
    (titleInfo : List (Str × List (Str × TitleInfo)))
    (rankThreshold : Nat) (newTitles : List (Str × SourceTitles)) : CWFState :=
  results.foldl
    (cwfSourceStep groups filterWords idToAlias titleInfo rankThreshold newTitles)
    ⟨groups.foldl (fun m g => dSet m g.group_key (0, [])) [], 0, []⟩

/-- `count_word_frequency` (main.py 620-764).  The final
`stats.sort(key=..., reverse=True)` is Python's stable sort with the
comparison reversed, modelled by insertion sort on `count b ≤ count a`. -/
def countWordFrequency (results : List (Str × SourceTitles)) (groups : List WordGroup)
    (filterWords : List Str) (idToAlias : List (Str × Str))
    (titleInfo : List (Str × List (Str × TitleInfo)))
    (rankThreshold : Nat) (newTitles : List (Str × SourceTitles)) :
    List FreqStat × Nat :=
  let fin := cwfFinalState results groups filterWords idToAlias titleInfo
    rankThreshold newTitles
  (pyInsertionSort (fun a b => FreqStat.count b ≤ FreqStat.count a)
      (cwfPreStats fin.wordStats fin.totalTitles),
    fin.totalTitles)

/-! ## Spec-side comparison definitions -/

/-- The spec's notion of a title's minimum rank (spec §4.1: "sorted ascending
by the title's minimum rank", "`<minRank>. <title>...`"), for comparison with
the code's `firstRank`. -/
def specMinRank (d : TitleData) : Nat := d.ranks.min?.getD 1

/-! ## C6: encode ordering and line prefix -/

/-- C6 counterexample: for the title "t" whose stored rank list is [7, 3]
(not in ascending order), `save_titles_to_file` writes the line "7. t" —
the numeric prefix is the FIRST stored rank (7), not the minimum rank (3)
claimed by the spec. -/
theorem C6_counterexample :
    saveTitlesContent [("s".data, [("t".data, ⟨[7, 3], [], []⟩)])]
        [("s".data, "S".data)] [] = "S\n7. t\n\n".data
      ∧ specMinRank ⟨[7, 3], [], []⟩ = 3
      ∧ "S\n7. t\n\n".data ≠ "S\n3. t\n\n".data := by
  refine ⟨by decide, by decide, by decide⟩

/-! ## C7: duplicate group keys are not rejected -/

/-- C7: `load_frequency_words` performs no duplicate-key validation: the
configuration "a\n\na" (two groups, each the single normal word "a") yields
TWO groups with the same `group_key` "a", and at runtime
`count_word_frequency` builds only ONE stat for them, silently merging their
counts — exactly what the spec says must be rejected at validation time. -/
theorem C7_no_duplicate_key_rejection :
    (loadFrequencyWords "a\n\na".data).1.map WordGroup.group_key
        = ["a".data, "a".data]
      ∧ (loadFrequencyWords "a\n\na".data).2 = []
      ∧ (countWordFrequency [("s".data, [("has a".data, emptyTitleData)])]
          (loadFrequencyWords "a\n\na".data).1 [] [] [] 5 []).1.length = 1 := by
  refine ⟨by decide, by decide, by decide⟩

/-! ## C8: orphaned historical aliases are silently dropped -/

/-- C8: the alias-to-id conversion of `read_all_today_titles` drops a source
whose historical alias ("X") matches no live id: the id-keyed results are
empty, with no explicit empty/partial entry surfacing the orphaned source. -/
theorem C8_orphaned_alias_dropped :
    (toIdKeyed
        ⟨[("X".data, [("t".data, emptyTitleData)])],
          [("X".data, [("t".data, emptyTitleInfo)])],
          [("xid".data, "Y".data)]⟩).1 = []
      ∧ (toIdKeyed
        ⟨[("X".data, [("t".data, emptyTitleData)])],
          [("X".data, [("t".data, emptyTitleInfo)])],
          [("xid".data, "Y".data)]⟩).2 = [] := by
  refine ⟨by decide, by decide⟩

/-! ## Detector lemmas -/

theorem mem_setAddAll (titles : SourceTitles) (cur : List Str) (t : Str) :
    t ∈ setAddAll cur titles ↔ t ∈ cur ∨ t ∈ titles.map Prod.fst := by
  induction titles generalizing cur with
  | nil => simp [setAddAll]
  | cons q ts ih =>
    show t ∈ setAddAll (if q.1 ∈ cur then cur else cur ++ [q.1]) ts ↔ _
    rw [ih]
    by_cases hq : q.1 ∈ cur
    · rw [if_pos hq]
      simp only [List.map_cons, List.mem_cons]
      constructor
      · rintro (h | h)
        · exact Or.inl h
        · exact Or.inr (Or.inr h)
      · rintro (h | h | h)
        · exact Or.inl h
        · exact Or.inl (h ▸ hq)
        · exact Or.inr h
    · rw [if_neg hq]
      simp [List.mem_append, or_assoc]

theorem mem_addHistorical (f : ParsedFile) (acc : List (Str × List Str))
    (name t : Str) :
    t ∈ (dGet (addHistorical acc f) name).getD [] ↔
      t ∈ (dGet acc name).getD [] ∨ ∃ p ∈ f, p.1 = name ∧ t ∈ p.2.map Prod.fst := by
  induction f generalizing acc with
  | nil => simp [addHistorical]
  | cons p f ih =>
    have e : addHistorical acc (p :: f)
        = addHistorical (dSet acc p.1 (setAddAll ((dGet acc p.1).getD []) p.2)) f := rfl
    rw [e, ih]
    by_cases hname : p.1 = name
    · subst hname
      rw [dGet_dSet_self, Option.getD_some, mem_setAddAll]
      constructor
      · rintro ((h | h) | ⟨p', hp', e', ht⟩)
        · exact Or.inl h
        · exact Or.inr ⟨p, List.mem_cons_self p f, rfl, h⟩
        · exact Or.inr ⟨p', List.mem_cons_of_mem _ hp', e', ht⟩
      · rintro (h | ⟨p', hp', e', ht⟩)
        · exact Or.inl (Or.inl h)
        · rcases List.mem_cons.mp hp' with rfl | hp'
          · exact Or.inl (Or.inr ht)
          · exact Or.inr ⟨p', hp', e', ht⟩
    · rw [dGet_dSet_ne _ _ _ _ (fun e' => hname (Eq.symm e'))]
      constructor
      · rintro (h | ⟨p', hp', e', ht⟩)
        · exact Or.inl h
        · exact Or.inr ⟨p', List.mem_cons_of_mem _ hp', e', ht⟩
      · rintro (h | ⟨p', hp', e', ht⟩)
        · exact Or.inl h
        · rcases List.mem_cons.mp hp' with rfl | hp'
          · exact absurd e' hname
          · exact Or.inr ⟨p', hp', e', ht⟩

theorem mem_historicalTitles (fs : List ParsedFile) (name t : Str) :
    t ∈ (dGet (historicalTitles fs) name).getD [] ↔
      ∃ f ∈ fs, ∃ p ∈ f, p.1 = name ∧ t ∈ p.2.map Prod.fst := by
  suffices h : ∀ acc, t ∈ (dGet (fs.foldl addHistorical acc) name).getD [] ↔
      t ∈ (dGet acc name).getD []
        ∨ ∃ f ∈ fs, ∃ p ∈ f, p.1 = name ∧ t ∈ p.2.map Prod.fst by
    have h0 := h []
    rw [historicalTitles, h0]
    simp [dGet]
  intro acc
  induction fs generalizing acc with
  | nil => simp
  | cons f fs ih =>
    rw [List.foldl_cons, ih, mem_addHistorical]
    constructor
    · rintro ((h | ⟨p', hp', e', ht⟩) | ⟨f', hf', rest⟩)
      · exact Or.inl h
      · exact Or.inr ⟨f, List.mem_cons_self f fs, p', hp', e', ht⟩
      · exact Or.inr ⟨f', List.mem_cons_of_mem _ hf', rest⟩
    · rintro (h | ⟨f', hf', rest⟩)
      · exact Or.inl (Or.inl h)
      · rcases List.mem_cons.mp hf' with rfl | hf'
        · exact Or.inl (Or.inr rest)
        · exact Or.inr ⟨f', hf', rest⟩

theorem firstIdFor_mem {ia : List (Str × Str)} {name i : Str}
    (h : firstIdFor ia name = some i) : (i, name) ∈ ia := by
  unfold firstIdFor at h
  rcases Option.map_eq_some'.mp h with ⟨q, hq, he⟩
  have h1 := List.mem_of_find?_eq_some hq
  have h2 := List.find?_some hq
  rcases q with ⟨a, b⟩
  simp only [beq_iff_eq] at h2
  simp only at he
  rw [← he, ← h2]
  exact h1

theorem firstIdFor_inj {ia : List (Str × Str)} (hia : (ia.map Prod.fst).Nodup)
    {a b i : Str} (ha : firstIdFor ia a = some i) (hb : firstIdFor ia b = some i) :
    a = b :=
  nodupKeys_eq hia (firstIdFor_mem ha) (firstIdFor_mem hb)

theorem detectEmit_eq_some {historical : List (Str × List Str)}
    {ia : List (Str × Str)} {p q : Str × SourceTitles}
    (h : detectEmit historical ia p = some q) :
    firstIdFor ia p.1 = some q.1 ∧ q.1 ≠ []
      ∧ q.2 = p.2.filter (fun r => r.1 ∉ (dGet historical p.1).getD [])
      ∧ q.2 ≠ [] := by
  simp only [detectEmit] at h
  by_cases hne : p.2.filter (fun r => r.1 ∉ (dGet historical p.1).getD []) ≠ []
  · rw [if_pos hne] at h
    cases hf : firstIdFor ia p.1 with
    | none =>
      rw [hf] at h
      exact Option.noConfusion h
    | some i =>
      rw [hf] at h
      have h' : (if i ≠ [] then
          some (i, p.2.filter (fun r => r.1 ∉ (dGet historical p.1).getD []))
          else none) = some q := h
      by_cases hi : i ≠ []
      · rw [if_pos hi] at h'
        have hq : q = (i, p.2.filter (fun r => r.1 ∉ (dGet historical p.1).getD [])) :=
          (Option.some_inj.mp h').symm
        subst hq
        exact ⟨rfl, hi, rfl, hne⟩
      · rw [if_neg hi] at h'
        exact Option.noConfusion h'
  · rw [if_neg hne] at h
    exact Option.noConfusion h

theorem detect_filterMap_keys_nodup (latest : ParsedFile)
    (historical : List (Str × List Str)) (ia : List (Str × Str))
    (hl : (latest.map Prod.fst).Nodup) (hia : (ia.map Prod.fst).Nodup) :
    ((latest.filterMap (detectEmit historical ia)).map Prod.fst).Nodup := by
  induction latest with
  | nil => simp
  | cons p l ih =>
    simp only [List.map_cons, List.nodup_cons] at hl
    cases he : detectEmit historical ia p with
    | none =>
      have hcons : List.filterMap (detectEmit historical ia) (p :: l)
          = List.filterMap (detectEmit historical ia) l := by
        simp [List.filterMap_cons, he]
      rw [hcons]
      exact ih hl.2
    | some q =>
      have hcons : List.filterMap (detectEmit historical ia) (p :: l)
          = q :: List.filterMap (detectEmit historical ia) l := by
        simp [List.filterMap_cons, he]
      rw [hcons, List.map_cons, List.nodup_cons]
      refine ⟨fun hq1 => ?_, ih hl.2⟩
      rcases List.mem_map.mp hq1 with ⟨x, hx, hx1⟩
      rcases List.mem_filterMap.mp hx with ⟨p', hp', he'⟩
      have h1 := (detectEmit_eq_some he).1
      have h2 := (detectEmit_eq_some he').1
      rw [hx1] at h2
      have hpp : p.1 = p'.1 := firstIdFor_inj hia h1 h2
      exact hl.1 (hpp ▸ List.mem_map_of_mem Prod.fst hp')

/-- The multi-file branch of `detect_latest_new_titles` as a fold over the
latest file's sources. -/
theorem detectLatestNewTitles_multi (files : List ParsedFile)
    (ia : List (Str × Str)) (h2 : 2 ≤ files.length) :
    detectLatestNewTitles files ia
      = (files.getLastD []).foldl
          (dInsertStep (detectEmit (historicalTitles files.dropLast) ia)) [] := by
  simp only [detectLatestNewTitles]
  rw [if_neg (by omega)]

/-! ## C10: result key type depends on the file count -/

/-- C10: with a single snapshot file, `detect_latest_new_titles` returns the
parsed file unchanged — keyed by display alias, with no reverse lookup through
`id_to_alias` — while with two or more files every key of the result is a live
source id obtained by reverse alias lookup (so consumers indexing the result
by source id find nothing on a single-snapshot day unless an alias happens to
equal an id). -/
theorem C10_key_type_depends_on_file_count (f : ParsedFile)
    (ia : List (Str × Str)) (files : List ParsedFile) (hfiles : 2 ≤ files.length) :
    detectLatestNewTitles [f] ia = f
      ∧ detectLatestNewTitles [] ia = []
      ∧ ∀ k ∈ (detectLatestNewTitles files ia).map Prod.fst,
          ∃ al, firstIdFor ia al = some k ∧ (k, al) ∈ ia := by
  refine ⟨rfl, rfl, fun k hk => ?_⟩
  rw [detectLatestNewTitles_multi files ia hfiles] at hk
  rcases mem_keys_foldl_dSet (detectEmit (historicalTitles files.dropLast) ia)
      (files.getLastD []) [] k hk with h | ⟨p, _, b, he⟩
  · simp at h
  · have h1 := (detectEmit_eq_some he).1
    exact ⟨p.1, h1, firstIdFor_mem h1⟩

/-- C10 witness at a concrete input. -/
theorem C10_witness :
    detectLatestNewTitles
        [[("X".data, [("a".data, emptyTitleData)])],
          [("X".data, [("b".data, emptyTitleData)])]]
        [("xid".data, "X".data)]
      = [("xid".data, [("b".data, emptyTitleData)])]
      ∧ ∃ al, firstIdFor [("xid".data, "X".data)] al = some "xid".data
          ∧ ("xid".data, al) ∈ [("xid".data, "X".data)] := by
  refine ⟨by decide, ?_⟩
  exact (C10_key_type_depends_on_file_count [] [("xid".data, "X".data)]
    [[("X".data, [("a".data, emptyTitleData)])],
      [("X".data, [("b".data, emptyTitleData)])]] (by decide)).2.2
    "xid".data (by decide)

/-! ## C5: new-title detection -/

/-- C5 counterexample: with two snapshot files whose source "X" matches no
live id, the latest file's title "b" is absent from the historical set yet is
NOT reported as new — the result is empty, refuting the claimed "reported iff
absent" equivalence as stated. -/
theorem C5_counterexample :
    detectLatestNewTitles
        [[("X".data, [("a".data, emptyTitleData)])],
          [("X".data, [("b".data, emptyTitleData)])]] [] = []
      ∧ "b".data ∉
          (dGet (historicalTitles [[("X".data, [("a".data, emptyTitleData)])]])
            "X".data).getD [] := by
  refine ⟨by decide, by decide⟩

/-- C5 as amended: with fewer than 2 files the single parsed snapshot (or
nothing) is returned wholesale; with 2 or more files and well-formed dict
inputs, the result is exactly: for each source of the latest file in order,
the titles absent (by exact string equality) from that source's historical
set — the union of the title keys of every file except the last — keyed by
the first live id whose alias matches the source, where sources with no new
titles, or whose alias resolves to no (or an empty) id, are dropped. -/
theorem C5_amended (f : ParsedFile) (files : List ParsedFile)
    (ia : List (Str × Str)) (h2 : 2 ≤ files.length)
    (hlatest : ((files.getLastD []).map Prod.fst).Nodup)
    (hia : (ia.map Prod.fst).Nodup) :
    detectLatestNewTitles [f] ia = f
      ∧ detectLatestNewTitles [] ia = []
      ∧ detectLatestNewTitles files ia
          = (files.getLastD []).filterMap
              (detectEmit (historicalTitles files.dropLast) ia)
      ∧ ∀ name t,
          (t ∈ (dGet (historicalTitles files.dropLast) name).getD [] ↔
            ∃ g ∈ files.dropLast, ∃ p ∈ g, p.1 = name ∧ t ∈ p.2.map Prod.fst) := by
  refine ⟨rfl, rfl, ?_, fun name t => mem_historicalTitles _ name t⟩
  rw [detectLatestNewTitles_multi files ia h2]
  have hnodup : ((([] : ParsedFile)
      ++ (files.getLastD []).filterMap
          (detectEmit (historicalTitles files.dropLast) ia)).map Prod.fst).Nodup := by
    rw [List.nil_append]
    exact detect_filterMap_keys_nodup _ _ _ hlatest hia
  have := foldl_dSet_filterMap
    (detectEmit (historicalTitles files.dropLast) ia) (files.getLastD []) [] hnodup
  rw [this, List.nil_append]

/-- C5 witness at a concrete input. -/
theorem C5_witness :
    detectLatestNewTitles
        [[("X".data, [("a".data, emptyTitleData)])],
          [("X".data, [("b".data, emptyTitleData), ("a".data, emptyTitleData)])]]
        [("xid".data, "X".data)]
      = ([[("X".data, [("a".data, emptyTitleData)])],
          [("X".data, [("b".data, emptyTitleData), ("a".data, emptyTitleData)])]].getLastD
            []).filterMap
          (detectEmit
            (historicalTitles
              [[("X".data, [("a".data, emptyTitleData)])],
                [("X".data,
                  [("b".data, emptyTitleData), ("a".data, emptyTitleData)])]].dropLast)
            [("xid".data, "X".data)]) :=
  (C5_amended []
    [[("X".data, [("a".data, emptyTitleData)])],
      [("X".data, [("b".data, emptyTitleData), ("a".data, emptyTitleData)])]]
    [("xid".data, "X".data)] (by decide) (by decide) (by decide)).2.2.1

/-! ## Stable-sort lemmas -/

theorem mem_pyOrderedInsert {le : α → α → Bool} {a x : α} {l : List α}
    (h : x ∈ pyOrderedInsert le a l) : x = a ∨ x ∈ l := by
  induction l with
  | nil => simpa [pyOrderedInsert] using h
  | cons b l ih =>
    rw [pyOrderedInsert] at h
    by_cases hab : le a b
    · rw [if_pos hab] at h
      rcases List.mem_cons.mp h with rfl | h
      · exact Or.inl rfl
      · exact Or.inr h
    · rw [if_neg hab] at h
      rcases List.mem_cons.mp h with rfl | h
      · exact Or.inr (List.mem_cons_self x l)
      · rcases ih h with h' | h'
        · exact Or.inl h'
        · exact Or.inr (List.mem_cons_of_mem _ h')

theorem perm_pyOrderedInsert (le : α → α → Bool) (a : α) (l : List α) :
    List.Perm (pyOrderedInsert le a l) (a :: l) := by
  induction l with
  | nil => simp [pyOrderedInsert]
  | cons b l ih =>
    rw [pyOrderedInsert]
    by_cases hab : le a b
    · rw [if_pos hab]
    · rw [if_neg hab]
      exact List.Perm.trans (List.Perm.cons b ih) (List.Perm.swap a b l)

theorem perm_pyInsertionSort (le : α → α → Bool) (l : List α) :
    List.Perm (pyInsertionSort le l) l := by
  induction l with
  | nil => simp [pyInsertionSort]
  | cons b l ih =>
    rw [pyInsertionSort]
    exact List.Perm.trans (perm_pyOrderedInsert le b _) (List.Perm.cons b ih)

theorem pairwise_pyOrderedInsert (le : α → α → Bool)
    (htot : ∀ a b, le a b = false → le b a = true)
    (htrans : ∀ a b c, le a b = true → le b c = true → le a c = true)
    (a : α) (l : List α) (hl : List.Pairwise (fun x y => le x y = true) l) :
    List.Pairwise (fun x y => le x y = true) (pyOrderedInsert le a l) := by
  induction l with
  | nil => simp [pyOrderedInsert]
  | cons b l ih =>
    rw [List.pairwise_cons] at hl
    rw [pyOrderedInsert]
    by_cases hab : le a b
    · rw [if_pos hab]
      refine List.Pairwise.cons (fun x hx => ?_) (List.Pairwise.cons hl.1 hl.2)
      rcases List.mem_cons.mp hx with rfl | hx
      · exact hab
      · exact htrans a b x hab (hl.1 x hx)
    · rw [if_neg hab]
      refine List.Pairwise.cons (fun x hx => ?_) (ih hl.2)
      rcases mem_pyOrderedInsert hx with h' | hx
      · rw [h']
        exact htot a b (by simpa using hab)
      · exact hl.1 x hx

theorem pairwise_pyInsertionSort (le : α → α → Bool)
    (htot : ∀ a b, le a b = false → le b a = true)
    (htrans : ∀ a b c, le a b = true → le b c = true → le a c = true)
    (l : List α) :
    List.Pairwise (fun x y => le x y = true) (pyInsertionSort le l) := by
  induction l with
  | nil => simp [pyInsertionSort]
  | cons b l ih => exact pairwise_pyOrderedInsert le htot htrans b _ ih

theorem filter_key_pyOrderedInsert {α : Type} (key : α → Nat) (le : α → α → Bool)
    (hle : ∀ a b, le a b = false → key b ≠ key a) (a : α) (l : List α) :
    ((pyOrderedInsert le a l).filter (fun x => key x == key a)
        = a :: l.filter (fun x => key x == key a))
      ∧ ∀ c, c ≠ key a → (pyOrderedInsert le a l).filter (fun x => key x == c)
          = l.filter (fun x => key x == c) := by
  induction l with
  | nil =>
    constructor
    · simp [pyOrderedInsert]
    · intro c hc
      have hca : ¬key a = c := fun e => hc (Eq.symm e)
      simp [pyOrderedInsert, List.filter_cons, hca]
  | cons b l ih =>
    rw [pyOrderedInsert]
    by_cases hab : le a b
    · rw [if_pos hab]
      constructor
      · simp [List.filter_cons]
      · intro c hc
        have hca : ¬key a = c := fun e => hc (Eq.symm e)
        simp [List.filter_cons, hca]
    · rw [if_neg hab]
      have hb : key b ≠ key a := hle a b (by simpa using hab)
      constructor
      · rw [List.filter_cons, if_neg (by simpa using hb), ih.1, List.filter_cons,
          if_neg (by simpa using hb)]
      · intro c hc
        rw [List.filter_cons, List.filter_cons, ih.2 c hc]

/-- Stability of the modelled Python sort: each key class keeps its original
relative order. -/
theorem filter_key_pyInsertionSort {α : Type} (key : α → Nat) (le : α → α → Bool)
    (hle : ∀ a b, le a b = false → key b ≠ key a) (l : List α) (c : Nat) :
    (pyInsertionSort le l).filter (fun x => key x == c)
      = l.filter (fun x => key x == c) := by
  induction l with
  | nil => simp [pyInsertionSort]
  | cons b l ih =>
    rw [pyInsertionSort]
    by_cases hbc : key b = c
    · subst hbc
      rw [(filter_key_pyOrderedInsert key le hle b _).1, ih, List.filter_cons]
      simp
    · rw [(filter_key_pyOrderedInsert key le hle b _).2 c
        (fun e => hbc (Eq.symm e)), ih, List.filter_cons]
      simp [hbc]

/-! ## C6: encode ordering (amended) -/

/-- C6 as amended: `save_titles_to_file` emits, per source, the alias line and
one line per title, sorted stably ascending by the title's FIRST stored rank
(default 1 when the rank list is empty) — which equals the minimum rank only
when the stored rank list is ascending — with each line's numeric prefix that
same first stored rank; ties keep insertion (discovery) order. -/
theorem C6_amended (aliasName : Str) (titles : SourceTitles) :
    encodeSection aliasName titles
        = aliasName ++ nlStr
          ++ ((sortedTitleEntries titles).map
              (fun p => titleLine (firstRank p.2) p.1 p.2.url p.2.mobileUrl ++ nlStr)).flatten
          ++ nlStr
      ∧ List.Perm (sortedTitleEntries titles) titles
      ∧ List.Pairwise (fun a b => firstRank a.2 ≤ firstRank b.2)
          (sortedTitleEntries titles)
      ∧ ∀ r, (sortedTitleEntries titles).filter (fun p => firstRank p.2 == r)
          = titles.filter (fun p => firstRank p.2 == r) := by
  refine ⟨rfl, perm_pyInsertionSort _ titles, ?_, fun r => ?_⟩
  · have h := pairwise_pyInsertionSort
      (fun (a b : Str × TitleData) => decide (firstRank a.2 ≤ firstRank b.2))
      (fun a b h => by
        have h' : ¬firstRank a.2 ≤ firstRank b.2 := by simpa using h
        simpa using Nat.le_of_not_le h')
      (fun a b c h1 h2 => by
        simp only [decide_eq_true_eq] at h1 h2 ⊢
        omega)
      titles
    exact h.imp (fun hxy => by simpa using hxy)
  · exact filter_key_pyInsertionSort (fun p => firstRank p.2)
      (fun (a b : Str × TitleData) => decide (firstRank a.2 ≤ firstRank b.2))
      (fun a b h => by
        have h' : ¬firstRank a.2 ≤ firstRank b.2 := by simpa using h
        show firstRank b.2 ≠ firstRank a.2
        omega)
      titles r

/-! ## Aggregation lemmas (towards C2) -/

/-- The `(ranks, url, mobileUrl)` projection shared by `all_results` and
`title_info` records. -/
def projInfo (i : TitleInfo) : TitleData := ⟨i.ranks, i.url, i.mobileUrl⟩

/-- The `title_info` record after one more sighting of a title. -/
def stepInfo (prev : Option TitleInfo) (timeInfo : Str) (d : TitleData) : TitleInfo :=
  match prev with
  | none => freshInfo timeInfo d
  | some i =>
    ⟨i.first_time, timeInfo, i.count + 1, mergeRanks i.ranks d.ranks,
      if i.url = [] then d.url else i.url,
      if i.mobileUrl = [] then d.mobileUrl else i.mobileUrl⟩

/-- The `all_results` record after one more sighting of a title. -/
def stepData (prev : Option TitleData) (d : TitleData) : TitleData :=
  match prev with
  | none => d
  | some ex =>
    ⟨mergeRanks ex.ranks d.ranks,
      if ex.url ≠ [] then ex.url else d.url,
      if ex.mobileUrl ≠ [] then ex.mobileUrl else d.mobileUrl⟩

/-- `title_info[s][t]` as an optional value. -/
def infoLookup (st : AggState) (s t : Str) : Option TitleInfo :=
  (dGet st.titleInfo s).bind (fun m => dGet m t)

/-- `all_results[s][t]` as an optional value. -/
def resultsLookup (st : AggState) (s t : Str) : Option TitleData :=
  (dGet st.allResults s).bind (fun m => dGet m t)

/-- The chronological `(time, record)` sightings of title `t` of source `s`
across a sequence of calls. -/
def titleSightings (calls : List SourceCall) (s t : Str) : List (Str × TitleData) :=
  calls.filterMap (fun c =>
    if c.sourceName = s then (dGet c.titleData t).map (fun d => (c.timeInfo, d))
    else none)

/-- The aggregated record predicted from a sighting list. -/
def specTitleInfo (sightings : List (Str × TitleData)) : Option TitleInfo :=
  sightings.foldl (fun acc p => some (stepInfo acc p.1 p.2)) none

/-- First non-empty string of a list, defaulting to the empty string. -/
def firstNonEmptyStr : List Str → Str
  | [] => []
  | u :: rest => if u ≠ [] then u else firstNonEmptyStr rest

theorem projInfo_stepInfo (prev : Option TitleInfo) (time : Str) (d : TitleData) :
    projInfo (stepInfo prev time d) = stepData (prev.map projInfo) d := by
  cases prev with
  | none => rfl
  | some i =>
    simp only [stepInfo, stepData, Option.map_some', projInfo]
    by_cases hu : i.url = [] <;> by_cases hm : i.mobileUrl = [] <;> simp [hu, hm]

theorem dMem_mem_keys (m : List (Str × α)) (k : Str) :
    dMem m k = true ↔ k ∈ m.map Prod.fst := by
  constructor
  · intro h
    by_contra hk
    have hf := (dMem_eq_false_iff m k).mpr hk
    rw [hf] at h
    cases h
  · intro h
    cases hm : dMem m k
    · exact absurd h ((dMem_eq_false_iff m k).mp hm)
    · rfl

theorem dMem_dSet_iff (m : List (Str × α)) (k : Str) (v : α) (x : Str) :
    dMem (dSet m k v) x = true ↔ (x = k ∨ dMem m x = true) := by
  by_cases h : x = k
  · subst h
    simp [dMem_iff_dGet, dGet_dSet_self]
  · rw [dMem_iff_dGet, dGet_dSet_ne m k v x h, ← dMem_iff_dGet]
    simp [h]

theorem dGet_eq_none_iff (m : List (Str × α)) (k : Str) :
    dGet m k = none ↔ k ∉ m.map Prod.fst := by
  rw [← dMem_eq_false_iff]
  constructor
  · intro h
    cases hm : dMem m k
    · rfl
    · rw [dMem_iff_dGet] at hm
      rw [h] at hm
      cases hm
  · intro h
    have := (dMem_iff_dGet m k).symm
    cases hg : dGet m k
    · rfl
    · have : dMem m k = true := (dMem_iff_dGet m k).mpr (by simp [hg])
      rw [h] at this
      cases this

theorem dGet_foldl_freshInfo (timeInfo : Str) (l : SourceTitles)
    (init : List (Str × TitleInfo)) (t : Str) (hnd : (l.map Prod.fst).Nodup) :
    dGet (l.foldl (fun m p => dSet m p.1 (freshInfo timeInfo p.2)) init) t
      = ((dGet l t).map (freshInfo timeInfo)).or (dGet init t) := by
  induction l generalizing init with
  | nil => simp [dGet]
  | cons p l ih =>
    simp only [List.map_cons, List.nodup_cons] at hnd
    rw [List.foldl_cons, ih _ hnd.2]
    by_cases ht : t = p.1
    · subst ht
      have h1 : dGet l p.1 = none := (dGet_eq_none_iff l p.1).mpr hnd.1
      rw [dGet_dSet_self, h1, dGet_cons, if_pos rfl]
      simp
    · rw [dGet_dSet_ne _ _ _ _ ht, dGet_cons, if_neg (fun e => ht (Eq.symm e))]

theorem dGet_getD_bind {β : Type} (m : List (Str × List (Str × β))) (s t : Str) :
    dGet ((dGet m s).getD []) t = (dGet m s).bind (fun mm => dGet mm t) := by
  cases h : dGet m s <;> simp [h, dGet]

theorem resultsLookup_mk (ar : List (Str × SourceTitles))
    (ti : List (Str × List (Str × TitleInfo))) (ia : List (Str × Str)) (s t : Str) :
    resultsLookup ⟨ar, ti, ia⟩ s t = (dGet ar s).bind (fun m => dGet m t) := rfl

theorem infoLookup_mk (ar : List (Str × SourceTitles))
    (ti : List (Str × List (Str × TitleInfo))) (ia : List (Str × Str)) (s t : Str) :
    infoLookup ⟨ar, ti, ia⟩ s t = (dGet ti s).bind (fun m => dGet m t) := rfl

/-- Characterization of one merge step of `_process_source_data` for an
already-present source: the step rewrites exactly the processed title of the
processed source in both nested dicts, leaving everything else unchanged. -/
theorem mergeTitleStep_char (s timeInfo : Str) (st : AggState) (p : Str × TitleData)
    (hsync : resultsLookup st s p.1 = (infoLookup st s p.1).map projInfo) :
    (∀ t, resultsLookup (mergeTitleStep s timeInfo st p) s t
        = if t = p.1 then some (stepData (resultsLookup st s p.1) p.2)
          else resultsLookup st s t)
      ∧ (∀ t, infoLookup (mergeTitleStep s timeInfo st p) s t
          = if t = p.1 then some (stepInfo (infoLookup st s p.1) timeInfo p.2)
            else infoLookup st s t)
      ∧ (∀ s', s' ≠ s →
          (∀ t, resultsLookup (mergeTitleStep s timeInfo st p) s' t
              = resultsLookup st s' t)
            ∧ ∀ t, infoLookup (mergeTitleStep s timeInfo st p) s' t
              = infoLookup st s' t)
      ∧ ((mergeTitleStep s timeInfo st p).allResults.map Prod.fst
          = if dMem st.allResults s then st.allResults.map Prod.fst
            else st.allResults.map Prod.fst ++ [s])
      ∧ ((mergeTitleStep s timeInfo st p).titleInfo.map Prod.fst
          = if dMem st.titleInfo s then st.titleInfo.map Prod.fst
            else st.titleInfo.map Prod.fst ++ [s]) := by
  have hcur : ∀ t, dGet ((dGet st.allResults s).getD []) t = resultsLookup st s t :=
    fun t => dGet_getD_bind st.allResults s t
  have hinfo : ∀ t, dGet ((dGet st.titleInfo s).getD []) t = infoLookup st s t :=
    fun t => dGet_getD_bind st.titleInfo s t
  simp only [mergeTitleStep]
  by_cases hm : dMem ((dGet st.allResults s).getD []) p.1
  · rw [if_pos hm]
    rw [dMem_iff_dGet] at hm
    obtain ⟨ex, hex⟩ := Option.isSome_iff_exists.mp hm
    have hres : resultsLookup st s p.1 = some ex := by
      rw [← hcur p.1, hex]
    obtain ⟨i, hi, hproj⟩ :
        ∃ i, infoLookup st s p.1 = some i ∧ projInfo i = ex := by
      rw [hres] at hsync
      cases hinf : infoLookup st s p.1 with
      | none =>
        rw [hinf] at hsync
        cases hsync
      | some j =>
        rw [hinf] at hsync
        exact ⟨j, rfl, (Option.some_inj.mp hsync).symm⟩
    have hexInfo : dGet ((dGet st.titleInfo s).getD []) p.1 = some i := by
      rw [hinfo p.1, hi]
    rw [hex, hexInfo]
    simp only [Option.getD_some]
    refine ⟨fun t => ?_, fun t => ?_, fun s' hs' => ⟨fun t => ?_, fun t => ?_⟩, ?_, ?_⟩
    · rw [resultsLookup_mk, dGet_dSet_self, Option.some_bind]
      by_cases ht : t = p.1
      · subst ht
        rw [dGet_dSet_self, if_pos rfl, hres]
        simp only [stepData]
      · rw [dGet_dSet_ne _ _ _ _ ht, if_neg ht]
        exact hcur t
    · rw [infoLookup_mk, dGet_dSet_self, Option.some_bind]
      by_cases ht : t = p.1
      · subst ht
        rw [dGet_dSet_self, if_pos rfl, hi]
        simp only [stepInfo]
        rw [← hproj]
        rfl
      · rw [dGet_dSet_ne _ _ _ _ ht, if_neg ht]
        exact hinfo t
    · rw [resultsLookup_mk, dGet_dSet_ne _ _ _ _ hs']
      rfl
    · rw [infoLookup_mk, dGet_dSet_ne _ _ _ _ hs']
      rfl
    · exact keys_dSet st.allResults s _
    · exact keys_dSet st.titleInfo s _
  · rw [if_neg hm]
    have hnone : dGet ((dGet st.allResults s).getD []) p.1 = none := by
      cases hg : dGet ((dGet st.allResults s).getD []) p.1
      · rfl
      · exact absurd ((dMem_iff_dGet _ p.1).mpr (by simp [hg])) hm
    have hres : resultsLookup st s p.1 = none := by
      rw [← hcur p.1, hnone]
    have hinone : infoLookup st s p.1 = none := by
      rw [hres] at hsync
      cases hinf : infoLookup st s p.1 with
      | none => rfl
      | some j =>
        rw [hinf] at hsync
        cases hsync
    refine ⟨fun t => ?_, fun t => ?_, fun s' hs' => ⟨fun t => ?_, fun t => ?_⟩, ?_, ?_⟩
    · rw [resultsLookup_mk, dGet_dSet_self, Option.some_bind]
      by_cases ht : t = p.1
      · subst ht
        rw [dGet_dSet_self, if_pos rfl, hres]
        rfl
      · rw [dGet_dSet_ne _ _ _ _ ht, if_neg ht]
        exact hcur t
    · rw [infoLookup_mk, dGet_dSet_self, Option.some_bind]
      by_cases ht : t = p.1
      · subst ht
        rw [dGet_dSet_self, if_pos rfl, hinone]
        rfl
      · rw [dGet_dSet_ne _ _ _ _ ht, if_neg ht]
        exact hinfo t
    · rw [resultsLookup_mk, dGet_dSet_ne _ _ _ _ hs']
      rfl
    · rw [infoLookup_mk, dGet_dSet_ne _ _ _ _ hs']
      rfl
    · exact keys_dSet st.allResults s _
    · exact keys_dSet st.titleInfo s _

/-- Characterization of the full merge loop of `_process_source_data` over a
source's title dict (with duplicate-free keys). -/
theorem foldl_mergeTitleStep_char (s timeInfo : Str) (l : SourceTitles)
    (st : AggState) (hnd : (l.map Prod.fst).Nodup)
    (hsync : ∀ t, resultsLookup st s t = (infoLookup st s t).map projInfo)
    (hsA : dMem st.allResults s = true) (hsI : dMem st.titleInfo s = true) :
    (∀ t, resultsLookup (l.foldl (mergeTitleStep s timeInfo) st) s t
        = match dGet l t with
          | some d => some (stepData (resultsLookup st s t) d)
          | none => resultsLookup st s t)
      ∧ (∀ t, infoLookup (l.foldl (mergeTitleStep s timeInfo) st) s t
          = match dGet l t with
            | some d => some (stepInfo (infoLookup st s t) timeInfo d)
            | none => infoLookup st s t)
      ∧ (∀ s', s' ≠ s →
          (∀ t, resultsLookup (l.foldl (mergeTitleStep s timeInfo) st) s' t
              = resultsLookup st s' t)
            ∧ ∀ t, infoLookup (l.foldl (mergeTitleStep s timeInfo) st) s' t
              = infoLookup st s' t)
      ∧ (l.foldl (mergeTitleStep s timeInfo) st).allResults.map Prod.fst
          = st.allResults.map Prod.fst
      ∧ (l.foldl (mergeTitleStep s timeInfo) st).titleInfo.map Prod.fst
          = st.titleInfo.map Prod.fst := by
  induction l generalizing st with
  | nil =>
    exact ⟨fun t => rfl, fun t => rfl, fun s' _ => ⟨fun t => rfl, fun t => rfl⟩, rfl, rfl⟩
  | cons p l ih =>
    simp only [List.map_cons, List.nodup_cons] at hnd
    have hstep := mergeTitleStep_char s timeInfo st p (hsync p.1)
    have hkeysA : (mergeTitleStep s timeInfo st p).allResults.map Prod.fst
        = st.allResults.map Prod.fst := by
      rw [hstep.2.2.2.1, if_pos hsA]
    have hkeysI : (mergeTitleStep s timeInfo st p).titleInfo.map Prod.fst
        = st.titleInfo.map Prod.fst := by
      rw [hstep.2.2.2.2, if_pos hsI]
    have hsA' : dMem (mergeTitleStep s timeInfo st p).allResults s = true := by
      rw [dMem_mem_keys, hkeysA, ← dMem_mem_keys]
      exact hsA
    have hsI' : dMem (mergeTitleStep s timeInfo st p).titleInfo s = true := by
      rw [dMem_mem_keys, hkeysI, ← dMem_mem_keys]
      exact hsI
    have hsync' : ∀ t, resultsLookup (mergeTitleStep s timeInfo st p) s t
        = (infoLookup (mergeTitleStep s timeInfo st p) s t).map projInfo := by
      intro t
      rw [hstep.1 t, hstep.2.1 t]
      by_cases ht : t = p.1
      · rw [if_pos ht, if_pos ht, Option.map_some', projInfo_stepInfo, ← hsync p.1]
      · rw [if_neg ht, if_neg ht]
        exact hsync t
    have hih := ih (mergeTitleStep s timeInfo st p) hnd.2 hsync' hsA' hsI'
    rw [List.foldl_cons]
    refine ⟨fun t => ?_, fun t => ?_, fun s' hs' => ?_, ?_, ?_⟩
    · rw [hih.1 t]
      by_cases ht : t = p.1
      · subst ht
        have h0 : dGet l p.1 = none := (dGet_eq_none_iff l p.1).mpr hnd.1
        rw [h0, dGet_cons, if_pos rfl, hstep.1 p.1, if_pos rfl]
      · rw [dGet_cons, if_neg (fun e => ht (Eq.symm e))]
        cases hdl : dGet l t with
        | none =>
          rw [hstep.1 t, if_neg ht]
        | some d =>
          rw [hstep.1 t, if_neg ht]
    · rw [hih.2.1 t]
      by_cases ht : t = p.1
      · subst ht
        have h0 : dGet l p.1 = none := (dGet_eq_none_iff l p.1).mpr hnd.1
        rw [h0, dGet_cons, if_pos rfl, hstep.2.1 p.1, if_pos rfl]
      · rw [dGet_cons, if_neg (fun e => ht (Eq.symm e))]
        cases hdl : dGet l t with
        | none =>
          rw [hstep.2.1 t, if_neg ht]
        | some d =>
          rw [hstep.2.1 t, if_neg ht]
    · refine ⟨fun t => ?_, fun t => ?_⟩
      · rw [(hih.2.2.1 s' hs').1 t, (hstep.2.2.1 s' hs').1 t]
      · rw [(hih.2.2.1 s' hs').2 t, (hstep.2.2.1 s' hs').2 t]
    · rw [hih.2.2.2.1, hkeysA]
    · rw [hih.2.2.2.2, hkeysI]

theorem dMem_eq_of_keys_eq {m₁ m₂ : List (Str × α)} {x : Str}
    (h : m₁.map Prod.fst = m₂.map Prod.fst) : dMem m₁ x = dMem m₂ x := by
  cases h1 : dMem m₂ x
  · rw [dMem_eq_false_iff] at h1 ⊢
    rw [h]
    exact h1
  · have hx := (dMem_mem_keys m₂ x).mp h1
    rw [← h] at hx
    exact (dMem_mem_keys m₁ x).mpr hx

theorem bool_eq_of_iff {a b : Bool} (h : a = true ↔ b = true) : a = b := by
  cases a <;> cases b <;> simp_all

/-- Characterization of one whole `_process_source_data` call. -/
theorem processSourceData_char (s : Str) (titleData : SourceTitles) (timeInfo : Str)
    (st : AggState) (hnd : (titleData.map Prod.fst).Nodup)
    (hdom : ∀ x, dMem st.allResults x = dMem st.titleInfo x)
    (hsync : ∀ s' t, resultsLookup st s' t = (infoLookup st s' t).map projInfo) :
    (∀ t, resultsLookup (processSourceData s titleData timeInfo st) s t
        = match dGet titleData t with
          | some d => some (stepData (resultsLookup st s t) d)
          | none => resultsLookup st s t)
      ∧ (∀ t, infoLookup (processSourceData s titleData timeInfo st) s t
          = match dGet titleData t with
            | some d => some (stepInfo (infoLookup st s t) timeInfo d)
            | none => infoLookup st s t)
      ∧ (∀ s', s' ≠ s →
          (∀ t, resultsLookup (processSourceData s titleData timeInfo st) s' t
              = resultsLookup st s' t)
            ∧ ∀ t, infoLookup (processSourceData s titleData timeInfo st) s' t
              = infoLookup st s' t)
      ∧ (∀ x, dMem (processSourceData s titleData timeInfo st).allResults x
          = dMem (processSourceData s titleData timeInfo st).titleInfo x) := by
  by_cases hm : dMem st.allResults s
  · have hpd : processSourceData s titleData timeInfo st
        = titleData.foldl (mergeTitleStep s timeInfo) st := by
      simp only [processSourceData, hm, if_true]
    rw [hpd]
    have hfold := foldl_mergeTitleStep_char s timeInfo titleData st hnd (hsync s) hm
      (by rw [← hdom s]; exact hm)
    refine ⟨hfold.1, hfold.2.1, hfold.2.2.1, fun x => ?_⟩
    rw [dMem_eq_of_keys_eq hfold.2.2.2.1, dMem_eq_of_keys_eq hfold.2.2.2.2]
    exact hdom x
  · have hmf : dMem st.allResults s = false := by simpa using hm
    have hmfI : dMem st.titleInfo s = false := by
      rw [← hdom s]
      exact hmf
    have har : dGet st.allResults s = none := by
      cases hg : dGet st.allResults s with
      | none => rfl
      | some m =>
        have : dMem st.allResults s = true := (dMem_iff_dGet _ s).mpr (by simp [hg])
        rw [hmf] at this
        cases this
    have hinf : dGet st.titleInfo s = none := by
      cases hg : dGet st.titleInfo s with
      | none => rfl
      | some m =>
        have : dMem st.titleInfo s = true := (dMem_iff_dGet _ s).mpr (by simp [hg])
        rw [hmfI] at this
        cases this
    have hresN : ∀ t, resultsLookup st s t = none := by
      intro t
      show (dGet st.allResults s).bind _ = none
      rw [har]
      rfl
    have hinfN : ∀ t, infoLookup st s t = none := by
      intro t
      show (dGet st.titleInfo s).bind _ = none
      rw [hinf]
      rfl
    have hpd : processSourceData s titleData timeInfo st
        = ⟨dSet st.allResults s titleData,
            dSet st.titleInfo s
              (titleData.foldl (fun m p => dSet m p.1 (freshInfo timeInfo p.2))
                ((dGet st.titleInfo s).getD [])),
            dSet st.idToAlias (reversedId s) s⟩ := by
      simp only [processSourceData, hmf, Bool.false_eq_true, if_false]
    rw [hpd]
    refine ⟨fun t => ?_, fun t => ?_, fun s' hs' => ⟨fun t => ?_, fun t => ?_⟩,
      fun x => ?_⟩
    · rw [resultsLookup_mk, dGet_dSet_self, Option.some_bind, hresN t]
      cases hdt : dGet titleData t with
      | none => rfl
      | some d => rfl
    · rw [infoLookup_mk, dGet_dSet_self, Option.some_bind,
        dGet_foldl_freshInfo timeInfo titleData _ t hnd, hinf, hinfN t]
      cases hdt : dGet titleData t with
      | none => rfl
      | some d => rfl
    · rw [resultsLookup_mk, dGet_dSet_ne _ _ _ _ hs']
      rfl
    · rw [infoLookup_mk, dGet_dSet_ne _ _ _ _ hs']
      rfl
    · refine bool_eq_of_iff ?_
      rw [dMem_dSet_iff, dMem_dSet_iff]
      constructor
      · rintro (h | h)
        · exact Or.inl h
        · exact Or.inr (by rw [← hdom x]; exact h)
      · rintro (h | h)
        · exact Or.inl h
        · exact Or.inr (by rw [hdom x]; exact h)

theorem firstNonEmptyStr_append_singleton (l : List Str) (u : Str) :
    firstNonEmptyStr (l ++ [u])
      = if firstNonEmptyStr l = [] then u else firstNonEmptyStr l := by
  induction l with
  | nil =>
    by_cases hu : u = [] <;> simp [firstNonEmptyStr, hu]
  | cons v l ih =>
    by_cases hv : v = []
    · simpa [firstNonEmptyStr, hv] using ih
    · simp [firstNonEmptyStr, hv]

theorem specTitleInfo_append_singleton (l : List (Str × TitleData))
    (x : Str × TitleData) :
    specTitleInfo (l ++ [x]) = some (stepInfo (specTitleInfo l) x.1 x.2) := by
  simp [specTitleInfo, List.foldl_append]

/-- The fields of the predicted aggregated record of a non-empty sighting
list. -/
theorem specTitleInfo_cons_props (h : Str × TitleData)
    (rest : List (Str × TitleData)) :
    ∃ i, specTitleInfo (h :: rest) = some i
      ∧ i.first_time = h.1
      ∧ i.last_time = (rest.getLastD h).1
      ∧ i.count = rest.length + 1
      ∧ i.ranks = rest.foldl (fun a p => mergeRanks a p.2.ranks) h.2.ranks
      ∧ i.url = firstNonEmptyStr ((h :: rest).map (fun p => p.2.url))
      ∧ i.mobileUrl = firstNonEmptyStr ((h :: rest).map (fun p => p.2.mobileUrl)) := by
  induction rest using List.reverseRecOn with
  | nil =>
    refine ⟨freshInfo h.1 h.2, rfl, rfl, rfl, rfl, rfl, ?_, ?_⟩
    · by_cases hu : h.2.url = [] <;> simp [freshInfo, firstNonEmptyStr, hu]
    · by_cases hu : h.2.mobileUrl = [] <;> simp [freshInfo, firstNonEmptyStr, hu]
  | append_singleton rest x ihr =>
    obtain ⟨i, hi, h1, h2, h3, h4, h5, h6⟩ := ihr
    have hst : specTitleInfo (h :: (rest ++ [x]))
        = some (stepInfo (some i) x.1 x.2) := by
      rw [show h :: (rest ++ [x]) = (h :: rest) ++ [x] from rfl,
        specTitleInfo_append_singleton, hi]
    refine ⟨stepInfo (some i) x.1 x.2, hst, ?_, ?_, ?_, ?_, ?_, ?_⟩
    · simpa [stepInfo] using h1
    · simp [stepInfo, List.getLastD_concat]
    · simpa [stepInfo, List.length_append] using h3
    · simp only [stepInfo, List.foldl_append, List.foldl_cons, List.foldl_nil, h4]
    · rw [show ((h :: (rest ++ [x])).map (fun p => p.2.url))
          = ((h :: rest).map (fun p => p.2.url)) ++ [x.2.url] by simp,
        firstNonEmptyStr_append_singleton, ← h5]
      by_cases hu : i.url = [] <;> simp [stepInfo, hu]
    · rw [show ((h :: (rest ++ [x])).map (fun p => p.2.mobileUrl))
          = ((h :: rest).map (fun p => p.2.mobileUrl)) ++ [x.2.mobileUrl] by simp,
        firstNonEmptyStr_append_singleton, ← h6]
      by_cases hu : i.mobileUrl = [] <;> simp [stepInfo, hu]

/-- Invariant of `read_all_today_titles`'s aggregation fold: both nested
dicts agree with the sighting-list prediction. -/
theorem foldSourceData_inv (calls : List SourceCall)
    (hwf : ∀ c ∈ calls, (c.titleData.map Prod.fst).Nodup) :
    (∀ s t, infoLookup (foldSourceData calls) s t
        = specTitleInfo (titleSightings calls s t))
      ∧ (∀ s t, resultsLookup (foldSourceData calls) s t
          = (specTitleInfo (titleSightings calls s t)).map projInfo)
      ∧ ∀ x, dMem (foldSourceData calls).allResults x
          = dMem (foldSourceData calls).titleInfo x := by
  induction calls using List.reverseRecOn with
  | nil => exact ⟨fun s t => rfl, fun s t => rfl, fun x => rfl⟩
  | append_singleton cs c ih =>
    have hwf' : ∀ c' ∈ cs, (c'.titleData.map Prod.fst).Nodup :=
      fun c' hc' => hwf c' (List.mem_append_left _ hc')
    have hih := ih hwf'
    have hsync : ∀ s' t, resultsLookup (foldSourceData cs) s' t
        = (infoLookup (foldSourceData cs) s' t).map projInfo := by
      intro s' t
      rw [hih.2.1 s' t, hih.1 s' t]
    have hchar := processSourceData_char c.sourceName c.titleData c.timeInfo
      (foldSourceData cs)
      (hwf c (List.mem_append_right _ (List.mem_cons_self c []))) hih.2.2 hsync
    have hfold : foldSourceData (cs ++ [c])
        = processSourceData c.sourceName c.titleData c.timeInfo (foldSourceData cs) := by
      simp [foldSourceData, List.foldl_append]
    have hsight : ∀ s t, titleSightings (cs ++ [c]) s t
        = titleSightings cs s t
          ++ (if c.sourceName = s then
                (dGet c.titleData t).map (fun d => (c.timeInfo, d))
              else none).toList := by
      intro s t
      simp only [titleSightings, List.filterMap_append]
      congr 1
    refine ⟨fun s t => ?_, fun s t => ?_, fun x => ?_⟩
    · rw [hfold, hsight s t]
      by_cases hs : c.sourceName = s
      · subst hs
        cases hdt : dGet c.titleData t with
        | none =>
          have h2 := hchar.2.1 t
          rw [hdt] at h2
          have h3 : infoLookup (processSourceData c.sourceName c.titleData c.timeInfo
              (foldSourceData cs)) c.sourceName t
              = infoLookup (foldSourceData cs) c.sourceName t := h2
          rw [h3, if_pos rfl]
          simpa using hih.1 c.sourceName t
        | some d =>
          have h2 := hchar.2.1 t
          rw [hdt] at h2
          have h3 : infoLookup (processSourceData c.sourceName c.titleData c.timeInfo
              (foldSourceData cs)) c.sourceName t
              = some (stepInfo (infoLookup (foldSourceData cs) c.sourceName t)
                  c.timeInfo d) := h2
          rw [h3, if_pos rfl]
          show _ = specTitleInfo (titleSightings cs c.sourceName t ++ [(c.timeInfo, d)])
          rw [specTitleInfo_append_singleton, hih.1 c.sourceName t]
      · have h2 := (hchar.2.2.1 s (fun e => hs (Eq.symm e))).2 t
        rw [h2, if_neg hs]
        simpa using hih.1 s t
    · rw [hfold, hsight s t]
      by_cases hs : c.sourceName = s
      · subst hs
        cases hdt : dGet c.titleData t with
        | none =>
          have h2 := hchar.1 t
          rw [hdt] at h2
          have h3 : resultsLookup (processSourceData c.sourceName c.titleData c.timeInfo
              (foldSourceData cs)) c.sourceName t
              = resultsLookup (foldSourceData cs) c.sourceName t := h2
          rw [h3, if_pos rfl]
          simpa using hih.2.1 c.sourceName t
        | some d =>
          have h2 := hchar.1 t
          rw [hdt] at h2
          have h3 : resultsLookup (processSourceData c.sourceName c.titleData c.timeInfo
              (foldSourceData cs)) c.sourceName t
              = some (stepData (resultsLookup (foldSourceData cs) c.sourceName t) d) := h2
          rw [h3, if_pos rfl]
          show _ = (specTitleInfo (titleSightings cs c.sourceName t
              ++ [(c.timeInfo, d)])).map projInfo
          rw [specTitleInfo_append_singleton, hih.2.1 c.sourceName t,
            Option.map_some', ← projInfo_stepInfo]
      · have h2 := (hchar.2.2.1 s (fun e => hs (Eq.symm e))).1 t
        rw [h2, if_neg hs]
        simpa using hih.2.1 s t
    · rw [hfold]
      exact hchar.2.2.2 x

/-! ## C2: the aggregation fold -/

/-- C2: folding a chronological sequence of decoded per-source sections
through `_process_source_data` gives, per `(source, title)` pair, exactly the
sighting-by-sighting prediction: on first sight `count = 1` and
`first_time = last_time =` that snapshot's label; on each later sighting
`last_time` is overwritten by the newer label, `count` increments, each rank
not already present is appended in order, and `url`/`mobileUrl` keep the first
non-empty value. -/
theorem C2_aggregation_fold (calls : List SourceCall)
    (hwf : ∀ c ∈ calls, (c.titleData.map Prod.fst).Nodup) (s t : Str) :
    infoLookup (foldSourceData calls) s t = specTitleInfo (titleSightings calls s t)
      ∧ ∀ h rest, titleSightings calls s t = h :: rest →
          ∃ i, infoLookup (foldSourceData calls) s t = some i
            ∧ i.first_time = h.1
            ∧ i.last_time = (rest.getLastD h).1
            ∧ i.count = rest.length + 1
            ∧ i.ranks = rest.foldl (fun a p => mergeRanks a p.2.ranks) h.2.ranks
            ∧ i.url = firstNonEmptyStr ((h :: rest).map (fun p => p.2.url))
            ∧ i.mobileUrl
                = firstNonEmptyStr ((h :: rest).map (fun p => p.2.mobileUrl)) := by
  have hinv := foldSourceData_inv calls hwf
  refine ⟨hinv.1 s t, fun h rest hsight => ?_⟩
  obtain ⟨i, hi, h1, h2, h3, h4, h5, h6⟩ := specTitleInfo_cons_props h rest
  refine ⟨i, ?_, h1, h2, h3, h4, h5, h6⟩
  rw [hinv.1 s t, hsight, hi]

/-- C2 witness: a title seen at rank 3, then 3, then 7 over three snapshots
ends with ranks [3, 7], count 3, first time "t1", last time "t3". -/
theorem C2_witness :
    infoLookup
        (foldSourceData
          [⟨"s".data, [("t".data, ⟨[3], [], []⟩)], "t1".data⟩,
            ⟨"s".data, [("t".data, ⟨[3], [], []⟩)], "t2".data⟩,
            ⟨"s".data, [("t".data, ⟨[7], [], []⟩)], "t3".data⟩])
        "s".data "t".data
      = specTitleInfo
          (titleSightings
            [⟨"s".data, [("t".data, ⟨[3], [], []⟩)], "t1".data⟩,
              ⟨"s".data, [("t".data, ⟨[3], [], []⟩)], "t2".data⟩,
              ⟨"s".data, [("t".data, ⟨[7], [], []⟩)], "t3".data⟩]
            "s".data "t".data)
      ∧ infoLookup
          (foldSourceData
            [⟨"s".data, [("t".data, ⟨[3], [], []⟩)], "t1".data⟩,
              ⟨"s".data, [("t".data, ⟨[3], [], []⟩)], "t2".data⟩,
              ⟨"s".data, [("t".data, ⟨[7], [], []⟩)], "t3".data⟩])
          "s".data "t".data
        = some ⟨"t1".data, "t3".data, 3, [3, 7], [], []⟩ :=
  ⟨(C2_aggregation_fold
      [⟨"s".data, [("t".data, ⟨[3], [], []⟩)], "t1".data⟩,
        ⟨"s".data, [("t".data, ⟨[3], [], []⟩)], "t2".data⟩,
        ⟨"s".data, [("t".data, ⟨[7], [], []⟩)], "t3".data⟩]
      (by decide) "s".data "t".data).1,
    by decide⟩

/-! ## Matcher and frequency-count lemmas (towards C3, C4, C9) -/

/-- The group a title is attributed to: `none` under the filter veto,
otherwise the first matching group in configuration order. -/
def attrib (groups : List WordGroup) (filterWords : List Str) (t : Str) :
    Option WordGroup :=
  if filterHit t filterWords then none else groups.find? (groupMatches t)

/-- Number of `(title, data)` pairs of one source attributed to group `g`. -/
def pairAttribCount (groups : List WordGroup) (filterWords : List Str)
    (g : WordGroup) (l : List (Str × TitleData)) : Nat :=
  l.countP (fun p => attrib groups filterWords p.1 == some g)

/-- Number of `(source, title)` pairs of the whole input attributed to `g`. -/
def specCount (results : List (Str × SourceTitles)) (groups : List WordGroup)
    (filterWords : List Str) (g : WordGroup) : Nat :=
  (results.map (fun q => pairAttribCount groups filterWords g q.2)).sum

/-- Count reported for key `k` in a stats list (0 if the key is absent). -/
def countForKey (stats : List FreqStat) (k : Str) : Nat :=
  ((stats.find? (fun st => st.word == k)).map FreqStat.count).getD 0

theorem matchesWordGroups_iff_attrib (t : Str) (groups : List WordGroup)
    (filterWords : List Str) :
    matchesWordGroups t groups filterWords = true
      ↔ (attrib groups filterWords t).isSome := by
  unfold matchesWordGroups attrib
  by_cases hf : filterHit t filterWords
  · simp [hf]
  · simp only [hf, if_false, Bool.false_eq_true]
    rw [List.any_eq_true, Option.isSome_iff_exists]
    constructor
    · rintro ⟨g, hg, hm⟩
      have : (groups.find? (groupMatches t)).isSome :=
        List.find?_isSome.mpr ⟨g, hg, hm⟩
      exact Option.isSome_iff_exists.mp this
    · rintro ⟨g, hg⟩
      exact ⟨g, List.mem_of_find?_eq_some hg, List.find?_some hg⟩

theorem groupMatches_iff (t : Str) (g : WordGroup) :
    groupMatches t g = true
      ↔ ((g.required = []
            ∨ ∀ w ∈ g.required, containsStr (pyLower t) (pyLower w) = true)
          ∧ (g.normal = []
            ∨ ∃ w ∈ g.normal, containsStr (pyLower t) (pyLower w) = true)) := by
  unfold groupMatches
  by_cases hr : g.required = [] <;> by_cases hn : g.normal = [] <;>
    simp [hr, hn, List.all_eq_true, List.any_eq_true]

theorem attrib_mem_of_eq_some {groups : List WordGroup} {filterWords : List Str}
    {t : Str} {g : WordGroup} (h : attrib groups filterWords t = some g) :
    g ∈ groups ∧ groupMatches t g = true ∧ filterHit t filterWords = false := by
  unfold attrib at h
  by_cases hf : filterHit t filterWords
  · rw [if_pos hf] at h
    cases h
  · rw [if_neg hf] at h
    exact ⟨List.mem_of_find?_eq_some h, List.find?_some h, by simpa using hf⟩

theorem mem_dSet {m : List (Str × α)} {k : Str} {v : α} {x : Str × α}
    (h : x ∈ dSet m k v) : x = (k, v) ∨ x ∈ m := by
  unfold dSet at h
  by_cases hm : dMem m k
  · rw [if_pos hm] at h
    rcases List.mem_map.mp h with ⟨p, hp, he⟩
    by_cases hpk : p.1 == k
    · rw [if_pos hpk] at he
      exact Or.inl he.symm
    · rw [if_neg hpk] at he
      exact Or.inr (he ▸ hp)
  · rw [if_neg hm] at h
    rcases List.mem_append.mp h with h | h
    · exact Or.inr h
    · exact Or.inl (List.mem_singleton.mp h)

theorem find?_eq_of_unique {α : Type} {l : List α} {p : α → Bool} {x : α}
    (hx : x ∈ l) (hpx : p x = true) (huniq : ∀ y ∈ l, p y = true → y = x) :
    l.find? p = some x := by
  induction l with
  | nil => cases hx
  | cons y l ih =>
    cases hpy : p y with
    | true =>
      rw [List.find?_cons, hpy]
      exact congrArg some (huniq y (List.mem_cons_self y l) hpy)
    | false =>
      rw [List.find?_cons, hpy]
      have hxl : x ∈ l := by
        rcases List.mem_cons.mp hx with rfl | hxl
        · rw [hpx] at hpy
          cases hpy
        · exact hxl
      exact ih hxl (fun y' hy' hp' => huniq y' (List.mem_cons_of_mem _ hy') hp')

/-- A dict whose keys are `gs.map key` (duplicate-free) and whose values are
determined by `dGet` is the corresponding `map`. -/
theorem eq_map_of_keys_and_dGet {β : Type} (key : WordGroup → Str)
    (F : WordGroup → β) (gs : List WordGroup) (m : List (Str × β))
    (hkeys : m.map Prod.fst = gs.map key) (hnd : (gs.map key).Nodup)
    (hget : ∀ g ∈ gs, dGet m (key g) = some (F g)) :
    m = gs.map (fun g => (key g, F g)) := by
  induction gs generalizing m with
  | nil =>
    cases m with
    | nil => rfl
    | cons p m => cases hkeys
  | cons g gs ih =>
    cases m with
    | nil => cases hkeys
    | cons p m =>
      simp only [List.map_cons, List.cons.injEq] at hkeys
      simp only [List.map_cons, List.nodup_cons] at hnd
      have hp2 : p.2 = F g := by
        have := hget g (List.mem_cons_self g gs)
        rw [dGet_cons, if_pos hkeys.1, Option.some_inj] at this
        exact this
      have hrest : m = gs.map (fun g => (key g, F g)) := by
        refine ih m hkeys.2 hnd.2 (fun g' hg' => ?_)
        have hne : p.1 ≠ key g' := by
          rw [hkeys.1]
          intro he
          exact hnd.1 (he ▸ List.mem_map_of_mem key hg')
        have := hget g' (List.mem_cons_of_mem _ hg')
        rwa [dGet_cons, if_neg hne] at this
      calc p :: m = (p.1, p.2) :: m := by rw [Prod.mk.eta]
        _ = (key g, F g) :: gs.map (fun g => (key g, F g)) := by
            rw [hkeys.1, hp2, hrest]

theorem cwfTitleStep_none (gs : List WordGroup) (fw : List Str)
    (ia : List (Str × Str)) (ti : List (Str × List (Str × TitleInfo))) (rt : Nat)
    (nt : List (Str × SourceTitles)) (sid : Str) (st : CWFState) (p : Str × TitleData)
    (hattr : attrib gs fw p.1 = none) :
    cwfTitleStep gs fw ia ti rt nt sid st p = st := by
  have hm : matchesWordGroups p.1 gs fw = false := by
    cases hmm : matchesWordGroups p.1 gs fw
    · rfl
    · have := (matchesWordGroups_iff_attrib p.1 gs fw).mp hmm
      rw [hattr] at this
      cases this
  unfold cwfTitleStep
  by_cases hp : dMem ((dGet st.processedTitles sid).getD []) p.1
  · rw [if_pos hp]
  · rw [if_neg hp, if_pos (by rw [hm]; rfl)]

theorem cwfTitleStep_some (gs : List WordGroup) (fw : List Str)
    (ia : List (Str × Str)) (ti : List (Str × List (Str × TitleInfo))) (rt : Nat)
    (nt : List (Str × SourceTitles)) (sid : Str) (st : CWFState) (p : Str × TitleData)
    (g : WordGroup)
    (hfresh : dMem ((dGet st.processedTitles sid).getD []) p.1 = false)
    (hattr : attrib gs fw p.1 = some g) :
    (cwfTitleStep gs fw ia ti rt nt sid st p).totalTitles = st.totalTitles
      ∧ (cwfTitleStep gs fw ia ti rt nt sid st p).processedTitles
          = dSet st.processedTitles sid
              (dSet ((dGet st.processedTitles sid).getD []) p.1 true)
      ∧ ∃ e : StatEntry, e.title = p.1
          ∧ matchesWordGroups e.title gs fw = true
          ∧ (cwfTitleStep gs fw ia ti rt nt sid st p).wordStats
              = dSet st.wordStats g.group_key
                  (((dGet st.wordStats g.group_key).getD (0, [])).1 + 1,
                    dSet ((dGet st.wordStats g.group_key).getD (0, [])).2 sid
                      (((dGet ((dGet st.wordStats g.group_key).getD (0, [])).2
                          sid).getD []) ++ [e])) := by
  have hnf : filterHit p.1 fw = false := (attrib_mem_of_eq_some hattr).2.2
  have hm : matchesWordGroups p.1 gs fw = true :=
    (matchesWordGroups_iff_attrib p.1 gs fw).mpr (by rw [hattr]; rfl)
  have hfind : gs.find? (groupMatches p.1) = some g := by
    have h0 := hattr
    unfold attrib at h0
    rwa [if_neg (by rw [hnf]; exact fun h => Bool.noConfusion h)] at h0
  unfold cwfTitleStep
  rw [if_neg (by rw [hfresh]; exact fun h => Bool.noConfusion h),
    if_neg (by rw [hm]; exact fun h => Bool.noConfusion h), hfind]
  exact ⟨rfl, rfl, _, rfl, hm, rfl⟩

theorem mem_of_dGet {m : List (Str × α)} {k : Str} {v : α}
    (h : dGet m k = some v) : (k, v) ∈ m := by
  unfold dGet at h
  rcases Option.map_eq_some'.mp h with ⟨q, hq, he⟩
  have h1 := List.mem_of_find?_eq_some hq
  have h2 := List.find?_some hq
  rcases q with ⟨a, b⟩
  simp only [beq_iff_eq] at h2
  simp only at he
  rw [← h2, ← he]
  exact h1

/-- Every entry stored in `word_stats` matches the word groups. -/
def entriesMatch (gs : List WordGroup) (fw : List Str)
    (ws : List (Str × (Nat × List (Str × List StatEntry)))) : Prop :=
  ∀ pr ∈ ws, ∀ q ∈ pr.2.2, ∀ e ∈ q.2, matchesWordGroups e.title gs fw = true

theorem entriesMatch_step (gs : List WordGroup) (fw : List Str)
    (ws : List (Str × (Nat × List (Str × List StatEntry)))) (k sid : Str) (c : Nat)
    (e : StatEntry) (hws : entriesMatch gs fw ws)
    (he : matchesWordGroups e.title gs fw = true) :
    entriesMatch gs fw (dSet ws k
      (c, dSet ((dGet ws k).getD (0, [])).2 sid
        (((dGet ((dGet ws k).getD (0, [])).2 sid).getD []) ++ [e]))) := by
  intro pr hpr q hq e' he'
  rcases mem_dSet hpr with hpr | hpr
  · subst hpr
    rcases mem_dSet hq with hq | hq
    · subst hq
      simp only at he'
      rcases List.mem_append.mp he' with h | h
      · cases hg : dGet ws k with
        | none =>
          rw [hg] at h
          simp only [Option.getD_none] at h
          cases h
        | some pr0 =>
          rw [hg] at h
          simp only [Option.getD_some] at h
          cases hq0 : dGet pr0.2 sid with
          | none =>
            rw [hq0] at h
            simp only [Option.getD_none] at h
            cases h
          | some es =>
            rw [hq0] at h
            simp only [Option.getD_some] at h
            exact hws (k, pr0) (mem_of_dGet hg) (sid, es) (mem_of_dGet hq0) e' h
      · rw [List.mem_singleton.mp h]
        exact he
    · cases hg : dGet ws k with
      | none =>
        rw [hg] at hq
        simp only [Option.getD_none] at hq
        cases hq
      | some pr0 =>
        rw [hg] at hq
        simp only [Option.getD_some] at hq
        exact hws (k, pr0) (mem_of_dGet hg) q hq e' he'
  · exact hws pr hpr q hq e' he'

/-- Characterization of the title loop of `count_word_frequency` over one
source's titles. -/
theorem cwfTitleFold (gs : List WordGroup) (fw : List Str) (ia : List (Str × Str))
    (ti : List (Str × List (Str × TitleInfo))) (rt : Nat)
    (nt : List (Str × SourceTitles)) (sid : Str) (l : List (Str × TitleData))
    (st : CWFState) (hnd : (l.map Prod.fst).Nodup)
    (hfresh : ∀ p ∈ l, dMem ((dGet st.processedTitles sid).getD []) p.1 = false)
    (hgnd : (gs.map WordGroup.group_key).Nodup)
    (hkeys : st.wordStats.map Prod.fst = gs.map WordGroup.group_key) :
    (l.foldl (cwfTitleStep gs fw ia ti rt nt sid) st).totalTitles = st.totalTitles
      ∧ (l.foldl (cwfTitleStep gs fw ia ti rt nt sid) st).wordStats.map Prod.fst
          = st.wordStats.map Prod.fst
      ∧ (∀ g ∈ gs, ∀ pr, dGet st.wordStats g.group_key = some pr →
          ∃ m, dGet (l.foldl (cwfTitleStep gs fw ia ti rt nt sid) st).wordStats
              g.group_key
            = some (pr.1 + pairAttribCount gs fw g l, m))
      ∧ (∀ s', s' ≠ sid →
          dGet (l.foldl (cwfTitleStep gs fw ia ti rt nt sid) st).processedTitles s'
            = dGet st.processedTitles s')
      ∧ (entriesMatch gs fw st.wordStats →
          entriesMatch gs fw
            (l.foldl (cwfTitleStep gs fw ia ti rt nt sid) st).wordStats) := by
  induction l generalizing st with
  | nil =>
    refine ⟨rfl, rfl, fun g hg pr hpr => ⟨pr.2, ?_⟩, fun s' _ => rfl, id⟩
    simp [pairAttribCount, hpr]
  | cons p l ih =>
    simp only [List.map_cons, List.nodup_cons] at hnd
    cases hattr : attrib gs fw p.1 with
    | none =>
      rw [List.foldl_cons, cwfTitleStep_none gs fw ia ti rt nt sid st p hattr]
      have hih := ih st hnd.2 (fun p' hp' => hfresh p' (List.mem_cons_of_mem _ hp'))
        hkeys
      refine ⟨hih.1, hih.2.1, fun g hg pr hpr => ?_, hih.2.2.2.1, hih.2.2.2.2⟩
      obtain ⟨m, hm⟩ := hih.2.2.1 g hg pr hpr
      refine ⟨m, ?_⟩
      rw [hm]
      have : pairAttribCount gs fw g (p :: l) = pairAttribCount gs fw g l := by
        simp [pairAttribCount, List.countP_cons, hattr]
      rw [this]
    | some g₀ =>
      obtain ⟨htot, hproc, e, hetitle, hematch, hws⟩ :=
        cwfTitleStep_some gs fw ia ti rt nt sid st p g₀
          (hfresh p (List.mem_cons_self p l)) hattr
      have hg₀ : g₀ ∈ gs := (attrib_mem_of_eq_some hattr).1
      have hmem : dMem st.wordStats g₀.group_key = true := by
        rw [dMem_mem_keys, hkeys]
        exact List.mem_map_of_mem WordGroup.group_key hg₀
      have hkeys' : (cwfTitleStep gs fw ia ti rt nt sid st p).wordStats.map Prod.fst
          = st.wordStats.map Prod.fst := by
        rw [hws, keys_dSet, if_pos hmem]
      have hfresh' : ∀ p' ∈ l,
          dMem ((dGet (cwfTitleStep gs fw ia ti rt nt sid st p).processedTitles
            sid).getD []) p'.1 = false := by
        intro p' hp'
        rw [hproc, dGet_dSet_self, Option.getD_some]
        cases hd : dMem (dSet ((dGet st.processedTitles sid).getD []) p.1 true) p'.1
        · rfl
        · rcases (dMem_dSet_iff _ _ _ _).mp hd with h | h
          · exact absurd (h ▸ List.mem_map_of_mem Prod.fst hp') hnd.1
          · rw [hfresh p' (List.mem_cons_of_mem _ hp')] at h
            cases h
      have hih := ih (cwfTitleStep gs fw ia ti rt nt sid st p) hnd.2 hfresh'
        (hkeys'.trans hkeys)
      rw [List.foldl_cons]
      refine ⟨hih.1.trans htot, hih.2.1.trans hkeys', fun g hg pr hpr => ?_,
        fun s' hs' => ?_, fun hEM => ?_⟩
      · by_cases hgg : g = g₀
        · subst hgg
          have hget' : dGet (cwfTitleStep gs fw ia ti rt nt sid st p).wordStats
              g.group_key
              = some (pr.1 + 1,
                  dSet ((dGet st.wordStats g.group_key).getD (0, [])).2 sid
                    (((dGet ((dGet st.wordStats g.group_key).getD (0, [])).2
                        sid).getD []) ++ [e])) := by
            rw [hws, dGet_dSet_self, hpr, Option.getD_some]
          obtain ⟨m, hm⟩ := hih.2.2.1 g hg _ hget'
          refine ⟨m, ?_⟩
          have hcnt : pairAttribCount gs fw g (p :: l)
              = pairAttribCount gs fw g l + 1 := by
            simp [pairAttribCount, List.countP_cons, hattr]
          have harith : pr.1 + (pairAttribCount gs fw g l + 1)
              = pr.1 + 1 + pairAttribCount gs fw g l := by
            omega
          rw [hm, hcnt, harith]
        · have hkne : g.group_key ≠ g₀.group_key := by
            intro he'
            exact hgg (List.inj_on_of_nodup_map hgnd hg hg₀ he')
          have hget' : dGet (cwfTitleStep gs fw ia ti rt nt sid st p).wordStats
              g.group_key = some pr := by
            rw [hws, dGet_dSet_ne _ _ _ _ hkne, hpr]
          obtain ⟨m, hm⟩ := hih.2.2.1 g hg pr hget'
          refine ⟨m, ?_⟩
          rw [hm]
          have hcnt : pairAttribCount gs fw g (p :: l)
              = pairAttribCount gs fw g l := by
            have hne' : (attrib gs fw p.1 == some g) = false := by
              have hne0 : ¬g₀ = g := fun e' => hgg (Eq.symm e')
              rw [hattr]
              simp [hne0]
            simp [pairAttribCount, List.countP_cons, hne']
          rw [hcnt]
      · rw [hih.2.2.2.1 s' hs', hproc, dGet_dSet_ne _ _ _ _ hs']
      · refine hih.2.2.2.2 ?_
        rw [hws]
        exact entriesMatch_step gs fw st.wordStats g₀.group_key sid _ e hEM hematch

/-- Characterization of the source loop of `count_word_frequency`. -/
theorem cwfSourceFold (gs : List WordGroup) (fw : List Str) (ia : List (Str × Str))
    (ti : List (Str × List (Str × TitleInfo))) (rt : Nat)
    (nt : List (Str × SourceTitles)) (rs : List (Str × SourceTitles)) (st : CWFState)
    (hnd : (rs.map Prod.fst).Nodup)
    (hwfT : ∀ q ∈ rs, (q.2.map Prod.fst).Nodup)
    (hfreshS : ∀ q ∈ rs, dGet st.processedTitles q.1 = none)
    (hgnd : (gs.map WordGroup.group_key).Nodup)
    (hkeys : st.wordStats.map Prod.fst = gs.map WordGroup.group_key) :
    (rs.foldl (cwfSourceStep gs fw ia ti rt nt) st).wordStats.map Prod.fst
        = st.wordStats.map Prod.fst
      ∧ (∀ g ∈ gs, ∀ pr, dGet st.wordStats g.group_key = some pr →
          ∃ m, dGet (rs.foldl (cwfSourceStep gs fw ia ti rt nt) st).wordStats
              g.group_key
            = some (pr.1 + (rs.map (fun q => pairAttribCount gs fw g q.2)).sum, m))
      ∧ (entriesMatch gs fw st.wordStats →
          entriesMatch gs fw
            (rs.foldl (cwfSourceStep gs fw ia ti rt nt) st).wordStats) := by
  induction rs generalizing st with
  | nil =>
    refine ⟨rfl, fun g hg pr hpr => ⟨pr.2, ?_⟩, id⟩
    simp [hpr]
  | cons q rs ih =>
    simp only [List.map_cons, List.nodup_cons] at hnd
    have hstep : cwfSourceStep gs fw ia ti rt nt st q
        = q.2.foldl (cwfTitleStep gs fw ia ti rt nt q.1)
            { st with totalTitles := st.totalTitles + q.2.length } := rfl
    have htf := cwfTitleFold gs fw ia ti rt nt q.1 q.2
      { st with totalTitles := st.totalTitles + q.2.length }
      (hwfT q (List.mem_cons_self q rs))
      (by
        intro p hp
        show dMem ((dGet st.processedTitles q.1).getD []) p.1 = false
        rw [hfreshS q (List.mem_cons_self q rs)]
        rfl)
      hgnd hkeys
    have hfreshS' : ∀ q' ∈ rs,
        dGet (cwfSourceStep gs fw ia ti rt nt st q).processedTitles q'.1 = none := by
      intro q' hq'
      have hne : q'.1 ≠ q.1 := by
        intro he
        exact hnd.1 (he ▸ List.mem_map_of_mem Prod.fst hq')
      rw [hstep, htf.2.2.2.1 q'.1 hne]
      exact hfreshS q' (List.mem_cons_of_mem _ hq')
    have hkeys' : (cwfSourceStep gs fw ia ti rt nt st q).wordStats.map Prod.fst
        = gs.map WordGroup.group_key := by
      rw [hstep]
      exact htf.2.1.trans hkeys
    have hih := ih (cwfSourceStep gs fw ia ti rt nt st q) hnd.2
      (fun q' hq' => hwfT q' (List.mem_cons_of_mem _ hq')) hfreshS' hkeys'
    rw [List.foldl_cons]
    refine ⟨hih.1.trans (hkeys'.trans hkeys.symm), fun g hg pr hpr => ?_, fun hEM => ?_⟩
    · obtain ⟨m1, hm1⟩ := htf.2.2.1 g hg pr (by exact hpr)
      obtain ⟨m2, hm2⟩ := hih.2.1 g hg _ (by rw [hstep]; exact hm1)
      refine ⟨m2, ?_⟩
      rw [hm2]
      have : pr.1 + pairAttribCount gs fw g q.2
            + ((rs.map (fun q' => pairAttribCount gs fw g q'.2)).sum)
          = pr.1 + (((q :: rs).map (fun q' => pairAttribCount gs fw g q'.2)).sum) := by
        simp only [List.map_cons, List.sum_cons]
        omega
      rw [this]
    · refine hih.2.2 ?_
      rw [hstep]
      exact htf.2.2.2.2 hEM

/-- The initial `word_stats` dict (main.py 640-642) for duplicate-free group
keys, as an explicit map. -/
theorem initWordStats (gs : List WordGroup)
    (hgnd : (gs.map WordGroup.group_key).Nodup) :
    gs.foldl (fun m g => dSet m g.group_key
        ((0 : Nat), ([] : List (Str × List StatEntry)))) []
      = gs.map (fun g => (g.group_key, (0, []))) := by
  suffices h : ∀ gs' : List WordGroup, (gs'.map WordGroup.group_key).Nodup →
      ∀ acc : List (Str × (Nat × List (Str × List StatEntry))),
      (∀ g ∈ gs', dMem acc g.group_key = false) →
      gs'.foldl (fun m g => dSet m g.group_key (0, [])) acc
        = acc ++ gs'.map (fun g => (g.group_key, (0, []))) by
    simpa using h gs hgnd [] (fun g _ => rfl)
  intro gs'
  induction gs' with
  | nil => intro _ acc _; simp
  | cons g gs' ih =>
    intro hnd acc hacc
    simp only [List.map_cons, List.nodup_cons] at hnd
    rw [List.foldl_cons, dSet_of_not_mem _ _ _ (hacc g (List.mem_cons_self g gs')),
      ih hnd.2 (acc ++ [(g.group_key, (0, []))]) ?_]
    · simp
    · intro g' hg'
      rw [dMem_eq_false_iff]
      simp only [List.map_append, List.mem_append, List.map_cons, List.map_nil,
        List.mem_singleton]
      rintro (h | h)
      · exact (dMem_eq_false_iff acc g'.group_key).mp
          (hacc g' (List.mem_cons_of_mem _ hg')) h
      · exact hnd.1 (h ▸ List.mem_map_of_mem WordGroup.group_key hg')

theorem dGet_map_key {β : Type} (key : WordGroup → Str) (F : WordGroup → β)
    (gs : List WordGroup) (hnd : (gs.map key).Nodup) (g : WordGroup) (hg : g ∈ gs) :
    dGet (gs.map (fun g' => (key g', F g'))) (key g) = some (F g) := by
  induction gs with
  | nil => cases hg
  | cons g0 gs ih =>
    simp only [List.map_cons, List.nodup_cons] at hnd
    rw [List.map_cons, dGet_cons]
    rcases List.mem_cons.mp hg with rfl | hg
    · rw [if_pos rfl]
    · rw [if_neg, ih hnd.2 hg]
      intro he
      have he' : key g0 = key g := he
      exact hnd.1 (he' ▸ List.mem_map_of_mem key hg)

theorem dGet_map_snd {β γ : Type} (f : β → γ) (m : List (Str × β)) (k : Str) :
    dGet (m.map (fun p => (p.1, f p.2))) k = (dGet m k).map f := by
  induction m with
  | nil => rfl
  | cons p m ih =>
    rw [List.map_cons, dGet_cons, dGet_cons]
    by_cases h : p.1 = k
    · rw [if_pos h, if_pos h]
      rfl
    · rw [if_neg h, if_neg h, ih]

theorem find?_eq_head?_filter {α : Type} (l : List α) (p : α → Bool) :
    l.find? p = (l.filter p).head? := by
  induction l with
  | nil => rfl
  | cons a l ih =>
    rw [List.find?_cons, List.filter_cons]
    cases h : p a with
    | true => simp
    | false => exact ih

theorem filter_word_eq_singleton {l : List FreqStat} {k : Str}
    (hnd : (l.map FreqStat.word).Nodup) {x : FreqStat} (hx : x ∈ l)
    (hxw : x.word = k) :
    l.filter (fun st => st.word == k) = [x] := by
  induction l with
  | nil => cases hx
  | cons y l ih =>
    simp only [List.map_cons, List.nodup_cons] at hnd
    rcases List.mem_cons.mp hx with rfl | hx
    · rw [List.filter_cons, if_pos (by simp [hxw])]
      have hrest : l.filter (fun st => st.word == k) = [] := by
        rw [List.filter_eq_nil_iff]
        intro a ha
        simp only [beq_iff_eq]
        intro hak
        exact hnd.1 (by
          rw [hxw, ← hak]
          exact List.mem_map_of_mem FreqStat.word ha)
      rw [hrest]
    · have hyk : ¬ ((fun st => st.word == k) y = true) := by
        simp only [beq_iff_eq]
        intro hyk
        apply hnd.1
        rw [hyk, ← hxw]
        exact List.mem_map_of_mem FreqStat.word hx
      rw [List.filter_cons, if_neg hyk]
      exact ih hnd.2 hx

theorem map_filter_count (l : List FreqStat) (c : Nat) :
    (l.filter (fun st => st.count == c)).map (fun st => (st.word, st.count))
      = (l.map (fun st => (st.word, st.count))).filter (fun q => q.2 == c) := by
  induction l with
  | nil => rfl
  | cons a l ih =>
    by_cases h : a.count = c
    · simp [List.filter_cons, h, ih]
    · simp [List.filter_cons, h, ih]

theorem find?_eq_some_split {α : Type} {l : List α} {p : α → Bool} {x : α} :
    l.find? p = some x
      ↔ p x = true ∧ ∃ l₁ l₂, l = l₁ ++ x :: l₂ ∧ ∀ y ∈ l₁, p y = false := by
  induction l with
  | nil => simp
  | cons a l ih =>
    rw [List.find?_cons]
    cases hpa : p a with
    | true =>
      simp only [Option.some.injEq]
      constructor
      · rintro rfl
        exact ⟨hpa, [], l, rfl, by simp⟩
      · rintro ⟨hpx, l₁, l₂, heq, hall⟩
        cases l₁ with
        | nil =>
          have h1 : a = x := by
            have h := congrArg (fun t => t.headD a) heq
            simpa using h
          exact h1
        | cons b l₁ =>
          have h1 : a = b := by
            have h := congrArg (fun t => t.headD a) heq
            simpa using h
          exact absurd hpa (by
            rw [h1, hall b (List.mem_cons_self b l₁)]
            simp)
    | false =>
      rw [ih]
      constructor
      · rintro ⟨hpx, l₁, l₂, heq, hall⟩
        refine ⟨hpx, a :: l₁, l₂, by rw [heq, List.cons_append], ?_⟩
        intro y hy
        rcases List.mem_cons.mp hy with rfl | hy
        · exact hpa
        · exact hall y hy
      · rintro ⟨hpx, l₁, l₂, heq, hall⟩
        cases l₁ with
        | nil =>
          injection heq with h1 h2
          have hx0 : p x = false := h1 ▸ hpa
          rw [hx0] at hpx
          cases hpx
        | cons b l₁ =>
          injection heq with h1 h2
          subst h1
          subst h2
          exact ⟨hpx, l₁, l₂, rfl, fun y hy => hall y (List.mem_cons_of_mem _ hy)⟩

/-- Final `word_stats` characterization: keys are the configured group keys in
order, each group's count is its attribution count, and every recorded entry's
title passes the matcher. -/
theorem cwfFinal_char (results : List (Str × SourceTitles)) (gs : List WordGroup)
    (fw : List Str) (ia : List (Str × Str))
    (ti : List (Str × List (Str × TitleInfo))) (rt : Nat)
    (nt : List (Str × SourceTitles))
    (hgnd : (gs.map WordGroup.group_key).Nodup)
    (hrnd : (results.map Prod.fst).Nodup)
    (hwfT : ∀ q ∈ results, (q.2.map Prod.fst).Nodup) :
    (cwfFinalState results gs fw ia ti rt nt).wordStats.map
        (fun pr => (pr.1, pr.2.1))
      = gs.map (fun g => (g.group_key, specCount results gs fw g))
    ∧ entriesMatch gs fw (cwfFinalState results gs fw ia ti rt nt).wordStats := by
  have hinit := initWordStats gs hgnd
  have hkeys0 : (gs.foldl (fun m g => dSet m g.group_key
        ((0 : Nat), ([] : List (Str × List StatEntry)))) []).map Prod.fst
      = gs.map WordGroup.group_key := by
    rw [hinit, List.map_map]
    rfl
  have hsf := cwfSourceFold gs fw ia ti rt nt results
    ⟨gs.foldl (fun m g => dSet m g.group_key (0, [])) [], 0, []⟩
    hrnd hwfT (fun q _ => rfl) hgnd hkeys0
  have hfineq : cwfFinalState results gs fw ia ti rt nt
      = results.foldl (cwfSourceStep gs fw ia ti rt nt)
          ⟨gs.foldl (fun m g => dSet m g.group_key (0, [])) [], 0, []⟩ := rfl
  constructor
  · refine eq_map_of_keys_and_dGet WordGroup.group_key
      (fun g => specCount results gs fw g) gs _ ?_ hgnd ?_
    · rw [List.map_map, hfineq]
      exact hsf.1.trans hkeys0
    · intro g hg
      have hget0 : dGet (gs.foldl (fun m g' => dSet m g'.group_key
            ((0 : Nat), ([] : List (Str × List StatEntry)))) []) g.group_key
          = some (0, []) := by
        rw [hinit]
        exact dGet_map_key WordGroup.group_key _ gs hgnd g hg
      obtain ⟨m', hm'⟩ := hsf.2.1 g hg (0, []) hget0
      rw [show (((0 : Nat), ([] : List (Str × List StatEntry))).1
            + (results.map (fun q => pairAttribCount gs fw g q.2)).sum
          = specCount results gs fw g) from Nat.zero_add _] at hm'
      rw [dGet_map_snd Prod.fst, hfineq, hm']
      rfl
  · have hEM0 : entriesMatch gs fw
        (gs.foldl (fun m g => dSet m g.group_key (0, [])) []) := by
      rw [hinit]
      intro pr hpr q hq e _
      obtain ⟨g, _, rfl⟩ := List.mem_map.mp hpr
      exact absurd hq (List.not_mem_nil q)
    rw [hfineq]
    exact hsf.2.2 hEM0

/-- The pre-sort stats list projects, per configured group in order, to the
group key paired with its attribution count. -/
theorem preStats_proj (results : List (Str × SourceTitles)) (gs : List WordGroup)
    (fw : List Str) (ia : List (Str × Str))
    (ti : List (Str × List (Str × TitleInfo))) (rt : Nat)
    (nt : List (Str × SourceTitles))
    (hgnd : (gs.map WordGroup.group_key).Nodup)
    (hrnd : (results.map Prod.fst).Nodup)
    (hwfT : ∀ q ∈ results, (q.2.map Prod.fst).Nodup) :
    (cwfPreStats (cwfFinalState results gs fw ia ti rt nt).wordStats
        (cwfFinalState results gs fw ia ti rt nt).totalTitles).map
        (fun st => (st.word, st.count))
      = gs.map (fun g => (g.group_key, specCount results gs fw g)) := by
  have hc := cwfFinal_char results gs fw ia ti rt nt hgnd hrnd hwfT
  rw [cwfPreStats, List.map_map]
  exact hc.1

theorem preStats_word_nodup (results : List (Str × SourceTitles))
    (gs : List WordGroup) (fw : List Str) (ia : List (Str × Str))
    (ti : List (Str × List (Str × TitleInfo))) (rt : Nat)
    (nt : List (Str × SourceTitles))
    (hgnd : (gs.map WordGroup.group_key).Nodup)
    (hrnd : (results.map Prod.fst).Nodup)
    (hwfT : ∀ q ∈ results, (q.2.map Prod.fst).Nodup) :
    ((cwfPreStats (cwfFinalState results gs fw ia ti rt nt).wordStats
        (cwfFinalState results gs fw ia ti rt nt).totalTitles).map
        FreqStat.word).Nodup := by
  have hproj := preStats_proj results gs fw ia ti rt nt hgnd hrnd hwfT
  have h1 : (cwfPreStats (cwfFinalState results gs fw ia ti rt nt).wordStats
        (cwfFinalState results gs fw ia ti rt nt).totalTitles).map FreqStat.word
      = ((cwfPreStats (cwfFinalState results gs fw ia ti rt nt).wordStats
          (cwfFinalState results gs fw ia ti rt nt).totalTitles).map
          (fun st => (st.word, st.count))).map Prod.fst := by
    rw [List.map_map]
    rfl
  rw [h1, hproj, List.map_map]
  exact hgnd

/-- The count reported under a configured group's key equals that group's
attribution count. -/
theorem countForKey_eq_specCount (results : List (Str × SourceTitles))
    (gs : List WordGroup) (fw : List Str) (ia : List (Str × Str))
    (ti : List (Str × List (Str × TitleInfo))) (rt : Nat)
    (nt : List (Str × SourceTitles))
    (hgnd : (gs.map WordGroup.group_key).Nodup)
    (hrnd : (results.map Prod.fst).Nodup)
    (hwfT : ∀ q ∈ results, (q.2.map Prod.fst).Nodup)
    (g : WordGroup) (hg : g ∈ gs) :
    countForKey (countWordFrequency results gs fw ia ti rt nt).1 g.group_key
      = specCount results gs fw g := by
  have hproj := preStats_proj results gs fw ia ti rt nt hgnd hrnd hwfT
  have hwnd := preStats_word_nodup results gs fw ia ti rt nt hgnd hrnd hwfT
  have hxex : ∃ x ∈ cwfPreStats (cwfFinalState results gs fw ia ti rt nt).wordStats
      (cwfFinalState results gs fw ia ti rt nt).totalTitles,
      x.word = g.group_key ∧ x.count = specCount results gs fw g := by
    have hmem : (g.group_key, specCount results gs fw g)
        ∈ gs.map (fun g' => (g'.group_key, specCount results gs fw g')) :=
      List.mem_map_of_mem _ hg
    rw [← hproj] at hmem
    obtain ⟨x, hx, hxe⟩ := List.mem_map.mp hmem
    injection hxe with h1 h2
    exact ⟨x, hx, h1, h2⟩
  obtain ⟨x, hxmem, hxw, hxc⟩ := hxex
  have hfilt : (cwfPreStats (cwfFinalState results gs fw ia ti rt nt).wordStats
        (cwfFinalState results gs fw ia ti rt nt).totalTitles).filter
        (fun st => st.word == g.group_key) = [x] :=
    filter_word_eq_singleton hwnd hxmem hxw
  have hstats : (countWordFrequency results gs fw ia ti rt nt).1
      = pyInsertionSort (fun a b => FreqStat.count b ≤ FreqStat.count a)
          (cwfPreStats (cwfFinalState results gs fw ia ti rt nt).wordStats
            (cwfFinalState results gs fw ia ti rt nt).totalTitles) := rfl
  have hperm := (perm_pyInsertionSort
    (fun a b => FreqStat.count b ≤ FreqStat.count a)
    (cwfPreStats (cwfFinalState results gs fw ia ti rt nt).wordStats
      (cwfFinalState results gs fw ia ti rt nt).totalTitles)).filter
    (fun st => st.word == g.group_key)
  rw [hfilt] at hperm
  have hfs : (pyInsertionSort (fun a b => FreqStat.count b ≤ FreqStat.count a)
        (cwfPreStats (cwfFinalState results gs fw ia ti rt nt).wordStats
          (cwfFinalState results gs fw ia ti rt nt).totalTitles)).filter
        (fun st => st.word == g.group_key) = [x] :=
    List.perm_singleton.mp hperm
  rw [countForKey, hstats, find?_eq_head?_filter, hfs, ← hxc]
  rfl

/-- Dropping from every source the pairs whose title is `t` does not change any
group's attribution count when `t` is vetoed by a filter word. -/
theorem specCount_filter_ne (results : List (Str × SourceTitles))
    (gs : List WordGroup) (fw : List Str) (t : Str) (g : WordGroup)
    (hhit : filterHit t fw = true) :
    specCount (results.map (fun q => (q.1, q.2.filter (fun p => !(p.1 == t)))))
        gs fw g
      = specCount results gs fw g := by
  rw [specCount, specCount, List.map_map]
  congr 1
  apply List.map_congr_left
  intro q _
  show pairAttribCount gs fw g (q.2.filter (fun p => !(p.1 == t)))
      = pairAttribCount gs fw g q.2
  rw [pairAttribCount, pairAttribCount, List.countP_filter]
  apply List.countP_congr
  intro p _
  cases hap : (attrib gs fw p.1 == some g) with
  | false => simp [hap]
  | true =>
    have hsome : attrib gs fw p.1 = some g := by simpa using hap
    have hne : ¬ p.1 = t := by
      intro he
      rw [he, attrib, if_pos hhit] at hsome
      cases hsome
    simp [hap, hne]

/-- C3: a group matches a title iff (its required words are empty or all are
case-insensitive substrings) and (its normal words are empty or at least one
is); the attribution of a non-filtered title is exactly the first matching
group in configuration order, it is unique, and each configured group's
reported count equals the number of (source, title) pairs attributed to it. -/
theorem C3_first_match_wins (results : List (Str × SourceTitles))
    (gs : List WordGroup) (fw : List Str) (ia : List (Str × Str))
    (ti : List (Str × List (Str × TitleInfo))) (rt : Nat)
    (nt : List (Str × SourceTitles))
    (hgnd : (gs.map WordGroup.group_key).Nodup)
    (hrnd : (results.map Prod.fst).Nodup)
    (hwfT : ∀ q ∈ results, (q.2.map Prod.fst).Nodup) :
    (∀ t g, groupMatches t g = true
        ↔ ((g.required = []
              ∨ ∀ w ∈ g.required, containsStr (pyLower t) (pyLower w) = true)
            ∧ (g.normal = []
              ∨ ∃ w ∈ g.normal, containsStr (pyLower t) (pyLower w) = true)))
      ∧ (∀ t g, attrib gs fw t = some g
          ↔ filterHit t fw = false ∧ groupMatches t g = true
            ∧ ∃ l₁ l₂, gs = l₁ ++ g :: l₂
              ∧ ∀ g' ∈ l₁, groupMatches t g' = false)
      ∧ (∀ t g g', attrib gs fw t = some g → attrib gs fw t = some g' → g = g')
      ∧ (∀ g ∈ gs,
          countForKey (countWordFrequency results gs fw ia ti rt nt).1
              g.group_key
            = specCount results gs fw g) := by
  refine ⟨groupMatches_iff, ?_, ?_, ?_⟩
  · intro t g
    rw [attrib]
    by_cases hf : filterHit t fw = true
    · rw [if_pos hf]
      constructor
      · intro h
        cases h
      · rintro ⟨hff, _⟩
        rw [hff] at hf
        cases hf
    · rw [if_neg hf, find?_eq_some_split]
      constructor
      · rintro ⟨hpg, l₁, l₂, heq, hall⟩
        exact ⟨Bool.eq_false_iff.mpr hf, hpg, l₁, l₂, heq, hall⟩
      · rintro ⟨_, hpg, l₁, l₂, heq, hall⟩
        exact ⟨hpg, l₁, l₂, heq, hall⟩
  · intro t g g' h1 h2
    exact Option.some.inj (h1.symm.trans h2)
  · intro g hg
    exact countForKey_eq_specCount results gs fw ia ti rt nt hgnd hrnd hwfT g hg

theorem C3_witness :
    ((([⟨[], ["a".data], "a".data⟩,
          ⟨[], ["ab".data], "ab".data⟩] : List WordGroup).map
          WordGroup.group_key).Nodup
        ∧ (([("s".data, [("ab".data, emptyTitleData)])]
            : List (Str × SourceTitles)).map Prod.fst).Nodup
        ∧ ∀ q ∈ ([("s".data, [("ab".data, emptyTitleData)])]
            : List (Str × SourceTitles)), (q.2.map Prod.fst).Nodup)
      ∧ ∀ g ∈ ([⟨[], ["a".data], "a".data⟩,
          ⟨[], ["ab".data], "ab".data⟩] : List WordGroup),
          countForKey (countWordFrequency
              [("s".data, [("ab".data, emptyTitleData)])]
              [⟨[], ["a".data], "a".data⟩, ⟨[], ["ab".data], "ab".data⟩]
              [] [] [] 10 []).1 g.group_key
            = specCount [("s".data, [("ab".data, emptyTitleData)])]
                [⟨[], ["a".data], "a".data⟩, ⟨[], ["ab".data], "ab".data⟩]
                [] g :=
  ⟨by decide,
    (C3_first_match_wins [("s".data, [("ab".data, emptyTitleData)])]
      [⟨[], ["a".data], "a".data⟩, ⟨[], ["ab".data], "ab".data⟩]
      [] [] [] 10 [] (by decide) (by decide) (by decide)).2.2.2⟩

/-- C4: a title containing a filter word is vetoed: the matcher returns false,
the title appears in no stat's entry list, and removing all its pairs from the
input leaves every configured group's reported count unchanged. -/
theorem C4_filter_veto (results : List (Str × SourceTitles))
    (gs : List WordGroup) (fw : List Str) (ia : List (Str × Str))
    (ti : List (Str × List (Str × TitleInfo))) (rt : Nat)
    (nt : List (Str × SourceTitles)) (t : Str)
    (hgnd : (gs.map WordGroup.group_key).Nodup)
    (hrnd : (results.map Prod.fst).Nodup)
    (hwfT : ∀ q ∈ results, (q.2.map Prod.fst).Nodup)
    (hhit : filterHit t fw = true) :
    matchesWordGroups t gs fw = false
      ∧ (∀ stat ∈ (countWordFrequency results gs fw ia ti rt nt).1,
          ∀ e ∈ stat.titles, e.title ≠ t)
      ∧ (∀ g ∈ gs,
          countForKey (countWordFrequency
              (results.map (fun q => (q.1, q.2.filter (fun p => !(p.1 == t)))))
              gs fw ia ti rt nt).1 g.group_key
            = countForKey (countWordFrequency results gs fw ia ti rt nt).1
                g.group_key) := by
  have hmf : matchesWordGroups t gs fw = false := by
    rw [matchesWordGroups, if_pos hhit]
  have hc := cwfFinal_char results gs fw ia ti rt nt hgnd hrnd hwfT
  refine ⟨hmf, ?_, ?_⟩
  · intro stat hstat e he
    have hstat' : stat ∈ pyInsertionSort
        (fun a b => FreqStat.count b ≤ FreqStat.count a)
        (cwfPreStats (cwfFinalState results gs fw ia ti rt nt).wordStats
          (cwfFinalState results gs fw ia ti rt nt).totalTitles) := hstat
    have hpre := (perm_pyInsertionSort
      (fun a b => FreqStat.count b ≤ FreqStat.count a)
      (cwfPreStats (cwfFinalState results gs fw ia ti rt nt).wordStats
        (cwfFinalState results gs fw ia ti rt nt).totalTitles)).subset hstat'
    rw [cwfPreStats] at hpre
    obtain ⟨pr, hpr, rfl⟩ := List.mem_map.mp hpre
    obtain ⟨l', hl', hel⟩ := List.mem_flatten.mp he
    obtain ⟨q, hq, rfl⟩ := List.mem_map.mp hl'
    have hmatch := hc.2 pr hpr q hq e hel
    intro he'
    rw [he', hmf] at hmatch
    cases hmatch
  · intro g hg
    have hrnd' : (((results.map
          (fun q => (q.1, q.2.filter (fun p => !(p.1 == t))))).map
          Prod.fst)).Nodup := by
      rw [List.map_map]
      exact hrnd
    have hwfT' : ∀ q ∈ results.map
        (fun q => (q.1, q.2.filter (fun p => !(p.1 == t)))),
        (q.2.map Prod.fst).Nodup := by
      intro q hq
      obtain ⟨q0, hq0, rfl⟩ := List.mem_map.mp hq
      exact List.Nodup.sublist
        (List.Sublist.map Prod.fst (List.filter_sublist q0.2)) (hwfT q0 hq0)
    rw [countForKey_eq_specCount _ gs fw ia ti rt nt hgnd hrnd' hwfT' g hg,
      countForKey_eq_specCount results gs fw ia ti rt nt hgnd hrnd hwfT g hg]
    exact specCount_filter_ne results gs fw t g hhit

theorem C4_witness :
    ((([⟨[], ["ba".data], "ba".data⟩] : List WordGroup).map
          WordGroup.group_key).Nodup
        ∧ (([("s".data, [("bad".data, emptyTitleData),
              ("ban".data, emptyTitleData)])]
            : List (Str × SourceTitles)).map Prod.fst).Nodup
        ∧ (∀ q ∈ ([("s".data, [("bad".data, emptyTitleData),
              ("ban".data, emptyTitleData)])]
            : List (Str × SourceTitles)), (q.2.map Prod.fst).Nodup)
        ∧ filterHit "bad".data ["bad".data] = true
        ∧ groupMatches "bad".data ⟨[], ["ba".data], "ba".data⟩ = true)
      ∧ matchesWordGroups "bad".data [⟨[], ["ba".data], "ba".data⟩]
          ["bad".data] = false :=
  ⟨by decide,
    (C4_filter_veto
      [("s".data, [("bad".data, emptyTitleData), ("ban".data, emptyTitleData)])]
      [⟨[], ["ba".data], "ba".data⟩] ["bad".data] [] [] 10 [] "bad".data
      (by decide) (by decide) (by decide) (by decide)).1⟩

/-- C9: the stats output has exactly one entry per configured group (zero-hit
groups included with count 0), is sorted descending by count, and within each
count class the entries keep the groups' configuration order. -/
theorem C9_stats_output (results : List (Str × SourceTitles))
    (gs : List WordGroup) (fw : List Str) (ia : List (Str × Str))
    (ti : List (Str × List (Str × TitleInfo))) (rt : Nat)
    (nt : List (Str × SourceTitles))
    (hgnd : (gs.map WordGroup.group_key).Nodup)
    (hrnd : (results.map Prod.fst).Nodup)
    (hwfT : ∀ q ∈ results, (q.2.map Prod.fst).Nodup) :
    List.Perm
        ((countWordFrequency results gs fw ia ti rt nt).1.map
          (fun st => (st.word, st.count)))
        (gs.map (fun g => (g.group_key, specCount results gs fw g)))
      ∧ List.Pairwise
          (fun a b => FreqStat.count b ≤ FreqStat.count a)
          (countWordFrequency results gs fw ia ti rt nt).1
      ∧ ∀ c : Nat,
          ((countWordFrequency results gs fw ia ti rt nt).1.filter
              (fun st => st.count == c)).map (fun st => (st.word, st.count))
            = (gs.map
                (fun g => (g.group_key, specCount results gs fw g))).filter
                (fun q => q.2 == c) := by
  have hproj := preStats_proj results gs fw ia ti rt nt hgnd hrnd hwfT
  have hstats : (countWordFrequency results gs fw ia ti rt nt).1
      = pyInsertionSort (fun a b => FreqStat.count b ≤ FreqStat.count a)
          (cwfPreStats (cwfFinalState results gs fw ia ti rt nt).wordStats
            (cwfFinalState results gs fw ia ti rt nt).totalTitles) := rfl
  refine ⟨?_, ?_, ?_⟩
  · rw [hstats, ← hproj]
    exact (perm_pyInsertionSort _ _).map _
  · rw [hstats]
    have hp := pairwise_pyInsertionSort
      (fun a b => decide (FreqStat.count b ≤ FreqStat.count a))
      (fun a b hab => by
        simp only [decide_eq_false_iff_not, Nat.not_le] at hab
        simp only [decide_eq_true_eq]
        omega)
      (fun a b c h1 h2 => by
        simp only [decide_eq_true_eq] at h1 h2 ⊢
        omega)
      (cwfPreStats (cwfFinalState results gs fw ia ti rt nt).wordStats
        (cwfFinalState results gs fw ia ti rt nt).totalTitles)
    exact hp.imp (fun h => of_decide_eq_true h)
  · intro c
    rw [hstats, filter_key_pyInsertionSort FreqStat.count
        (fun a b => decide (FreqStat.count b ≤ FreqStat.count a))
        (fun a b hab => by
          simp only [decide_eq_false_iff_not, Nat.not_le] at hab
          omega),
      map_filter_count, hproj]

theorem C9_witness :
    ((([⟨[], ["z".data], "z".data⟩, ⟨[], ["b".data], "b".data⟩,
          ⟨[], ["c".data], "c".data⟩] : List WordGroup).map
          WordGroup.group_key).Nodup
        ∧ (([("s".data, [("xb".data, emptyTitleData),
              ("xc".data, emptyTitleData), ("yb".data, emptyTitleData),
              ("yc".data, emptyTitleData)])]
            : List (Str × SourceTitles)).map Prod.fst).Nodup
        ∧ ∀ q ∈ ([("s".data, [("xb".data, emptyTitleData),
              ("xc".data, emptyTitleData), ("yb".data, emptyTitleData),
              ("yc".data, emptyTitleData)])]
            : List (Str × SourceTitles)), (q.2.map Prod.fst).Nodup)
      ∧ List.Pairwise
          (fun a b => FreqStat.count b ≤ FreqStat.count a)
          (countWordFrequency
            [("s".data, [("xb".data, emptyTitleData),
              ("xc".data, emptyTitleData), ("yb".data, emptyTitleData),
              ("yc".data, emptyTitleData)])]
            [⟨[], ["z".data], "z".data⟩, ⟨[], ["b".data], "b".data⟩,
              ⟨[], ["c".data], "c".data⟩]
            [] [] [] 10 []).1 :=
  ⟨by decide,
    (C9_stats_output
      [("s".data, [("xb".data, emptyTitleData), ("xc".data, emptyTitleData),
        ("yb".data, emptyTitleData), ("yc".data, emptyTitleData)])]
      [⟨[], ["z".data], "z".data⟩, ⟨[], ["b".data], "b".data⟩,
        ⟨[], ["c".data], "c".data⟩]
      [] [] [] 10 [] (by decide) (by decide) (by decide)).2.1⟩

/-! ## Codec round trip: string toolkit -/

theorem containsStr_iff (s sep : Str) :
    containsStr s sep = true ↔ ∃ i, i ≤ s.length ∧ sep <+: s.drop i := by
  induction s with
  | nil =>
    simp only [containsStr, List.isEmpty_iff]
    constructor
    · intro h
      exact ⟨0, Nat.le_refl 0, by simp [h]⟩
    · rintro ⟨i, _, hp⟩
      rw [List.drop_nil] at hp
      exact List.prefix_nil.mp hp
  | cons c rest ih =>
    simp only [containsStr, Bool.or_eq_true, List.isPrefixOf_iff_prefix, ih]
    constructor
    · rintro (h | ⟨i, hi, hp⟩)
      · exact ⟨0, Nat.zero_le _, by simpa using h⟩
      · exact ⟨i + 1, by simpa using hi, by simpa using hp⟩
    · rintro ⟨i, hi, hp⟩
      cases i with
      | zero => exact Or.inl (by simpa using hp)
      | succ j => exact Or.inr ⟨j, by simpa using hi, by simpa using hp⟩

theorem mem_of_containsStr {s sep : Str} (h : containsStr s sep = true) {c : Char}
    (hc : c ∈ sep) : c ∈ s := by
  obtain ⟨i, _, hp⟩ := (containsStr_iff s sep).mp h
  exact List.drop_subset i s (hp.subset hc)

theorem prefix_append_right_iff {s x : Str} (y : Str) (h : s.length ≤ x.length) :
    (s <+: x ++ y) ↔ s <+: x := by
  induction s generalizing x with
  | nil => simp
  | cons c s ih =>
    cases x with
    | nil => exact absurd h (by simp)
    | cons d x =>
      simp only [List.cons_append, List.cons_prefix_cons]
      have h' : s.length ≤ x.length := by
        simp only [List.length_cons] at h
        omega
      rw [ih h']

theorem splitGo_ne_nil (sep : Str) :
    ∀ fuel s acc, splitGo sep fuel s acc ≠ [] := by
  intro fuel
  induction fuel with
  | zero => intro s acc; simp [splitGo]
  | succ f ih =>
    intro s acc
    cases s with
    | nil => simp [splitGo]
    | cons c rest =>
      simp only [splitGo]
      by_cases h : sep.isPrefixOf (c :: rest) ∧ sep ≠ []
      · rw [if_pos h]
        exact List.cons_ne_nil _ _
      · rw [if_neg h]
        exact ih rest (c :: acc)

theorem splitGo_fuel (sep : Str) (hsep : sep ≠ []) :
    ∀ f1 f2 s acc, s.length ≤ f1 → s.length ≤ f2 →
      splitGo sep f1 s acc = splitGo sep f2 s acc := by
  intro f1
  induction f1 with
  | zero =>
    intro f2 s acc h1 _
    have hs : s = [] := List.eq_nil_of_length_eq_zero (Nat.le_zero.mp h1)
    subst hs
    cases f2 with
    | zero => rfl
    | succ f2 => simp [splitGo]
  | succ f1 ih =>
    intro f2 s acc h1 h2
    cases s with
    | nil =>
      cases f2 with
      | zero => simp [splitGo]
      | succ f2 => simp [splitGo]
    | cons c rest =>
      cases f2 with
      | zero =>
        exact absurd h2 (by simp)
      | succ f2 =>
        simp only [splitGo]
        simp only [List.length_cons] at h1 h2
        have hsl : 1 ≤ sep.length := List.length_pos.mpr hsep
        by_cases h : sep.isPrefixOf (c :: rest) ∧ sep ≠ []
        · rw [if_pos h, if_pos h]
          have hd : ((c :: rest).drop sep.length).length ≤ f1 := by
            rw [List.length_drop]
            simp only [List.length_cons]
            omega
          have hd2 : ((c :: rest).drop sep.length).length ≤ f2 := by
            rw [List.length_drop]
            simp only [List.length_cons]
            omega
          rw [ih f2 _ [] hd hd2]
        · rw [if_neg h, if_neg h]
          exact ih f2 rest (c :: acc) (by omega) (by omega)

theorem splitGo_no_occ (sep : Str) (hsep : sep ≠ []) :
    ∀ s fuel acc, s.length ≤ fuel → containsStr s sep = false →
      splitGo sep fuel s acc = [acc.reverse ++ s] := by
  intro s
  induction s with
  | nil =>
    intro fuel acc _ _
    cases fuel with
    | zero => rfl
    | succ f => simp [splitGo]
  | cons c rest ih =>
    intro fuel acc hf hc
    cases fuel with
    | zero => exact absurd hf (by simp)
    | succ f =>
      simp only [containsStr, Bool.or_eq_false_iff] at hc
      simp only [splitGo]
      have hne : ¬ (sep.isPrefixOf (c :: rest) = true ∧ sep ≠ []) := by
        intro hand
        rw [hc.1] at hand
        exact absurd hand.1 (by simp)
      rw [if_neg hne]
      rw [ih f (c :: acc) (by simpa using hf) hc.2]
      simp

theorem splitGo_append (sep : Str) (hsep : sep ≠ []) :
    ∀ (a : Str) (b : Str) fuel acc, (a ++ sep ++ b).length ≤ fuel →
      (∀ i, i < a.length → ¬ sep <+: (a.drop i ++ sep)) →
      splitGo sep fuel (a ++ sep ++ b) acc
        = (acc.reverse ++ a) :: splitGo sep b.length b [] := by
  intro a
  induction a with
  | nil =>
    intro b fuel acc hf _
    simp only [List.nil_append] at hf ⊢
    cases fuel with
    | zero =>
      exact absurd hf (by
        simp only [List.length_append, Nat.not_le]
        have : 1 ≤ sep.length := List.length_pos.mpr hsep
        omega)
    | succ f =>
      cases hs : sep ++ b with
      | nil =>
        exact absurd (List.append_eq_nil.mp hs).1 hsep
      | cons c rest =>
        simp only [splitGo]
        have hpre : sep.isPrefixOf (c :: rest) = true := by
          rw [← hs]
          exact List.isPrefixOf_iff_prefix.mpr (List.prefix_append sep b)
        rw [if_pos ⟨hpre, hsep⟩]
        have hdrop : (c :: rest).drop sep.length = b := by
          rw [← hs]
          exact List.drop_left sep b
        rw [hdrop, splitGo_fuel sep hsep f b.length b []
          (by
            rw [List.length_append] at hf
            have hsl : 1 ≤ sep.length := List.length_pos.mpr hsep
            omega)
          (Nat.le_refl _)]
        simp
  | cons c a' ih =>
    intro b fuel acc hf hcl
    cases fuel with
    | zero =>
      exact absurd hf (by simp)
    | succ f =>
      simp only [List.cons_append] at hf ⊢
      simp only [splitGo]
      have hnp : ¬ sep <+: (c :: (a' ++ sep ++ b)) := by
        intro hp
        apply hcl 0 (by simp)
        have h1 : (c :: a').drop 0 ++ sep = (c :: (a' ++ sep)) := by simp
        rw [h1]
        have h2 : c :: (a' ++ sep ++ b) = (c :: (a' ++ sep)) ++ b := by simp
        rw [h2] at hp
        exact (prefix_append_right_iff b (by
          simp only [List.length_cons, List.length_append]
          omega)).mp hp
      rw [if_neg (fun hand => hnp (List.isPrefixOf_iff_prefix.mp hand.1))]
      rw [ih b f (c :: acc) (by simpa using hf)
        (fun i hi => by
          have := hcl (i + 1) (by simpa using Nat.succ_lt_succ hi)
          simpa using this)]
      simp

theorem splitOnStr_append (sep a b : Str) (hsep : sep ≠ [])
    (hcl : ∀ i, i < a.length → ¬ sep <+: (a.drop i ++ sep)) :
    splitOnStr sep (a ++ sep ++ b) = a :: splitOnStr sep b := by
  rw [splitOnStr, if_neg hsep, splitOnStr, if_neg hsep]
  have := splitGo_append sep hsep a b (a ++ sep ++ b).length []
    (Nat.le_refl _) hcl
  simpa using this

theorem splitOnStr_no_occ (sep s : Str) (hsep : sep ≠ [])
    (h : containsStr s sep = false) : splitOnStr sep s = [s] := by
  rw [splitOnStr, if_neg hsep]
  have := splitGo_no_occ sep hsep s s.length [] (Nat.le_refl _) h
  simpa using this

theorem intercalate_one (sep x : Str) : List.intercalate sep [x] = x := by
  simp [List.intercalate]

theorem intercalate_cons2 (sep x y : Str) (zs : List Str) :
    List.intercalate sep (x :: y :: zs) = x ++ sep ++ List.intercalate sep (y :: zs) := by
  simp [List.intercalate, List.append_assoc]

theorem intercalate_splitGo (sep : Str) :
    ∀ fuel s acc, List.intercalate sep (splitGo sep fuel s acc) = acc.reverse ++ s := by
  intro fuel
  induction fuel with
  | zero =>
    intro s acc
    exact intercalate_one sep _
  | succ f ih =>
    intro s acc
    cases s with
    | nil =>
      simp only [splitGo]
      rw [intercalate_one]
      simp
    | cons c rest =>
      simp only [splitGo]
      by_cases h : sep.isPrefixOf (c :: rest) ∧ sep ≠ []
      · rw [if_pos h]
        obtain ⟨z, zs, hzs⟩ :=
          List.exists_cons_of_ne_nil (splitGo_ne_nil sep f ((c :: rest).drop sep.length) [])
        rw [hzs, intercalate_cons2, ← hzs, ih]
        have hpd : sep ++ (c :: rest).drop sep.length = c :: rest := by
          have hp : sep <+: (c :: rest) := List.isPrefixOf_iff_prefix.mp h.1
          exact List.prefix_iff_eq_append.mp hp
        simp only [List.reverse_nil, List.nil_append]
        rw [List.append_assoc, hpd]
      · rw [if_neg h, ih]
        simp

theorem intercalate_splitOnStr (sep s : Str) :
    List.intercalate sep (splitOnStr sep s) = s := by
  rw [splitOnStr]
  by_cases h : sep = []
  · rw [if_pos h]
    exact intercalate_one sep s
  · rw [if_neg h]
    have := intercalate_splitGo sep s.length s []
    simpa using this

theorem pySplitFirst_append (sep a b : Str) (hsep : sep ≠ [])
    (hcl : ∀ i, i < a.length → ¬ sep <+: (a.drop i ++ sep)) :
    pySplitFirst sep (a ++ sep ++ b) = (a, b) := by
  rw [pySplitFirst, splitOnStr_append sep a b hsep hcl]
  simp only [List.headD_cons, List.tail_cons]
  rw [intercalate_splitOnStr]

theorem containsStr_of_append_sep (sep a b : Str) (hsep : sep ≠ []) :
    containsStr (a ++ sep ++ b) sep = true := by
  rw [containsStr_iff]
  refine ⟨a.length, by rw [List.length_append, List.length_append]; omega, ?_⟩
  rw [List.append_assoc, List.drop_left]
  exact List.prefix_append sep b

theorem lstrip_of_head (s : Str) (c : Char) (hc : s.head? = some c)
    (hsp : isSpaceChar c = false) : lstrip s = s := by
  cases s with
  | nil => cases hc
  | cons d rest =>
    simp only [List.head?_cons, Option.some.injEq] at hc
    subst hc
    rw [lstrip, List.dropWhile_cons, if_neg (by simp [hsp])]

theorem rstrip_of_last (s : Str) (c : Char) (hc : s.getLast? = some c)
    (hsp : isSpaceChar c = false) : rstrip s = s := by
  have h1 : s.reverse.head? = some c := by
    rw [List.head?_reverse]
    exact hc
  cases hrev : s.reverse with
  | nil =>
    rw [hrev] at h1
    cases h1
  | cons d rest =>
    rw [hrev] at h1
    simp only [List.head?_cons, Option.some.injEq] at h1
    subst h1
    rw [rstrip, hrev, List.dropWhile_cons, if_neg (by simp [hsp]), ← hrev,
      List.reverse_reverse]

theorem pyStrip_of_ends (s : Str) (c1 c2 : Char) (h1 : s.head? = some c1)
    (hsp1 : isSpaceChar c1 = false) (h2 : s.getLast? = some c2)
    (hsp2 : isSpaceChar c2 = false) : pyStrip s = s := by
  rw [pyStrip, lstrip_of_head s c1 h1 hsp1, rstrip_of_last s c2 h2 hsp2]

theorem mem_of_head? {s : Str} {c : Char} (hc : s.head? = some c) : c ∈ s := by
  cases s with
  | nil => cases hc
  | cons d rest =>
    simp only [List.head?_cons, Option.some.injEq] at hc
    subst hc
    exact List.mem_cons_self _ _

theorem pyStrip_ne_nil_of_head (s : Str) (c : Char) (hc : s.head? = some c)
    (hsp : isSpaceChar c = false) : pyStrip s ≠ [] := by
  rw [pyStrip, lstrip_of_head s c hc hsp, rstrip]
  intro h
  rw [List.reverse_eq_nil_iff, List.dropWhile_eq_nil_iff] at h
  have := h c (by
    rw [List.mem_reverse]
    exact mem_of_head? hc)
  rw [hsp] at this
  cases this

theorem lstrip_eq_self_of_length (s : Str) (h : (lstrip s).length = s.length) :
    lstrip s = s :=
  (List.dropWhile_suffix isSpaceChar).eq_of_length h

theorem dropWhile_eq_self_not (p : Char → Bool) (c : Char) (rest : Str)
    (h : (c :: rest).dropWhile p = c :: rest) : p c = false := by
  by_cases hp : p c = true
  · rw [List.dropWhile_cons, if_pos hp] at h
    have hlen := congrArg List.length h
    have hle := (List.dropWhile_suffix (l := rest) p).length_le
    simp only [List.length_cons] at hlen
    omega
  · exact Bool.eq_false_iff.mpr hp

theorem head_last_not_space_of_strip (s : Str) (hs : pyStrip s = s) (hne : s ≠ []) :
    (∃ c, s.head? = some c ∧ isSpaceChar c = false)
      ∧ ∃ c, s.getLast? = some c ∧ isSpaceChar c = false := by
  have hls : lstrip s = s := by
    apply lstrip_eq_self_of_length
    have h2 : (lstrip s).length ≤ s.length := (List.dropWhile_suffix (l := s) isSpaceChar).length_le
    have h1 : s.length ≤ (lstrip s).length := by
      conv_lhs => rw [← hs]
      rw [pyStrip, rstrip, List.length_reverse]
      calc (((lstrip s).reverse).dropWhile isSpaceChar).length
          ≤ (lstrip s).reverse.length := (List.dropWhile_suffix isSpaceChar).length_le
        _ = (lstrip s).length := List.length_reverse _
    omega
  have hrs : rstrip s = s := by
    rw [pyStrip, hls] at hs
    exact hs
  constructor
  · cases s with
    | nil => exact absurd rfl hne
    | cons c rest =>
      refine ⟨c, by simp, ?_⟩
      exact dropWhile_eq_self_not isSpaceChar c rest hls
  · have hrev : s.reverse.dropWhile isSpaceChar = s.reverse := by
      have h := congrArg List.reverse hrs
      rw [rstrip, List.reverse_reverse] at h
      exact h
    cases hrev2 : s.reverse with
    | nil => exact absurd (List.reverse_eq_nil_iff.mp hrev2) hne
    | cons d rest' =>
      refine ⟨d, ?_, ?_⟩
      · rw [← List.head?_reverse, hrev2]
        simp
      · apply dropWhile_eq_self_not isSpaceChar d rest'
        rw [← hrev2]
        exact hrev

theorem digitChar_spec (m : Nat) (h : m < 10) :
    (Char.ofNat (48 + m)).isDigit = true ∧ (Char.ofNat (48 + m)).toNat = 48 + m := by
  interval_cases m <;> exact ⟨by decide, by decide⟩

theorem natStrAux_spec : ∀ fuel n, n < fuel →
    natStrAux fuel n ≠ [] ∧ ∀ c ∈ natStrAux fuel n, c.isDigit = true := by
  intro fuel
  induction fuel with
  | zero => intro n h; omega
  | succ f ih =>
    intro n h
    simp only [natStrAux]
    by_cases hn : n < 10
    · rw [if_pos hn]
      refine ⟨by simp, ?_⟩
      intro c hc
      simp only [List.mem_singleton] at hc
      subst hc
      exact (digitChar_spec n hn).1
    · rw [if_neg hn]
      have hlt : n / 10 < n := Nat.div_lt_self (by omega) (by omega)
      have hd : n / 10 < f := by omega
      have h1 := ih (n / 10) hd
      refine ⟨by simp, ?_⟩
      intro c hc
      rcases List.mem_append.mp hc with hc | hc
      · exact h1.2 c hc
      · simp only [List.mem_singleton] at hc
        subst hc
        exact (digitChar_spec (n % 10) (Nat.mod_lt n (by omega))).1

theorem natStr_ne_nil (n : Nat) : natStr n ≠ [] :=
  (natStrAux_spec (n + 1) n (by omega)).1

theorem natStr_digits (n : Nat) : ∀ c ∈ natStr n, c.isDigit = true :=
  (natStrAux_spec (n + 1) n (by omega)).2

theorem natStr_no_char (n : Nat) (c : Char) (hc : c.isDigit = false) :
    c ∉ natStr n :=
  fun h => absurd (natStr_digits n c h) (by rw [hc]; simp)

theorem natStrAux_foldl : ∀ fuel n a, n < fuel →
    (natStrAux fuel n).foldl (fun a c => a * 10 + (c.toNat - 48)) a
      = a * 10 ^ (natStrAux fuel n).length + n := by
  intro fuel
  induction fuel with
  | zero => intro n a h; omega
  | succ f ih =>
    intro n a h
    simp only [natStrAux]
    by_cases hn : n < 10
    · rw [if_pos hn]
      simp only [List.foldl_cons, List.foldl_nil, List.length_cons,
        List.length_nil]
      rw [(digitChar_spec n hn).2, pow_one]
      omega
    · rw [if_neg hn]
      have hlt : n / 10 < n := Nat.div_lt_self (by omega) (by omega)
      have hd : n / 10 < f := by omega
      rw [List.foldl_append]
      simp only [List.foldl_cons, List.foldl_nil]
      rw [ih (n / 10) a hd, (digitChar_spec (n % 10) (Nat.mod_lt n (by omega))).2]
      have hmod : n / 10 * 10 + n % 10 = n := by omega
      have hlen : (natStrAux f (n / 10) ++
          [Char.ofNat (48 + n % 10)]).length
        = (natStrAux f (n / 10)).length + 1 := by simp
      rw [hlen, pow_succ]
      have h48 : 48 + n % 10 - 48 = n % 10 := by omega
      rw [h48]
      calc (a * 10 ^ (natStrAux f (n / 10)).length + n / 10) * 10 + n % 10
          = a * (10 ^ (natStrAux f (n / 10)).length * 10)
            + (n / 10 * 10 + n % 10) := by ring
        _ = a * (10 ^ (natStrAux f (n / 10)).length * 10) + n := by rw [hmod]

theorem strToNat_natStr (n : Nat) : strToNat (natStr n) = n := by
  rw [strToNat, natStr, natStrAux_foldl (n + 1) n 0 (by omega)]
  simp

theorem head?_of_prefix {l1 l2 : Str} (h : l1 <+: l2) (hne : l1 ≠ []) :
    l1.head? = l2.head? := by
  obtain ⟨w, rfl⟩ := h
  exact (List.head?_append_of_ne_nil l1 hne).symm

theorem getLast?_of_suffix {l1 l2 : Str} (h : l1 <:+ l2) (hne : l1 ≠ []) :
    l1.getLast? = l2.getLast? := by
  obtain ⟨w, rfl⟩ := h
  exact (List.getLast?_append_of_ne_nil w hne).symm

/-- Decomposition of one occurrence of `sep` inside `a ++ b`: it lies within
`a`, within `b`, or straddles the boundary. -/
theorem prefix_drop_append {sep a b : Str} {i : Nat}
    (h : sep <+: (a ++ b).drop i) :
    (i + sep.length ≤ a.length ∧ sep <+: a.drop i)
      ∨ (a.length ≤ i ∧ sep <+: b.drop (i - a.length))
      ∨ (i < a.length ∧ a.length < i + sep.length
          ∧ sep.take (a.length - i) = a.drop i
          ∧ sep.drop (a.length - i) <+: b) := by
  by_cases hi : a.length ≤ i
  · refine Or.inr (Or.inl ⟨hi, ?_⟩)
    have hd : (a ++ b).drop i = b.drop (i - a.length) := by
      have h2 : i = a.length + (i - a.length) := by omega
      conv_lhs => rw [h2]
      rw [List.drop_append]
    rw [hd] at h
    exact h
  · push_neg at hi
    have hd : (a ++ b).drop i = a.drop i ++ b :=
      List.drop_append_of_le_length (Nat.le_of_lt hi)
    rw [hd] at h
    by_cases hlen : i + sep.length ≤ a.length
    · refine Or.inl ⟨hlen, ?_⟩
      exact (prefix_append_right_iff b (by
        rw [List.length_drop]
        omega)).mp h
    · push_neg at hlen
      refine Or.inr (Or.inr ⟨hi, hlen, ?_, ?_⟩)
      · have hsep_eq : sep = (a.drop i ++ b).take sep.length :=
          List.prefix_iff_eq_take.mp h
        have hlen_ai : (a.drop i).length = a.length - i := List.length_drop i a
        have hsplit : sep.length = (a.drop i).length
            + (sep.length - (a.length - i)) := by
          rw [hlen_ai]
          omega
        rw [hsplit, List.take_append] at hsep_eq
        have : sep.take (a.length - i)
            = (a.drop i ++ b.take (sep.length - (a.length - i))).take
                (a.length - i) := by
          rw [← hsep_eq]
        rw [this, ← hlen_ai, List.take_left]
      · have hsep_eq : sep = (a.drop i ++ b).take sep.length :=
          List.prefix_iff_eq_take.mp h
        have hlen_ai : (a.drop i).length = a.length - i := List.length_drop i a
        have hsplit : sep.length = (a.drop i).length
            + (sep.length - (a.length - i)) := by
          rw [hlen_ai]
          omega
        rw [hsplit, List.take_append] at hsep_eq
        have hdrop : sep.drop (a.length - i)
            = b.take (sep.length - (a.length - i)) := by
          conv_lhs => rw [hsep_eq]
          rw [show a.length - i = (a.drop i).length from hlen_ai.symm,
            List.drop_left]
        rw [hdrop]
        exact List.take_prefix _ b

/-- `sep` does not occur in `a ++ b` when it occurs in neither part and no
straddling occurrence exists. -/
theorem containsStr_append_false (sep a b : Str)
    (ha : containsStr a sep = false) (hb : containsStr b sep = false)
    (hstr : ∀ k, 0 < k → k < sep.length →
      ¬ (sep.take k <:+ a ∧ sep.drop k <+: b)) :
    containsStr (a ++ b) sep = false := by
  by_cases hsep : sep = []
  · subst hsep
    cases a with
    | nil =>
      simpa using hb
    | cons c r =>
      simp [containsStr] at ha
  rw [← Bool.not_eq_true]
  intro hcon
  obtain ⟨i, hi, hp⟩ := (containsStr_iff _ sep).mp hcon
  rcases prefix_drop_append hp with ⟨_, hin⟩ | ⟨hge, hin⟩ | ⟨h1, h2, h3, h4⟩
  · have : containsStr a sep = true := by
      rw [containsStr_iff]
      exact ⟨i, by
        have := hin.length_le
        rw [List.length_drop] at this
        have hsl : 1 ≤ sep.length := List.length_pos.mpr hsep
        omega, hin⟩
    rw [this] at ha
    cases ha
  · have : containsStr b sep = true := by
      rw [containsStr_iff]
      refine ⟨i - a.length, ?_, hin⟩
      rw [List.length_append] at hi
      omega
    rw [this] at hb
    cases hb
  · refine hstr (a.length - i) (by omega) (by omega) ⟨?_, h4⟩
    rw [h3]
    exact ⟨a.take i, by rw [List.take_append_drop]⟩

/-- `sep` has no self-overlap: no proper nonempty prefix of `sep` is also a
suffix alignment, i.e. no occurrence of `sep` starts strictly inside `sep`. -/
def NoSelfOverlap (sep : Str) : Prop :=
  ∀ j, 0 < j → j < sep.length → sep.take (sep.length - j) ≠ sep.drop j

instance (sep : Str) : Decidable (NoSelfOverlap sep) :=
  decidable_of_iff
    (∀ j < sep.length, 0 < j → sep.take (sep.length - j) ≠ sep.drop j)
    (by
      constructor
      · intro h j hj1 hj2
        exact h j hj2 hj1
      · intro h j hj2 hj1
        exact h j hj1 hj2)

/-- In `sep ++ b` the only occurrence of `sep` is at index 0, given no
self-overlap and no occurrence in `b`. -/
theorem no_occ_in_sep_append (sep b : Str) (hsep : sep ≠ [])
    (hov : NoSelfOverlap sep) (hb : containsStr b sep = false) :
    ∀ j, 0 < j → ¬ sep <+: (sep ++ b).drop j := by
  intro j hj hp
  rcases prefix_drop_append hp with ⟨h1, _⟩ | ⟨_, hin⟩ | ⟨h1, _, h3, _⟩
  · have hsl : 1 ≤ sep.length := List.length_pos.mpr hsep
    omega
  · have : containsStr b sep = true := by
      rw [containsStr_iff]
      refine ⟨j - sep.length, ?_, hin⟩
      have := hin.length_le
      rw [List.length_drop] at this
      have hsl : 1 ≤ sep.length := List.length_pos.mpr hsep
      omega
    rw [this] at hb
    cases hb
  · exact hov j hj h1 h3

theorem rfind_of_unique_max (sep s : Str) (m : Nat) (hm : m + sep.length ≤ s.length)
    (hp : sep.isPrefixOf (s.drop m) = true)
    (hmax : ∀ i, m < i → i ≤ s.length → sep.isPrefixOf (s.drop i) = false) :
    rfindStr sep s = some m := by
  rw [rfindStr]
  have hms : m ≤ s.length := by omega
  have key : ∀ n, m ≤ n → n ≤ s.length →
      ((List.range (n + 1)).filter
        (fun i => sep.isPrefixOf (s.drop i))).getLast? = some m := by
    intro n
    induction n with
    | zero =>
      intro h1 _
      have hm0 : m = 0 := Nat.le_zero.mp h1
      subst hm0
      have hp' : sep.isPrefixOf s = true := hp
      simp [List.range_succ, hp', List.isPrefixOf_iff_prefix.mp hp']
    | succ n ihn =>
      intro h1 h2
      by_cases hcase : m = n + 1
      · subst hcase
        rw [List.range_succ, List.filter_append]
        have hfl : List.filter (fun i => sep.isPrefixOf (s.drop i)) [n + 1]
            = [n + 1] := by
          simp [hp]
        rw [hfl, List.getLast?_append_of_ne_nil _ (by simp)]
        rfl
      · have hmn : m ≤ n := by omega
        rw [List.range_succ, List.filter_append]
        have hfl : List.filter (fun i => sep.isPrefixOf (s.drop i)) [n + 1]
            = [] := by
          simp [hmax (n + 1) (by omega) h2]
        rw [hfl, List.append_nil]
        exact ihn hmn (by omega)
  exact key s.length hms (Nat.le_refl _)

/-- `rsplit(sep, 1)` at the marked occurrence, when nothing occurs to its
right. -/
theorem pyRsplitOnce_append (sep a b : Str) (hsep : sep ≠ [])
    (hov : NoSelfOverlap sep) (hb : containsStr b sep = false) :
    pyRsplitOnce sep (a ++ sep ++ b) = (a, b) := by
  have hfind : rfindStr sep (a ++ sep ++ b) = some a.length := by
    apply rfind_of_unique_max
    · rw [List.length_append, List.length_append]
      omega
    · rw [List.append_assoc, List.drop_left]
      exact List.isPrefixOf_iff_prefix.mpr (List.prefix_append sep b)
    · intro i hi _
      rw [← Bool.not_eq_true, List.isPrefixOf_iff_prefix]
      have hdrop : (a ++ sep ++ b).drop i = (sep ++ b).drop (i - a.length) := by
        rw [List.append_assoc]
        have h2 : i = a.length + (i - a.length) := by omega
        conv_lhs => rw [h2]
        rw [List.drop_append]
      rw [hdrop]
      exact no_occ_in_sep_append sep b hsep hov hb (i - a.length) (by omega)
  rw [pyRsplitOnce, hfind]
  show ((a ++ sep ++ b).take a.length,
      (a ++ sep ++ b).drop (a.length + sep.length)) = (a, b)
  rw [List.append_assoc, List.take_left a (sep ++ b),
    List.drop_append sep.length, List.drop_left]

theorem isSpaceChar_of_digit (c : Char) (h : c.isDigit = true) :
    isSpaceChar c = false := by
  by_cases h1 : isSpaceChar c = true
  · rw [isSpaceChar] at h1
    simp only [Bool.or_eq_true, decide_eq_true_eq] at h1
    rcases h1 with ((((h2 | h2) | h2) | h2) | h2) | h2 <;>
      (subst h2; exact absurd h (by decide))
  · exact Bool.eq_false_iff.mpr h1

theorem no_straddle_head (sep b : Str) (c : Char) (hb : b.head? = some c)
    (h : ∀ k, 0 < k → k < sep.length → (sep.drop k).head? ≠ some c) :
    ∀ k, 0 < k → k < sep.length → ¬ sep.drop k <+: b := by
  intro k hk1 hk2 hp
  have hne : sep.drop k ≠ [] := by
    intro h0
    have h1 := congrArg List.length h0
    rw [List.length_drop] at h1
    simp only [List.length_nil] at h1
    omega
  have h2 := head?_of_prefix hp hne
  rw [hb] at h2
  exact h k hk1 hk2 h2

theorem containsStr_append_false_head (sep a b : Str) (c : Char)
    (ha : containsStr a sep = false) (hb : containsStr b sep = false)
    (hbc : b.head? = some c)
    (h : ∀ k, 0 < k → k < sep.length → (sep.drop k).head? ≠ some c) :
    containsStr (a ++ b) sep = false :=
  containsStr_append_false sep a b ha hb (fun k h1 h2 hand =>
    no_straddle_head sep b c hbc h k h1 h2 hand.2)

theorem containsStr_append_false_last (sep a b : Str) (c : Char)
    (ha : containsStr a sep = false) (hb : containsStr b sep = false)
    (hac : a.getLast? = some c)
    (h : ∀ k, 0 < k → k < sep.length → (sep.take k).getLast? ≠ some c) :
    containsStr (a ++ b) sep = false := by
  refine containsStr_append_false sep a b ha hb (fun k h1 h2 hand => ?_)
  have hne : sep.take k ≠ [] := by
    intro h0
    have hlen := congrArg List.length h0
    rw [List.length_take] at hlen
    simp only [List.length_nil] at hlen
    omega
  have h3 := getLast?_of_suffix hand.1 hne
  rw [hac] at h3
  exact h k h1 h2 h3

theorem mobileTag_facts :
    mobileTagStr ≠ [] ∧ NoSelfOverlap mobileTagStr
      ∧ containsStr [']'] mobileTagStr = false
      ∧ containsStr urlTagStr mobileTagStr = false
      ∧ urlTagStr.getLast? = some ':'
      ∧ mobileTagStr.length = 9 := by
  refine ⟨by decide, by decide, by decide, by decide, by decide, by decide⟩

theorem mobileTag_drop_head_space : ∀ k, 0 < k → k < mobileTagStr.length →
    (mobileTagStr.drop k).head? ≠ some ' ' := by
  intro k hk1 hk2
  have h9 : mobileTagStr.length = 9 := by decide
  rw [h9] at hk2
  interval_cases k <;> decide

theorem mobileTag_drop_head_rb : ∀ k, 0 < k → k < mobileTagStr.length →
    (mobileTagStr.drop k).head? ≠ some ']' := by
  intro k hk1 hk2
  have h9 : mobileTagStr.length = 9 := by decide
  rw [h9] at hk2
  interval_cases k <;> decide

theorem mobileTag_take_last_colon : ∀ k, 0 < k → k < mobileTagStr.length →
    (mobileTagStr.take k).getLast? ≠ some ':' := by
  intro k hk1 hk2
  have h9 : mobileTagStr.length = 9 := by decide
  rw [h9] at hk2
  interval_cases k <;> decide

theorem urlTag_facts :
    urlTagStr ≠ [] ∧ NoSelfOverlap urlTagStr
      ∧ containsStr [']'] urlTagStr = false
      ∧ urlTagStr.length = 6 := by
  refine ⟨by decide, by decide, by decide, by decide⟩

theorem urlTag_drop_head_rb : ∀ k, 0 < k → k < urlTagStr.length →
    (urlTagStr.drop k).head? ≠ some ']' := by
  intro k hk1 hk2
  have h6 : urlTagStr.length = 6 := by decide
  rw [h6] at hk2
  interval_cases k <;> decide

/-- No occurrence of a tag in `y ++ "]"` when `y` is tag-free (the tag has no
`']'`). -/
theorem contains_rb_false (tag y : Str) (hy : containsStr y tag = false)
    (h1 : containsStr [']'] tag = false)
    (h2 : ∀ k, 0 < k → k < tag.length → (tag.drop k).head? ≠ some ']') :
    containsStr (y ++ [']']) tag = false :=
  containsStr_append_false_head tag y [']'] ']' hy h1 rfl h2

/-- The trailing URL tag block contains no MOBILE tag when the url itself is
MOBILE-free. -/
theorem urlBlock_no_mobile (url : Str)
    (huM : containsStr url mobileTagStr = false) :
    containsStr (urlTagStr ++ (url ++ [']'])) mobileTagStr = false := by
  have hinner : containsStr (url ++ [']']) mobileTagStr = false :=
    contains_rb_false mobileTagStr url huM mobileTag_facts.2.2.1
      mobileTag_drop_head_rb
  exact containsStr_append_false_last mobileTagStr urlTagStr (url ++ [']']) ':'
    mobileTag_facts.2.2.2.1 hinner mobileTag_facts.2.2.2.2.1
    mobileTag_take_last_colon

theorem head?_append_left {x : Str} (y : Str) (hx : x ≠ []) :
    (x ++ y).head? = x.head? := by
  cases x with
  | nil => exact absurd rfl hx
  | cons c r => rfl

theorem getLast?_append_right (x : Str) {y : Str} (hy : y ≠ []) :
    (x ++ y).getLast? = y.getLast? :=
  List.getLast?_append_of_ne_nil x hy

theorem natStr_head_digit (r : Nat) :
    ∃ d, (natStr r).head? = some d ∧ d.isDigit = true := by
  cases hns : natStr r with
  | nil => exact absurd hns (natStr_ne_nil r)
  | cons c rest =>
    refine ⟨c, rfl, ?_⟩
    exact natStr_digits r c (by rw [hns]; exact List.mem_cons_self c rest)

theorem isdigitStr_natStr (n : Nat) : isdigitStr (natStr n) = true := by
  rw [isdigitStr, Bool.and_eq_true]
  constructor
  · cases hns : natStr n with
    | nil => exact absurd hns (natStr_ne_nil n)
    | cons c rest => rfl
  · rw [List.all_eq_true]
    intro c hc
    exact natStr_digits n c hc

theorem natStr_clean_rankSep (r : Nat) :
    ∀ i, i < (natStr r).length →
      ¬ rankSepStr <+: ((natStr r).drop i ++ rankSepStr) := by
  intro i hi hp
  have hne : (natStr r).drop i ≠ [] := by
    intro h0
    have h1 := congrArg List.length h0
    rw [List.length_drop] at h1
    simp only [List.length_nil] at h1
    omega
  have h1 := head?_of_prefix hp (by decide)
  rw [head?_append_left rankSepStr hne] at h1
  cases hh : ((natStr r).drop i).head? with
  | none =>
    rw [hh] at h1
    cases h1
  | some d =>
    rw [hh] at h1
    have hdot : d = '.' := by
      have : (some '.' : Option Char) = some d := h1
      exact (Option.some.inj this).symm
    have hd : d ∈ natStr r := List.drop_subset i (natStr r) (mem_of_head? hh)
    have hdig := natStr_digits r d hd
    rw [hdot] at hdig
    exact absurd hdig (by decide)

theorem rb_isSuffixOf_concat (y : Str) : [']'].isSuffixOf (y ++ [']']) = true := by
  rw [List.isSuffixOf_iff_suffix]
  exact List.suffix_append y [']']

/-- Line-level codec round trip: a clean title/url/mobile triple written by
`save_titles_to_file` is parsed back exactly (with rank list `[r]`). -/
theorem parseTitleLine_titleLine (r : Nat) (t url mob : Str)
    (hts : pyStrip t = t) (htne : t ≠ [])
    (htU : containsStr t urlTagStr = false)
    (htM : containsStr t mobileTagStr = false)
    (huU : containsStr url urlTagStr = false)
    (huM : containsStr url mobileTagStr = false)
    (hmM : containsStr mob mobileTagStr = false) :
    parseTitleLine (titleLine r t url mob) = (t, ⟨[r], url, mob⟩) := by
  obtain ⟨d, hd, hddig⟩ := natStr_head_digit r
  have hdsp : isSpaceChar d = false := isSpaceChar_of_digit d hddig
  obtain ⟨⟨c1, hc1, hc1sp⟩, ⟨c2, hc2, hc2sp⟩⟩ :=
    head_last_not_space_of_strip t hts htne
  have hpre_ne : natStr r ++ rankSepStr ≠ [] := by
    intro h0
    exact natStr_ne_nil r (List.append_eq_nil.mp h0).1
  by_cases hu : url = []
  · by_cases hm : mob = []
    · subst hu
      subst hm
      have hline : titleLine r t [] [] = natStr r ++ rankSepStr ++ t := by
        simp [titleLine]
      rw [hline]
      have hstripC : pyStrip (natStr r ++ rankSepStr ++ t)
          = natStr r ++ rankSepStr ++ t := by
        apply pyStrip_of_ends _ d c2
        · rw [head?_append_left t hpre_ne,
            head?_append_left rankSepStr (natStr_ne_nil r)]
          exact hd
        · exact hdsp
        · rw [getLast?_append_right _ htne]
          exact hc2
        · exact hc2sp
      simp only [parseTitleLine]
      rw [hstripC,
        containsStr_of_append_sep rankSepStr (natStr r) t (by decide),
        splitOnStr_append rankSepStr (natStr r) t (by decide)
          (natStr_clean_rankSep r)]
      simp only [List.headD_cons]
      simp only [isdigitStr_natStr]
      simp only [Bool.and_self]
      rw [pySplitFirst_append rankSepStr (natStr r) t (by decide)
          (natStr_clean_rankSep r)]
      simp only [if_true]
      rw [strToNat_natStr r, htM]
      simp only [Bool.false_eq_true, if_false]
      rw [htU]
      simp only [Bool.false_eq_true, if_false]
      rw [hts]
      simp only [Option.getD_some]
    · subst hu
      have hline : titleLine r t [] mob
          = natStr r ++ rankSepStr ++ (t ++ mobileTagStr ++ (mob ++ [']'])) := by
        simp [titleLine, hm, List.append_assoc]
      rw [hline]
      have hstripC : pyStrip (natStr r ++ rankSepStr
            ++ (t ++ mobileTagStr ++ (mob ++ [']'])))
          = natStr r ++ rankSepStr ++ (t ++ mobileTagStr ++ (mob ++ [']'])) := by
        apply pyStrip_of_ends _ d ']'
        · rw [head?_append_left _ hpre_ne,
            head?_append_left rankSepStr (natStr_ne_nil r)]
          exact hd
        · exact hdsp
        · rw [getLast?_append_right _ (by
              intro h0
              have := (List.append_eq_nil.mp h0).2
              simp at this),
            getLast?_append_right _ (by simp : (mob ++ [']'] : Str) ≠ [])]
          exact List.getLast?_concat mob
        · decide
      simp only [parseTitleLine]
      rw [hstripC,
        containsStr_of_append_sep rankSepStr (natStr r) _ (by decide),
        splitOnStr_append rankSepStr (natStr r) _ (by decide)
          (natStr_clean_rankSep r)]
      simp only [List.headD_cons]
      simp only [isdigitStr_natStr]
      simp only [Bool.and_self]
      rw [pySplitFirst_append rankSepStr (natStr r) _ (by decide)
          (natStr_clean_rankSep r)]
      simp only [if_true]
      rw [strToNat_natStr r,
        containsStr_of_append_sep mobileTagStr t (mob ++ [']']) (by decide),
        if_pos rfl,
        pyRsplitOnce_append mobileTagStr t (mob ++ [']']) (by decide) (by decide)
          (contains_rb_false mobileTagStr mob hmM mobileTag_facts.2.2.1
            mobileTag_drop_head_rb)]
      dsimp only
      rw [rb_isSuffixOf_concat mob, if_pos rfl]
      dsimp only
      rw [List.dropLast_concat, htU]
      simp only [Bool.false_eq_true, if_false]
      rw [hts]
      simp only [Option.getD_some]
  · by_cases hm : mob = []
    · subst hm
      have hline : titleLine r t url []
          = natStr r ++ rankSepStr ++ (t ++ urlTagStr ++ (url ++ [']'])) := by
        simp [titleLine, hu, List.append_assoc]
      rw [hline]
      have hstripC : pyStrip (natStr r ++ rankSepStr
            ++ (t ++ urlTagStr ++ (url ++ [']'])))
          = natStr r ++ rankSepStr ++ (t ++ urlTagStr ++ (url ++ [']'])) := by
        apply pyStrip_of_ends _ d ']'
        · rw [head?_append_left _ hpre_ne,
            head?_append_left rankSepStr (natStr_ne_nil r)]
          exact hd
        · exact hdsp
        · rw [getLast?_append_right _ (by
              intro h0
              have := (List.append_eq_nil.mp h0).2
              simp at this),
            getLast?_append_right _ (by simp : (url ++ [']'] : Str) ≠ [])]
          exact List.getLast?_concat url
        · decide
      have hcMf : containsStr (t ++ urlTagStr ++ (url ++ [']'])) mobileTagStr
          = false := by
        rw [List.append_assoc]
        exact containsStr_append_false_head mobileTagStr t
          (urlTagStr ++ (url ++ [']'])) ' ' htM (urlBlock_no_mobile url huM)
          (by
            rw [head?_append_left (x := urlTagStr) (url ++ [']']) (by decide)]
            decide)
          mobileTag_drop_head_space
      simp only [parseTitleLine]
      rw [hstripC,
        containsStr_of_append_sep rankSepStr (natStr r) _ (by decide),
        splitOnStr_append rankSepStr (natStr r) _ (by decide)
          (natStr_clean_rankSep r)]
      simp only [List.headD_cons]
      simp only [isdigitStr_natStr]
      simp only [Bool.and_self]
      rw [pySplitFirst_append rankSepStr (natStr r) _ (by decide)
          (natStr_clean_rankSep r)]
      simp only [if_true]
      rw [strToNat_natStr r, hcMf]
      simp only [Bool.false_eq_true, if_false]
      rw [containsStr_of_append_sep urlTagStr t (url ++ [']']) (by decide),
        if_pos rfl,
        pyRsplitOnce_append urlTagStr t (url ++ [']']) (by decide) (by decide)
          (contains_rb_false urlTagStr url huU urlTag_facts.2.2.1
            urlTag_drop_head_rb)]
      dsimp only
      rw [rb_isSuffixOf_concat url, if_pos rfl]
      dsimp only
      rw [List.dropLast_concat, hts]
      simp only [Option.getD_some]
    · have hline : titleLine r t url mob
          = natStr r ++ rankSepStr
            ++ (t ++ urlTagStr ++ (url ++ [']'])
              ++ mobileTagStr ++ (mob ++ [']'])) := by
        simp [titleLine, hu, hm, List.append_assoc]
      rw [hline]
      have hstripC : pyStrip (natStr r ++ rankSepStr
            ++ (t ++ urlTagStr ++ (url ++ [']'])
              ++ mobileTagStr ++ (mob ++ [']'])))
          = natStr r ++ rankSepStr
            ++ (t ++ urlTagStr ++ (url ++ [']'])
              ++ mobileTagStr ++ (mob ++ [']'])) := by
        apply pyStrip_of_ends _ d ']'
        · rw [head?_append_left _ hpre_ne,
            head?_append_left rankSepStr (natStr_ne_nil r)]
          exact hd
        · exact hdsp
        · rw [getLast?_append_right _ (by
              intro h0
              have := (List.append_eq_nil.mp h0).2
              simp at this),
            getLast?_append_right _ (by simp : (mob ++ [']'] : Str) ≠ [])]
          exact List.getLast?_concat mob
        · decide
      simp only [parseTitleLine]
      rw [hstripC,
        containsStr_of_append_sep rankSepStr (natStr r) _ (by decide),
        splitOnStr_append rankSepStr (natStr r) _ (by decide)
          (natStr_clean_rankSep r)]
      simp only [List.headD_cons]
      simp only [isdigitStr_natStr]
      simp only [Bool.and_self]
      rw [pySplitFirst_append rankSepStr (natStr r) _ (by decide)
          (natStr_clean_rankSep r)]
      simp only [if_true]
      rw [strToNat_natStr r,
        containsStr_of_append_sep mobileTagStr (t ++ urlTagStr ++ (url ++ [']']))
          (mob ++ [']']) (by decide),
        if_pos rfl,
        pyRsplitOnce_append mobileTagStr (t ++ urlTagStr ++ (url ++ [']']))
          (mob ++ [']']) (by decide) (by decide)
          (contains_rb_false mobileTagStr mob hmM mobileTag_facts.2.2.1
            mobileTag_drop_head_rb)]
      dsimp only
      rw [rb_isSuffixOf_concat mob, if_pos rfl]
      dsimp only
      rw [List.dropLast_concat,
        containsStr_of_append_sep urlTagStr t (url ++ [']']) (by decide),
        if_pos rfl,
        pyRsplitOnce_append urlTagStr t (url ++ [']']) (by decide) (by decide)
          (contains_rb_false urlTagStr url huU urlTag_facts.2.2.1
            urlTag_drop_head_rb)]
      dsimp only
      rw [rb_isSuffixOf_concat url, if_pos rfl]
      dsimp only
      rw [List.dropLast_concat, hts]
      simp only [Option.getD_some]

theorem sepNN_eq : sepNN = nlStr ++ nlStr := by decide

theorem intercalate_cons_ne (sep x : Str) (ls : List Str) (h : ls ≠ []) :
    List.intercalate sep (x :: ls) = x ++ sep ++ List.intercalate sep ls := by
  cases ls with
  | nil => exact absurd rfl h
  | cons y zs => exact intercalate_cons2 sep x y zs

theorem flatten_map_appendNl (ls : List Str) (hne : ls ≠ []) :
    (ls.map (fun l => l ++ nlStr)).flatten
      = List.intercalate nlStr ls ++ nlStr := by
  induction ls with
  | nil => exact absurd rfl hne
  | cons x ls ih =>
    cases ls with
    | nil => simp [intercalate_one]
    | cons y zs =>
      rw [List.map_cons, List.flatten_cons, ih (by simp), intercalate_cons2]
      simp [List.append_assoc]

theorem head?_intercalate_nl (y : Str) (ys : List Str) (hy : y ≠ []) :
    (List.intercalate nlStr (y :: ys)).head? = y.head? := by
  cases ys with
  | nil => rw [intercalate_one]
  | cons z zs =>
    rw [intercalate_cons2, head?_append_left _ (by
        intro h0
        exact hy (List.append_eq_nil.mp h0).1),
      head?_append_left nlStr hy]

theorem intercalate_nl_ne_nil (y : Str) (ys : List Str) (hy : y ≠ []) :
    List.intercalate nlStr (y :: ys) ≠ [] := by
  intro h0
  have h1 := head?_intercalate_nl y ys hy
  rw [h0] at h1
  cases hy' : y with
  | nil => exact hy hy'
  | cons c r =>
    rw [hy'] at h1
    cases h1

theorem getLast?_intercalate_nl : ∀ (pieces : List Str) (x : Str),
    x ≠ [] →
    (List.intercalate nlStr (pieces ++ [x])).getLast? = x.getLast? := by
  intro pieces
  induction pieces with
  | nil =>
    intro x _
    rw [List.nil_append, intercalate_one]
  | cons y ps ih =>
    intro x hx
    rw [List.cons_append, intercalate_cons_ne nlStr y (ps ++ [x]) (by simp),
      getLast?_append_right _ (by
        cases ps with
        | nil =>
          rw [List.nil_append, intercalate_one]
          exact hx
        | cons z zs =>
          rw [List.cons_append]
          intro h0
          rw [intercalate_cons_ne nlStr z (zs ++ [x]) (by simp)] at h0
          exact absurd (List.append_eq_nil.mp (List.append_eq_nil.mp h0).1).2
            (by decide))]
    · exact ih x hx

theorem mem_intercalate_nl (pieces : List Str) {c : Char}
    (hc : c ∈ List.intercalate nlStr pieces) :
    (∃ p ∈ pieces, c ∈ p) ∨ c = '\n' := by
  induction pieces with
  | nil =>
    rw [show List.intercalate nlStr ([] : List Str) = [] from rfl] at hc
    cases hc
  | cons x ps ih =>
    cases ps with
    | nil =>
      rw [intercalate_one] at hc
      exact Or.inl ⟨x, List.mem_cons_self x [], hc⟩
    | cons y zs =>
      rw [intercalate_cons2] at hc
      rcases List.mem_append.mp hc with h | h
      · rcases List.mem_append.mp h with h | h
        · exact Or.inl ⟨x, by simp, h⟩
        · refine Or.inr ?_
          rw [show nlStr = ['\n'] from by decide] at h
          simpa using h
      · rcases ih h with ⟨p, hp, hcp⟩ | h
        · exact Or.inl ⟨p, List.mem_cons_of_mem _ hp, hcp⟩
        · exact Or.inr h

theorem containsStr_single_false (s : Str) (c : Char) (h : c ∉ s) :
    containsStr s [c] = false := by
  rw [← Bool.not_eq_true, containsStr_iff]
  rintro ⟨i, _, hp⟩
  have hne : s.drop i ≠ [] := by
    intro h0
    rw [h0] at hp
    have := List.prefix_nil.mp hp
    simp at this
  have h1 := head?_of_prefix hp (by simp)
  cases hh : (s.drop i).head? with
  | none =>
    rw [hh] at h1
    cases h1
  | some d =>
    rw [hh] at h1
    have hcd : c = d := Option.some.inj h1
    exact h (hcd ▸ List.drop_subset i s (mem_of_head? hh))

theorem containsStr_nl_false (s : Str) (h : '\n' ∉ s) :
    containsStr s nlStr = false := by
  rw [show nlStr = ['\n'] from by decide]
  exact containsStr_single_false s '\n' h

theorem clean_nl_of_not_mem (x : Str) (h : '\n' ∉ x) :
    ∀ i, i < x.length → ¬ nlStr <+: (x.drop i ++ nlStr) := by
  intro i hi hp
  have hne : x.drop i ≠ [] := by
    intro h0
    have h1 := congrArg List.length h0
    rw [List.length_drop] at h1
    simp only [List.length_nil] at h1
    omega
  have h1 := head?_of_prefix hp (by decide)
  rw [head?_append_left _ hne] at h1
  cases hh : (x.drop i).head? with
  | none =>
    rw [hh] at h1
    cases h1
  | some d =>
    rw [hh] at h1
    have hd : d = '\n' := by
      have h2 : (some '\n' : Option Char) = some d := h1
      exact (Option.some.inj h2).symm
    exact h (hd ▸ List.drop_subset i x (mem_of_head? hh))

theorem splitOnStr_intercalate_nl : ∀ (pieces : List Str), pieces ≠ [] →
    (∀ p ∈ pieces, p ≠ [] ∧ '\n' ∉ p) →
    splitOnStr nlStr (List.intercalate nlStr pieces) = pieces := by
  intro pieces
  induction pieces with
  | nil => intro h _; exact absurd rfl h
  | cons x ps ih =>
    intro _ hp
    cases ps with
    | nil =>
      rw [intercalate_one]
      exact splitOnStr_no_occ nlStr x (by decide)
        (containsStr_nl_false x (hp x (by simp)).2)
    | cons y zs =>
      rw [intercalate_cons_ne nlStr x (y :: zs) (by simp),
        splitOnStr_append nlStr x _ (by decide)
          (clean_nl_of_not_mem x (hp x (by simp)).2),
        ih (by simp) (fun p hp' => hp p (List.mem_cons_of_mem x hp'))]

theorem titleLine_head? (r : Nat) (t url mob : Str) :
    (titleLine r t url mob).head? = (natStr r).head? := by
  by_cases hu : url = []
  · by_cases hm : mob = []
    · subst hu
      subst hm
      have h : titleLine r t [] []
          = natStr r ++ (rankSepStr ++ t) := by
        simp [titleLine, List.append_assoc]
      rw [h, head?_append_left _ (natStr_ne_nil r)]
    · subst hu
      have h : titleLine r t [] mob
          = natStr r ++ (rankSepStr ++ (t ++ (mobileTagStr ++ (mob ++ [']'])))) := by
        simp [titleLine, hm, List.append_assoc]
      rw [h, head?_append_left _ (natStr_ne_nil r)]
  · by_cases hm : mob = []
    · subst hm
      have h : titleLine r t url []
          = natStr r ++ (rankSepStr ++ (t ++ (urlTagStr ++ (url ++ [']'])))) := by
        simp [titleLine, hu, List.append_assoc]
      rw [h, head?_append_left _ (natStr_ne_nil r)]
    · have h : titleLine r t url mob
          = natStr r ++ (rankSepStr ++ (t ++ (urlTagStr ++ (url ++ [']']
              ++ (mobileTagStr ++ (mob ++ [']'])))))) := by
        simp [titleLine, hu, hm, List.append_assoc]
      rw [h, head?_append_left _ (natStr_ne_nil r)]

theorem mem_titleLine {c : Char} {r : Nat} {t url mob : Str}
    (hc : c ∈ titleLine r t url mob) :
    c ∈ natStr r ∨ c ∈ rankSepStr ∨ c ∈ t ∨ c ∈ urlTagStr ∨ c ∈ url
      ∨ c ∈ mobileTagStr ∨ c ∈ mob ∨ c = ']' := by
  by_cases hu : url = []
  · by_cases hm : mob = []
    · subst hu
      subst hm
      simp only [titleLine] at hc
      simp [List.mem_append] at hc
      tauto
    · subst hu
      simp only [titleLine] at hc
      simp [hm, List.mem_append] at hc
      tauto
  · by_cases hm : mob = []
    · subst hm
      simp only [titleLine] at hc
      simp [hu, List.mem_append] at hc
      tauto
    · simp only [titleLine] at hc
      simp [hu, hm, List.mem_append] at hc
      tauto

theorem titleLine_props (r : Nat) (t url mob : Str)
    (htn : '\n' ∉ t) (hun : '\n' ∉ url) (hmn : '\n' ∉ mob) :
    titleLine r t url mob ≠ [] ∧ '\n' ∉ titleLine r t url mob
      ∧ pyStrip (titleLine r t url mob) ≠ [] := by
  obtain ⟨d, hd, hddig⟩ := natStr_head_digit r
  have hh : (titleLine r t url mob).head? = some d := by
    rw [titleLine_head?]
    exact hd
  refine ⟨?_, ?_, ?_⟩
  · intro h0
    rw [h0] at hh
    cases hh
  · intro hmem
    rcases mem_titleLine hmem with h | h | h | h | h | h | h | h
    · exact natStr_no_char r '\n' (by decide) h
    · exact absurd h (by decide)
    · exact htn h
    · exact absurd h (by decide)
    · exact hun h
    · exact absurd h (by decide)
    · exact hmn h
    · exact absurd h (by decide)
  · exact pyStrip_ne_nil_of_head _ d hh (isSpaceChar_of_digit d hddig)

theorem titleLine_getLast (r : Nat) (t url mob : Str) (htne : t ≠ [])
    (hts : pyStrip t = t) :
    ∃ c, (titleLine r t url mob).getLast? = some c ∧ isSpaceChar c = false := by
  by_cases hu : url = []
  · by_cases hm : mob = []
    · subst hu
      subst hm
      obtain ⟨_, c2, hc2, hc2sp⟩ := head_last_not_space_of_strip t hts htne
      refine ⟨c2, ?_, hc2sp⟩
      have h : titleLine r t [] [] = (natStr r ++ rankSepStr) ++ t := by
        simp [titleLine, List.append_assoc]
      rw [h, getLast?_append_right _ htne]
      exact hc2
    · subst hu
      refine ⟨']', ?_, by decide⟩
      have h : titleLine r t [] mob
          = (((natStr r ++ rankSepStr ++ t) ++ mobileTagStr) ++ mob) ++ [']'] := by
        simp [titleLine, hm, List.append_assoc]
      rw [h]
      exact List.getLast?_concat _
  · by_cases hm : mob = []
    · subst hm
      refine ⟨']', ?_, by decide⟩
      have h : titleLine r t url []
          = (((natStr r ++ rankSepStr ++ t) ++ urlTagStr) ++ url) ++ [']'] := by
        simp [titleLine, hu, List.append_assoc]
      rw [h]
      exact List.getLast?_concat _
    · refine ⟨']', ?_, by decide⟩
      have h : titleLine r t url mob
          = ((((((natStr r ++ rankSepStr ++ t) ++ urlTagStr) ++ url) ++ [']'])
              ++ mobileTagStr) ++ mob) ++ [']'] := by
        simp [titleLine, hu, hm, List.append_assoc]
      rw [h]
      exact List.getLast?_concat _

theorem not_prefix_sepNN_head (s : Str) (hne : s ≠ [])
    (hnl : s.head? ≠ some '\n') : ¬ sepNN <+: (s ++ sepNN) := by
  intro hp
  have h1 := head?_of_prefix hp (by decide)
  rw [head?_append_left _ hne] at h1
  have h2 : (some '\n' : Option Char) = s.head? := h1
  exact hnl h2.symm

theorem clean_intercalate_nl : ∀ (pieces : List Str), pieces ≠ [] →
    (∀ p ∈ pieces, p ≠ [] ∧ '\n' ∉ p) →
    ∀ i, i < (List.intercalate nlStr pieces).length →
      ¬ sepNN <+: ((List.intercalate nlStr pieces).drop i ++ sepNN) := by
  intro pieces
  induction pieces with
  | nil => intro h; exact absurd rfl h
  | cons x ps ih =>
    intro _ hp i hi hpre
    cases ps with
    | nil =>
      rw [intercalate_one] at hi hpre
      refine not_prefix_sepNN_head (x.drop i) ?_ ?_ hpre
      · intro h0
        have h1 := congrArg List.length h0
        rw [List.length_drop] at h1
        simp only [List.length_nil] at h1
        omega
      · cases hh : (x.drop i).head? with
        | none => exact fun h0 => by cases h0
        | some e =>
          intro h0
          have he : e = '\n' := Option.some.inj h0
          exact (hp x (by simp)).2
            (he ▸ List.drop_subset i x (mem_of_head? hh))
    | cons y zs =>
      rw [intercalate_cons_ne nlStr x (y :: zs) (by simp)] at hi hpre
      have hy1 : y ≠ [] := (hp y (by simp)).1
      by_cases hix : i < x.length
      · rw [List.append_assoc,
          List.drop_append_of_le_length (Nat.le_of_lt hix)] at hpre
        have hdne : x.drop i ≠ [] := by
          intro h0
          have h1 := congrArg List.length h0
          rw [List.length_drop] at h1
          simp only [List.length_nil] at h1
          omega
        refine not_prefix_sepNN_head _ (by
            intro h0
            exact hdne (List.append_eq_nil.mp h0).1) ?_ hpre
        rw [head?_append_left _ hdne]
        cases hh : (x.drop i).head? with
        | none => exact fun h0 => by cases h0
        | some e =>
          intro h0
          have he : e = '\n' := Option.some.inj h0
          exact (hp x (by simp)).2
            (he ▸ List.drop_subset i x (mem_of_head? hh))
      · by_cases hieq : i = x.length
        · subst hieq
          rw [List.append_assoc, List.drop_left] at hpre
          have hIne : List.intercalate nlStr (y :: zs) ≠ [] :=
            intercalate_nl_ne_nil y zs hy1
          have hshape : (nlStr ++ List.intercalate nlStr (y :: zs)) ++ sepNN
              = '\n' :: (List.intercalate nlStr (y :: zs) ++ sepNN) := by
            rw [show (nlStr : Str) = ['\n'] from by decide]
            simp
          rw [hshape] at hpre
          have h2 : ['\n'] <+: List.intercalate nlStr (y :: zs) ++ sepNN := by
            rw [show (sepNN : Str) = '\n' :: ['\n'] from by decide] at hpre
            exact (List.cons_prefix_cons.mp hpre).2
          have h3 := head?_of_prefix h2 (by simp)
          rw [head?_append_left _ hIne, head?_intercalate_nl y zs hy1] at h3
          cases hyy : y.head? with
          | none =>
            rw [hyy] at h3
            exact absurd h3 (by decide)
          | some e =>
            rw [hyy] at h3
            have he : '\n' = e := by
              have h4 : (some '\n' : Option Char) = some e := h3
              exact Option.some.inj h4
            exact (hp y (by simp)).2 (he ▸ mem_of_head? hyy)
        · have hge : (x ++ nlStr).length ≤ i := by
            rw [List.length_append]
            have h1 : nlStr.length = 1 := by decide
            omega
          have hdp : ((x ++ nlStr) ++ List.intercalate nlStr (y :: zs)).drop i
              = (List.intercalate nlStr (y :: zs)).drop
                  (i - (x ++ nlStr).length) := by
            have h2 : i = (x ++ nlStr).length + (i - (x ++ nlStr).length) := by
              omega
            conv_lhs => rw [h2]
            rw [List.drop_append]
          rw [hdp] at hpre
          have hb : i - (x ++ nlStr).length
              < (List.intercalate nlStr (y :: zs)).length := by
            rw [List.length_append] at hi
            omega
          exact ih (by simp) (fun p hp' => hp p (List.mem_cons_of_mem x hp'))
            _ hb hpre

theorem sortedTitleEntries_ne_nil (titles : SourceTitles) (h : titles ≠ []) :
    sortedTitleEntries titles ≠ [] := by
  intro h0
  have hperm := perm_pyInsertionSort
    (fun a b => firstRank a.2 ≤ firstRank b.2) titles
  rw [sortedTitleEntries] at h0
  rw [h0] at hperm
  exact h (List.perm_nil.mp hperm.symm)

theorem encodeSection_eq (a : Str) (titles : SourceTitles)
    (hne : sortedTitleEntries titles ≠ []) :
    encodeSection a titles
      = List.intercalate nlStr
          (a :: (sortedTitleEntries titles).map
            (fun p => titleLine (firstRank p.2) p.1 p.2.url p.2.mobileUrl))
        ++ sepNN := by
  rw [encodeSection]
  have hmapne : (sortedTitleEntries titles).map
      (fun p => titleLine (firstRank p.2) p.1 p.2.url p.2.mobileUrl) ≠ [] := by
    simp [hne]
  have hmm : (sortedTitleEntries titles).map
      (fun p => titleLine (firstRank p.2) p.1 p.2.url p.2.mobileUrl ++ nlStr)
      = ((sortedTitleEntries titles).map
          (fun p => titleLine (firstRank p.2) p.1 p.2.url p.2.mobileUrl)).map
          (fun l => l ++ nlStr) := by
    rw [List.map_map]
    rfl
  rw [hmm, flatten_map_appendNl _ hmapne,
    intercalate_cons_ne nlStr a _ hmapne, sepNN_eq]
  simp [List.append_assoc]

theorem parseSec_core (aliasName : Str) (lines : List Str)
    (ha1 : pyStrip aliasName = aliasName) (ha2 : aliasName ≠ [])
    (ha3 : '\n' ∉ aliasName)
    (hl : lines ≠ [])
    (hlp : ∀ l ∈ lines, l ≠ [] ∧ '\n' ∉ l ∧ pyStrip l ≠ [])
    (hstrip : pyStrip (List.intercalate nlStr (aliasName :: lines))
        = List.intercalate nlStr (aliasName :: lines))
    (hmark : containsStr (List.intercalate nlStr (aliasName :: lines))
        failMarker = false) :
    parseSec (List.intercalate nlStr (aliasName :: lines))
      = some (aliasName,
          lines.foldl
            (fun acc l => dSet acc (parseTitleLine l).1 (parseTitleLine l).2)
            []) := by
  have hne : List.intercalate nlStr (aliasName :: lines) ≠ [] :=
    intercalate_nl_ne_nil aliasName lines ha2
  have hallp : ∀ p ∈ aliasName :: lines, p ≠ [] ∧ '\n' ∉ p := by
    intro p hp'
    rcases List.mem_cons.mp hp' with rfl | hp'
    · exact ⟨ha2, ha3⟩
    · exact ⟨(hlp p hp').1, (hlp p hp').2.1⟩
  simp only [parseSec]
  rw [hstrip, hmark, splitOnStr_intercalate_nl (aliasName :: lines)
    (by simp) hallp]
  rw [if_neg (by
    rintro (h | h)
    · exact hne h
    · cases h)]
  rw [if_neg (by
    cases lines with
    | nil => exact absurd rfl hl
    | cons y zs =>
      intro hlt
      simp only [List.length_cons] at hlt
      omega)]
  simp only [List.headD_cons, List.tail_cons]
  rw [ha1, List.filter_eq_self.mpr (by
    intro l hl'
    simpa using (hlp l hl').2.2)]

theorem foldl_dSet_pairs {α : Type} : ∀ (l : List (Str × α))
    (acc : List (Str × α)),
    ((l.map Prod.fst).Nodup) → (∀ p ∈ l, dMem acc p.1 = false) →
    l.foldl (fun m p => dSet m p.1 p.2) acc = acc ++ l := by
  intro l
  induction l with
  | nil => intro acc _ _; simp
  | cons p l ih =>
    intro acc hnd hfresh
    simp only [List.map_cons, List.nodup_cons] at hnd
    rw [List.foldl_cons,
      dSet_of_not_mem _ _ _ (hfresh p (List.mem_cons_self p l)),
      ih (acc ++ [(p.1, p.2)]) hnd.2 ?_]
    · simp
    · intro q hq
      rw [dMem_eq_false_iff]
      simp only [List.map_append, List.mem_append, List.map_cons, List.map_nil,
        List.mem_singleton]
      rintro (h | h)
      · exact (dMem_eq_false_iff acc q.1).mp
          (hfresh q (List.mem_cons_of_mem _ hq)) h
      · exact hnd.1 (h ▸ List.mem_map_of_mem Prod.fst hq)

theorem parse_fold_entries : ∀ (entries : SourceTitles)
    (acc : List (Str × TitleData)),
    ((entries.map Prod.fst).Nodup) →
    (∀ e ∈ entries,
      parseTitleLine (titleLine (firstRank e.2) e.1 e.2.url e.2.mobileUrl)
        = (e.1, e.2)) →
    (∀ p ∈ entries, dMem acc p.1 = false) →
    (entries.map
        (fun p => titleLine (firstRank p.2) p.1 p.2.url p.2.mobileUrl)).foldl
        (fun acc l => dSet acc (parseTitleLine l).1 (parseTitleLine l).2) acc
      = acc ++ entries := by
  intro entries
  induction entries with
  | nil => intro acc _ _ _; simp
  | cons e l ih =>
    intro acc hnd hrt hfresh
    simp only [List.map_cons, List.nodup_cons] at hnd
    rw [List.map_cons, List.foldl_cons]
    rw [hrt e (List.mem_cons_self e l)]
    dsimp only
    rw [dSet_of_not_mem _ _ _ (hfresh e (List.mem_cons_self e l)),
      ih (acc ++ [(e.1, e.2)]) hnd.2
        (fun e' he' => hrt e' (List.mem_cons_of_mem _ he')) ?_]
    · simp
    · intro q hq
      rw [dMem_eq_false_iff]
      simp only [List.map_append, List.mem_append, List.map_cons, List.map_nil,
        List.mem_singleton]
      rintro (h | h)
      · exact (dMem_eq_false_iff acc q.1).mp
          (hfresh q (List.mem_cons_of_mem _ hq)) h
      · exact hnd.1 (h ▸ List.mem_map_of_mem Prod.fst hq)

/-- Modelled from the amended claim: a title record that the text codec can
round-trip (exactly one stored rank; title stripped, nonempty, free of
newlines, of `'='`, and of both tag markers; urls free of newlines, `'='`,
and tag markers). -/
def cleanEntry (e : Str × TitleData) : Prop :=
  e.2.ranks.length = 1
    ∧ pyStrip e.1 = e.1 ∧ e.1 ≠ [] ∧ '\n' ∉ e.1 ∧ '=' ∉ e.1
    ∧ containsStr e.1 urlTagStr = false ∧ containsStr e.1 mobileTagStr = false
    ∧ '\n' ∉ e.2.url ∧ '=' ∉ e.2.url
    ∧ containsStr e.2.url urlTagStr = false
    ∧ containsStr e.2.url mobileTagStr = false
    ∧ '\n' ∉ e.2.mobileUrl ∧ '=' ∉ e.2.mobileUrl
    ∧ containsStr e.2.mobileUrl mobileTagStr = false

instance (e : Str × TitleData) : Decidable (cleanEntry e) := by
  unfold cleanEntry
  infer_instance

/-- Modelled from the amended claim: a source whose section the codec can
round-trip (display alias stripped, nonempty, newline- and `'='`-free;
a nonempty duplicate-free title dict of clean entries). -/
def cleanSource (a : Str) (titles : SourceTitles) : Prop :=
  pyStrip a = a ∧ a ≠ [] ∧ '\n' ∉ a ∧ '=' ∉ a
    ∧ titles ≠ [] ∧ (titles.map Prod.fst).Nodup
    ∧ ∀ e ∈ titles, cleanEntry e

instance (a : Str) (titles : SourceTitles) : Decidable (cleanSource a titles) := by
  unfold cleanSource
  infer_instance

theorem entry_roundtrip (e : Str × TitleData) (hc : cleanEntry e) :
    parseTitleLine (titleLine (firstRank e.2) e.1 e.2.url e.2.mobileUrl)
      = (e.1, e.2) := by
  obtain ⟨h1, h2, h3, _, _, h6, h7, _, _, h10, h11, _, _, h14⟩ := hc
  rw [parseTitleLine_titleLine (firstRank e.2) e.1 e.2.url e.2.mobileUrl
    h2 h3 h6 h7 h10 h11 h14]
  have he2 : (⟨[firstRank e.2], e.2.url, e.2.mobileUrl⟩ : TitleData) = e.2 := by
    cases he : e.2 with
    | mk rks u m =>
      rw [he] at h1
      cases rks with
      | nil => simp at h1
      | cons x xs =>
        cases xs with
        | nil => rfl
        | cons y ys => simp at h1
  rw [he2]

theorem section_pieces_ok (a : Str) (titles : SourceTitles)
    (hc : cleanSource a titles) :
    ∀ q ∈ a :: (sortedTitleEntries titles).map
        (fun p => titleLine (firstRank p.2) p.1 p.2.url p.2.mobileUrl),
      q ≠ [] ∧ '\n' ∉ q := by
  intro q hq
  rcases List.mem_cons.mp hq with rfl | hq
  · exact ⟨hc.2.1, hc.2.2.1⟩
  · obtain ⟨p, hp, rfl⟩ := List.mem_map.mp hq
    obtain ⟨_, _, _, htn, _, _, _, hun, _, _, _, hmn, _, _⟩ :=
      hc.2.2.2.2.2.2 p ((perm_pyInsertionSort _ titles).subset hp)
    have := titleLine_props (firstRank p.2) p.1 p.2.url p.2.mobileUrl htn hun hmn
    exact ⟨this.1, this.2.1⟩

theorem parseSec_section (a : Str) (titles : SourceTitles)
    (hc : cleanSource a titles) :
    parseSec (List.intercalate nlStr
        (a :: (sortedTitleEntries titles).map
          (fun p => titleLine (firstRank p.2) p.1 p.2.url p.2.mobileUrl)))
      = some (a, sortedTitleEntries titles) := by
  obtain ⟨ha1, ha2, ha3, ha4, ht1, ht2, ht3⟩ := hc
  have hsub : ∀ e ∈ sortedTitleEntries titles, cleanEntry e := by
    intro e he
    exact ht3 e ((perm_pyInsertionSort _ titles).subset he)
  have hlines : ∀ l ∈ (sortedTitleEntries titles).map
      (fun p => titleLine (firstRank p.2) p.1 p.2.url p.2.mobileUrl),
      l ≠ [] ∧ '\n' ∉ l ∧ pyStrip l ≠ [] := by
    intro l hl
    obtain ⟨p, hp, rfl⟩ := List.mem_map.mp hl
    obtain ⟨_, _, _, htn, _, _, _, hun, _, _, _, hmn, _, _⟩ := hsub p hp
    exact titleLine_props (firstRank p.2) p.1 p.2.url p.2.mobileUrl htn hun hmn
  have hlne : (sortedTitleEntries titles).map
      (fun p => titleLine (firstRank p.2) p.1 p.2.url p.2.mobileUrl) ≠ [] := by
    simp [sortedTitleEntries_ne_nil titles ht1]
  have hallp := section_pieces_ok a titles ⟨ha1, ha2, ha3, ha4, ht1, ht2, ht3⟩
  obtain ⟨⟨c1, hc1, hc1sp⟩, _⟩ := head_last_not_space_of_strip a ha1 ha2
  have hstrip : pyStrip (List.intercalate nlStr
      (a :: (sortedTitleEntries titles).map
        (fun p => titleLine (firstRank p.2) p.1 p.2.url p.2.mobileUrl)))
      = List.intercalate nlStr
        (a :: (sortedTitleEntries titles).map
          (fun p => titleLine (firstRank p.2) p.1 p.2.url p.2.mobileUrl)) := by
    obtain ⟨ls', lastL, hdecomp⟩ :=
      (List.eq_nil_or_concat _).resolve_left hlne
    have hlastmem : lastL ∈ (sortedTitleEntries titles).map
        (fun p => titleLine (firstRank p.2) p.1 p.2.url p.2.mobileUrl) := by
      rw [hdecomp]
      simp
    obtain ⟨pl, hpl, hplline⟩ := List.mem_map.mp hlastmem
    obtain ⟨_, hps, hpn, _⟩ := hsub pl hpl
    obtain ⟨cl, hcl, hclsp⟩ :=
      titleLine_getLast (firstRank pl.2) pl.1 pl.2.url pl.2.mobileUrl hpn hps
    apply pyStrip_of_ends _ c1 cl
    · rw [head?_intercalate_nl a _ ha2]
      exact hc1
    · exact hc1sp
    · rw [show a :: (sortedTitleEntries titles).map
          (fun p => titleLine (firstRank p.2) p.1 p.2.url p.2.mobileUrl)
          = (a :: ls') ++ [lastL] from by
            rw [hdecomp, List.concat_eq_append, List.cons_append],
        getLast?_intercalate_nl (a :: ls') lastL
          (hlines lastL hlastmem).1]
      have hplline' : titleLine (firstRank pl.2) pl.1 pl.2.url pl.2.mobileUrl
          = lastL := hplline
      rw [← hplline']
      exact hcl
    · exact hclsp
  have hmark : containsStr (List.intercalate nlStr
      (a :: (sortedTitleEntries titles).map
        (fun p => titleLine (firstRank p.2) p.1 p.2.url p.2.mobileUrl)))
      failMarker = false := by
    rw [← Bool.not_eq_true]
    intro hcon
    have heq : ('=' : Char) ∈ List.intercalate nlStr
        (a :: (sortedTitleEntries titles).map
          (fun p => titleLine (firstRank p.2) p.1 p.2.url p.2.mobileUrl)) :=
      mem_of_containsStr hcon (by decide)
    rcases mem_intercalate_nl _ heq with ⟨q, hq, hin⟩ | h
    · rcases List.mem_cons.mp hq with rfl | hq
      · exact ha4 hin
      · obtain ⟨p, hp, rfl⟩ := List.mem_map.mp hq
        obtain ⟨_, _, _, _, hte, _, _, _, hue, _, _, _, hme, _⟩ := hsub p hp
        rcases mem_titleLine hin with h | h | h | h | h | h | h | h
        · exact natStr_no_char _ '=' (by decide) h
        · exact absurd h (by decide)
        · exact hte h
        · exact absurd h (by decide)
        · exact hue h
        · exact absurd h (by decide)
        · exact hme h
        · exact absurd h (by decide)
    · exact absurd h (by decide)
  rw [parseSec_core a _ ha1 ha2 ha3 hlne hlines hstrip hmark]
  have hsortnd : ((sortedTitleEntries titles).map Prod.fst).Nodup :=
    (((perm_pyInsertionSort _ titles).map Prod.fst).nodup_iff).mpr ht2
  have hfold := parse_fold_entries (sortedTitleEntries titles) [] hsortnd
    (fun e he => entry_roundtrip e (hsub e he)) (fun q _ => rfl)
  rw [show ((sortedTitleEntries titles).map
      (fun p => titleLine (firstRank p.2) p.1 p.2.url p.2.mobileUrl)).foldl
      (fun acc l => dSet acc (parseTitleLine l).1 (parseTitleLine l).2) []
      = sortedTitleEntries titles from by simpa using hfold]

theorem dGet_map_key_gen {α β : Type} (key : α → Str) (F : α → β)
    (l : List α) (hnd : (l.map key).Nodup) (x : α) (hx : x ∈ l) :
    dGet (l.map (fun y => (key y, F y))) (key x) = some (F x) := by
  induction l with
  | nil => cases hx
  | cons x0 l ih =>
    simp only [List.map_cons, List.nodup_cons] at hnd
    rw [List.map_cons, dGet_cons]
    rcases List.mem_cons.mp hx with rfl | hx
    · rw [if_pos rfl]
    · rw [if_neg, ih hnd.2 hx]
      intro he
      have he' : key x0 = key x := he
      exact hnd.1 (he' ▸ List.mem_map_of_mem key hx)

theorem dGet_of_mem_nodup {α : Type} {m : List (Str × α)} {p : Str × α}
    (hnd : (m.map Prod.fst).Nodup) (hp : p ∈ m) : dGet m p.1 = some p.2 := by
  rw [dGet, find?_eq_of_unique hp (by simp) ?_]
  · rfl
  · intro y hy hyp
    have h1 : y.1 = p.1 := by simpa using hyp
    exact List.inj_on_of_nodup_map hnd hy hp h1

theorem parseFileTitles_saveContent (ia : List (Str × Str)) :
    ∀ (results : List (Str × SourceTitles)) (acc : ParsedFile),
    (∀ p ∈ results, cleanSource ((dGet ia p.1).getD p.1) p.2) →
    ((results.map (fun p => (dGet ia p.1).getD p.1)).Nodup) →
    (∀ p ∈ results, dMem acc ((dGet ia p.1).getD p.1) = false) →
    (splitOnStr sepNN
        ((results.map (fun p =>
          encodeSection ((dGet ia p.1).getD p.1) p.2)).flatten)).foldl
        (fun acc s =>
          match parseSec s with
          | none => acc
          | some nt => dSet acc nt.1 nt.2) acc
      = acc ++ results.map (fun p =>
          ((dGet ia p.1).getD p.1, sortedTitleEntries p.2)) := by
  intro results
  induction results with
  | nil =>
    intro acc _ _ _
    simp only [List.map_nil, List.flatten_nil]
    rw [show splitOnStr sepNN [] = [[]] from by decide, List.foldl_cons,
      List.foldl_nil,
      show (match parseSec ([] : Str) with
        | none => acc
        | some nt => dSet acc nt.1 nt.2) = acc from by
        rw [show parseSec ([] : Str) = none from by decide]]
    simp
  | cons p rest ih =>
    intro acc hclean hnd hfresh
    have hcp := hclean p (List.mem_cons_self p rest)
    simp only [List.map_cons, List.nodup_cons] at hnd
    rw [List.map_cons, List.flatten_cons,
      encodeSection_eq _ _ (sortedTitleEntries_ne_nil p.2 hcp.2.2.2.2.1),
      List.append_assoc (List.intercalate nlStr _) sepNN _,
      ← List.append_assoc (List.intercalate nlStr _) sepNN _,
      splitOnStr_append sepNN _ _ (by decide)
        (clean_intercalate_nl _ (by simp) (section_pieces_ok _ _ hcp)),
      List.foldl_cons,
      show (match parseSec (List.intercalate nlStr
            (((dGet ia p.1).getD p.1) :: (sortedTitleEntries p.2).map
              (fun q => titleLine (firstRank q.2) q.1 q.2.url q.2.mobileUrl)))
          with
        | none => acc
        | some nt => dSet acc nt.1 nt.2)
          = dSet acc ((dGet ia p.1).getD p.1) (sortedTitleEntries p.2) from by
        rw [parseSec_section _ _ hcp],
      dSet_of_not_mem _ _ _ (hfresh p (List.mem_cons_self p rest)),
      ih (acc ++ [((dGet ia p.1).getD p.1, sortedTitleEntries p.2)])
        (fun q hq => hclean q (List.mem_cons_of_mem _ hq)) hnd.2 ?_]
    · simp
    · intro q hq
      rw [dMem_eq_false_iff]
      simp only [List.map_append, List.mem_append, List.map_cons, List.map_nil,
        List.mem_singleton]
      rintro (h | h)
      · exact (dMem_eq_false_iff acc _).mp
          (hfresh q (List.mem_cons_of_mem _ hq)) h
      · exact hnd.1 (h ▸ List.mem_map_of_mem
          (fun p' => (dGet ia p'.1).getD p'.1) hq)

/-- C1: counterexample to the stated round trip.  The snapshot title "t" with
an EMPTY rank list satisfies every stated precondition (no tag substrings,
strip-invariant, at most one rank), yet decoding the encoded file yields rank
list [1], not []. -/
theorem C1_counterexample :
    (containsStr "t".data urlTagStr = false
        ∧ containsStr "t".data mobileTagStr = false
        ∧ pyStrip "t".data = "t".data
        ∧ (⟨[], [], []⟩ : TitleData).ranks.length ≤ 1)
      ∧ dGet ((dGet (parseFileTitles (saveTitlesContent
            [("s".data, [("t".data, (⟨[], [], []⟩ : TitleData))])] [] []))
            "s".data).getD []) "t".data
          = some ⟨[1], [], []⟩
      ∧ (⟨[1], [], []⟩ : TitleData) ≠ (⟨[], [], []⟩ : TitleData) :=
  ⟨by decide, by decide, by decide⟩

/-- C1 (amended): for snapshots whose sources each carry a stripped, nonempty,
newline- and `'='`-free display alias (pairwise distinct), a nonempty
duplicate-free title dict, and titles with EXACTLY one rank, stripped,
nonempty, free of newlines, `'='` and tag markers (urls likewise clean),
decoding the encoded file reproduces every source exactly: the result is
keyed by display alias and each source's titles are the rank-sorted
permutation of the originals, so every title's string, url, mobileUrl and
rank are reproduced exactly. -/
theorem C1_amended (results : List (Str × SourceTitles)) (ia : List (Str × Str))
    (hclean : ∀ p ∈ results, cleanSource ((dGet ia p.1).getD p.1) p.2)
    (hnd : (results.map (fun p => (dGet ia p.1).getD p.1)).Nodup) :
    parseFileTitles (saveTitlesContent results ia [])
        = results.map (fun p =>
            ((dGet ia p.1).getD p.1, sortedTitleEntries p.2))
      ∧ ∀ p ∈ results, ∀ e ∈ p.2,
          dGet ((dGet (parseFileTitles (saveTitlesContent results ia []))
              ((dGet ia p.1).getD p.1)).getD []) e.1 = some e.2 := by
  have hcontent : saveTitlesContent results ia []
      = (results.map (fun p =>
          encodeSection ((dGet ia p.1).getD p.1) p.2)).flatten := by
    rw [saveTitlesContent,
      show failSection [] ia = [] from by rw [failSection, if_pos rfl],
      List.append_nil]
  have hmain : parseFileTitles (saveTitlesContent results ia [])
      = results.map (fun p =>
          ((dGet ia p.1).getD p.1, sortedTitleEntries p.2)) := by
    rw [hcontent, parseFileTitles]
    have h := parseFileTitles_saveContent ia results [] hclean hnd
      (fun p _ => rfl)
    simpa using h
  refine ⟨hmain, ?_⟩
  intro p hp e he
  rw [hmain]
  have h2 : dGet (results.map (fun q =>
        ((dGet ia q.1).getD q.1, sortedTitleEntries q.2)))
        ((dGet ia p.1).getD p.1)
      = some (sortedTitleEntries p.2) :=
    dGet_map_key_gen (fun q => (dGet ia q.1).getD q.1)
      (fun q => sortedTitleEntries q.2) results hnd p hp
  rw [h2]
  simp only [Option.getD_some]
  have hcp := hclean p hp
  have hsortnd : ((sortedTitleEntries p.2).map Prod.fst).Nodup :=
    ((perm_pyInsertionSort _ p.2).map Prod.fst).nodup_iff.mpr
      hcp.2.2.2.2.2.1
  exact dGet_of_mem_nodup hsortnd ((perm_pyInsertionSort _ p.2).symm.subset he)

theorem C1_witness :
    ((∀ p ∈ ([("s".data, [("t".data, (⟨[2], "u".data, []⟩ : TitleData)),
            ("a".data, (⟨[1], [], "m".data⟩ : TitleData))])]
          : List (Str × SourceTitles)),
        cleanSource ((dGet ([] : List (Str × Str)) p.1).getD p.1) p.2)
      ∧ (([("s".data, [("t".data, (⟨[2], "u".data, []⟩ : TitleData)),
            ("a".data, (⟨[1], [], "m".data⟩ : TitleData))])]
          : List (Str × SourceTitles)).map
            (fun p => (dGet ([] : List (Str × Str)) p.1).getD p.1)).Nodup)
      ∧ parseFileTitles (saveTitlesContent
          [("s".data, [("t".data, ⟨[2], "u".data, []⟩),
            ("a".data, ⟨[1], [], "m".data⟩)])] [] [])
        = [("s".data, [("t".data, ⟨[2], "u".data, []⟩),
            ("a".data, ⟨[1], [], "m".data⟩)])].map
            (fun p => ((dGet ([] : List (Str × Str)) p.1).getD p.1,
              sortedTitleEntries p.2)) :=
  ⟨by decide,
    (C1_amended
      [("s".data, [("t".data, ⟨[2], "u".data, []⟩),
        ("a".data, ⟨[1], [], "m".data⟩)])] []
      (by decide) (by decide)).1⟩

end TrendRadar
